import Mathlib

/-!
# LLSD XML decoder (`llsd/xml.go`)

A shallow embedding of the streaming decoder of `llsd/xml.go` and the
properties of its specification.

Modelling conventions.

* A Go `string` / `[]byte` payload is a list of bytes (`Bytes`, each byte a
  natural number below 256).  Element and attribute names, which the decoder
  only compares with literals, are Lean strings.
* The `encoding/xml` tokenizer is an external collaborator.  The state of an
  `xml.Decoder` is the list of tokens it has still to deliver; when the list
  is exhausted `Token()` reports its (sticky) error, `io.EOF` or a
  `*xml.SyntaxError`.  The decoder treats both alike (`panic(err)`).
* A Go panic is an explicit result (`Res.panic`, `Outcome.panicked`) carrying
  the kind of the panic value, which is what the deferred `recover` in
  `Unmarshal` inspects.
* The recursive descent is defined by structural recursion on a fuel
  argument; `Res.noFuel` / `Outcome.noFuel` is the result of an exhausted
  budget.  `UnmarshalXML` supplies `2 * length + 1` units, which is always
  enough (`UnmarshalXML_ne_noFuel`).
* Library conversions whose text is not part of the repository
  (`strconv.ParseFloat`, `uuid.Parse`, `time.Parse`, `base64`, `ascii85`) are
  parameters, collected in `Lib`.  `strconv.ParseInt` and `strconv.ParseBool`
  are modelled after the Go standard library.
-/

namespace LLSD

/-! ## Data model -/

/-- Byte strings: Go `string` and `[]byte` values. -/
abbrev Bytes := List Nat

/-- The bytes of an ASCII literal. -/
def str (s : String) : Bytes := s.toList.map Char.toNat

/-- Type `xml.Attr`, with the local part of its name. -/
structure Attr where
  Name : String
  Value : String
deriving DecidableEq, Repr

/-- Type `xml.StartElement`, with the local part of its name. -/
structure StartElement where
  Name : String
  Attr : List Attr
deriving DecidableEq, Repr

/-- The tokens an `xml.Decoder` delivers. -/
inductive Token where
  | StartElement (t : StartElement)
  | EndElement (name : String)
  | CharData (data : Bytes)
  | Comment (data : Bytes)
  | ProcInst (target : String) (inst : Bytes)
  | Directive (data : Bytes)
deriving DecidableEq, Repr

/-- Type `time.Time`, as an instant: seconds and nanoseconds since the Unix epoch. -/
structure Time where
  sec : Int
  nsec : Nat
deriving DecidableEq, Repr

/-- Function `time.Unix(sec, nsec)`. -/
def Time.Unix (sec : Int) (nsec : Nat) : Time := ⟨sec, nsec⟩

/-- The zero value `time.Time{}`: January 1, year 1, 00:00:00 UTC. -/
def Time.zero : Time := ⟨-62135596800, 0⟩

/-- The dynamic values the decoder produces (`interface{}` holding `bool`, `int`,
`float64`, `string`, `uuid.UUID`, `time.Time`, `[]byte`, `Map`, `Array` or `Undef`).
A `float64` is carried as its IEEE-754 bit pattern, a `uuid.UUID` (a byte slice) as
its bytes with `nil` the empty list, and a `Map` as an association list with
unique keys. -/
inductive Value where
  | undef
  | boolean (b : Bool)
  | integer (i : Int)
  | real (bits : Nat)
  | string (s : Bytes)
  | uuid (u : Bytes)
  | date (t : Time)
  | binary (b : Bytes)
  | map (m : List (Bytes × Value))
  | array (a : List Value)

/-- Type `Map`: `map[string]interface{}`. -/
abbrev Map := List (Bytes × Value)

/-- Type `Array`: `[]interface{}`. -/
abbrev Array := List Value

/-- The assignment `m[k] = v` of a Go map. -/
def Map.set : Map → Bytes → Value → Map
  | [], k, v => [(k, v)]
  | (k', v') :: m, k, v => if k' = k then (k, v) :: m else (k', v') :: Map.set m k v

/-- The lookup `m[k]` of a Go map. -/
def Map.get? : Map → Bytes → Option Value
  | [], _ => none
  | (k', v') :: m, k => if k' = k then some v' else Map.get? m k

/-- Go `error` values that reach the caller. -/
inductive GoError where
  /-- the package variable `InvalidUnmarshalError` -/
  | InvalidUnmarshalError
  /-- the error of the tokenizer: `io.EOF` or a `*xml.SyntaxError` -/
  | tokenizer
deriving DecidableEq, Repr

/-- The value a panic carries, by what `recover` can tell of it. -/
inductive Panic where
  /-- the call `panic(err)` with an `error` that is not a `runtime.Error` -/
  | error (e : GoError)
  /-- the call `panic("...")` with a string -/
  | str (msg : String)
  /-- the run-time panic with a `runtime.Error` -/
  | runtime (msg : String)
deriving DecidableEq, Repr

/-- Result of a parsing routine: the value returned and the tokens left in the
decoder, or a panic, or an exhausted recursion budget. -/
inductive Res (α : Type) where
  | ok (v : α) (rest : List Token)
  | panic (p : Panic)
  | noFuel

/-- The returned value passed through `f`: a call whose result is converted on return. -/
def Res.map {α β : Type} (f : α → β) : Res α → Res β
  | .ok v rest => .ok (f v) rest
  | .panic p => .panic p
  | .noFuel => .noFuel

/-- Sequencing: the call `r`, then `f` on its value and on the tokens it left.  A
panic (and an exhausted budget) propagates. -/
def Res.bind {α β : Type} (r : Res α) (f : α → List Token → Res β) : Res β :=
  match r with
  | .ok v rest => f v rest
  | .panic p => .panic p
  | .noFuel => .noFuel

/-- Library conversions the decoder calls and whose text is outside the repository. -/
structure Lib where
  /-- `strconv.ParseFloat(s, 64)`: the bits of the result, `none` on error -/
  ParseFloat : Bytes → Option Nat
  /-- `uuid.Parse(s)`: the 16 bytes, `[]` (nil) when `s` is not a UUID -/
  uuidParse : Bytes → Bytes
  /-- `time.Parse("2006-01-02T15:04:05Z", s)`: the instant, `none` on error
  (the `Time` returned with an error is `time.Time{}`) -/
  timeParse : Bytes → Option Time
  /-- `base64.StdEncoding.DecodeString(s)`: the bytes returned and whether an error came with them -/
  base64DecodeString : Bytes → Bytes × Bool
  /-- `ascii85.Decode(dst, src, true)` into a buffer of `MaxEncodedLen(len(src))`
  bytes: the `ndst` bytes written -/
  ascii85Decode : Bytes → Bytes

/-- The value `uuid.NIL`, the all-zero UUID. -/
def uuidNIL : Bytes := List.replicate 16 0

/-! ## `strconv` -/

/-- The errors of `strconv`: `ErrSyntax` and `ErrRange`. -/
inductive NumError where
  | ErrSyntax
  | ErrRange
deriving DecidableEq, Repr

/-- Function `lower(c)` of `strconv`: `c | ('x' - 'X')`. -/
def lower (c : Nat) : Nat := c ||| 32

/-- The digit `d` that the loop of `strconv.ParseUint` reads in the byte `c`: `c - '0'`
for a decimal digit, `lower(c) - 'a' + 10` for a letter, none for another byte. -/
def digitOf (c : Nat) : Option Nat :=
  if 48 ≤ c ∧ c ≤ 57 then some (c - 48)
  else if 97 ≤ lower c ∧ lower c ≤ 122 then some (lower c - 97 + 10)
  else none

/-- The loop of `strconv.ParseUint` on the remaining bytes, `n` the number so far,
for an explicit base `2 ≤ base ≤ 36` (`uint64` arithmetic). -/
def parseUintLoop (base maxVal : Nat) : Nat → Bytes → Nat × Option NumError
  | n, [] => (n, none)
  | n, c :: s =>
    match digitOf c with
    | none => (0, some .ErrSyntax)
    | some d =>
      if d ≥ base then (0, some .ErrSyntax)
      else if n ≥ (2 ^ 64 - 1) / base + 1 then (maxVal, some .ErrRange)
      else
        let n0 := n * base
        let n1 := (n0 + d) % 2 ^ 64
        if n1 < n0 ∨ n1 > maxVal then (maxVal, some .ErrRange)
        else parseUintLoop base maxVal n1 s

/-- Function `strconv.ParseUint(s, base, bitSize)` for `2 ≤ base ≤ 36` and
`1 ≤ bitSize ≤ 64`. -/
def ParseUint (s : Bytes) (base bitSize : Nat) : Nat × Option NumError :=
  if s = [] then (0, some .ErrSyntax)
  else parseUintLoop base (2 ^ bitSize - 1) 0 s

/-- Function `strconv.ParseInt(s, base, bitSize)` for `2 ≤ base ≤ 36` and
`1 ≤ bitSize ≤ 64`. -/
def ParseInt (s : Bytes) (base bitSize : Nat) : Int × Option NumError :=
  match s with
  | [] => (0, some .ErrSyntax)
  | c :: s' =>
    let neg := c = 45
    let s1 := if c = 43 ∨ c = 45 then s' else s
    match ParseUint s1 base bitSize with
    | (_, some .ErrSyntax) => (0, some .ErrSyntax)
    | (un, _) =>
      let cutoff : Nat := 2 ^ (bitSize - 1)
      if ¬ neg ∧ un ≥ cutoff then (((cutoff - 1 : Nat) : Int), some .ErrRange)
      else if neg ∧ un > cutoff then (-(cutoff : Int), some .ErrRange)
      else (if neg then -(un : Int) else (un : Int), none)

/-- Function `strconv.ParseBool(str)`. -/
def ParseBool (s : Bytes) : Bool × Option NumError :=
  if s = str "1" ∨ s = str "t" ∨ s = str "T" ∨ s = str "true" ∨ s = str "TRUE" ∨ s = str "True" then
    (true, none)
  else if s = str "0" ∨ s = str "f" ∨ s = str "F" ∨ s = str "false" ∨ s = str "FALSE"
      ∨ s = str "False" then
    (false, none)
  else (false, some .ErrSyntax)

/-! ## The decoder -/

/-- Method `(*xml.Decoder).Skip`, entered `depth` start elements deep: reads tokens
up to and including the end element that closes the element it was called in.
An error of the tokenizer ends it; the callers below drop that error. -/
def skipFrom : Nat → List Token → List Token
  | _, [] => []
  | depth, .StartElement _ :: rest => skipFrom (depth + 1) rest
  | 0, .EndElement _ :: rest => rest
  | depth + 1, .EndElement _ :: rest => skipFrom depth rest
  | depth, _ :: rest => skipFrom depth rest

/-- The call `x.decoder.Skip()`, its error dropped. -/
def Skip (toks : List Token) : List Token := skipFrom 0 toks

/-- Method `parseBoolean`. -/
def parseBoolean : List Token → Res Bool
  | [] => .panic (.error .tokenizer)
  | .StartElement _ :: _ => .panic (.str "Unexpected start element in <boolean>")
  | .CharData t :: rest =>
    let b := match ParseBool t with
      | (_, some _) => false
      | (b, none) => b
    .ok b (Skip rest)
  | .EndElement _ :: rest => .ok false rest
  | _ :: rest => parseBoolean rest

/-- Method `parseInteger`. -/
def parseInteger : List Token → Res Int
  | [] => .panic (.error .tokenizer)
  | .StartElement _ :: _ => .panic (.str "Unexpected start element in <integer>")
  | .CharData t :: rest =>
    let i := match ParseInt t 10 32 with
      | (_, some _) => 0
      | (i, none) => i
    .ok i (Skip rest)
  | .EndElement _ :: rest => .ok 0 rest
  | _ :: rest => parseInteger rest

/-- Method `parseReal`. -/
def parseReal (lib : Lib) : List Token → Res Nat
  | [] => .panic (.error .tokenizer)
  | .StartElement _ :: _ => .panic (.str "Unexpected start element in <real>")
  | .CharData t :: rest =>
    let r := match lib.ParseFloat t with
      | none => 0
      | some r => r
    .ok r (Skip rest)
  | .EndElement _ :: rest => .ok 0 rest
  | _ :: rest => parseReal lib rest

/-- Method `parseString`. -/
def parseString : List Token → Res Bytes
  | [] => .panic (.error .tokenizer)
  | .StartElement _ :: _ => .panic (.str "Unexpected start element in <string>")
  | .CharData t :: rest => .ok t (Skip rest)
  | .EndElement _ :: rest => .ok [] rest
  | _ :: rest => parseString rest

/-- Method `parseUUID`. -/
def parseUUID (lib : Lib) : List Token → Res Bytes
  | [] => .panic (.error .tokenizer)
  | .StartElement _ :: _ => .panic (.str "Unexpected start element in <uuid>")
  | .CharData t :: rest => .ok (lib.uuidParse t) (Skip rest)
  | .EndElement _ :: rest => .ok uuidNIL rest
  | _ :: rest => parseUUID lib rest

/-- Method `parseDate`. -/
def parseDate (lib : Lib) : List Token → Res Time
  | [] => .panic (.error .tokenizer)
  | .StartElement _ :: _ => .panic (.str "Unexpected start element in <date>")
  | .CharData t :: rest =>
    match lib.timeParse t with
    | none => .ok Time.zero (Skip rest)
    | some _ => .ok (Time.Unix 0 0) (Skip rest)
  | .EndElement _ :: rest => .ok (Time.Unix 0 0) rest
  | _ :: rest => parseDate lib rest

/-- Method `parseURI`. -/
def parseURI (toks : List Token) : Res Bytes := parseString toks

/-- The conversion `byte(n)` of an `int64`. -/
def toByte (n : Int) : Nat := (n % 256).toNat

/-- The `base16` loop of `parseBinary` from index `i` on, the bytes from `i` given:
`output[i/2] = byte(n)` for `n, _ := strconv.ParseInt(string(t[i:i+2]), 16, 8)`.
A last odd byte makes `output[i/2]` (or the slice `t[i:i+2]`) go out of range. -/
def base16 : Bytes → Except Panic Bytes
  | [] => .ok []
  | [_] => .error (.runtime "index out of range")
  | a :: b :: t =>
    match base16 t with
    | .error p => .error p
    | .ok out => .ok (toByte (ParseInt [a, b] 16 8).1 :: out)

/-- Runs `n` deferred calls of `x.decoder.Skip()`. -/
def runDeferred : Nat → List Token → List Token
  | 0, toks => toks
  | n + 1, toks => runDeferred n (Skip toks)

/-- Method `parseBinary`, with `deferred` calls of `Skip` pending from earlier
iterations of its loop. -/
def parseBinary (lib : Lib) (encoding : String) : Nat → List Token → Res Bytes
  | _, [] => .panic (.error .tokenizer)
  | _, .StartElement _ :: _ => .panic (.str "Unexpected start element in <binary>")
  | deferred, .CharData t :: rest =>
    if encoding = "base64" ∨ encoding = "" then
      .ok (lib.base64DecodeString t).1 (runDeferred (deferred + 1) rest)
    else if encoding = "base85" then
      .ok (lib.ascii85Decode t) (runDeferred (deferred + 1) rest)
    else if encoding = "base16" then
      match base16 t with
      | .error p => .panic p
      | .ok output => .ok output (runDeferred (deferred + 1) rest)
    else parseBinary lib encoding (deferred + 1) rest
  | deferred, .EndElement _ :: rest => .ok [] (runDeferred deferred rest)
  | deferred, _ :: rest => parseBinary lib encoding deferred rest

/-- Method `parseUndef`. -/
def parseUndef (toks : List Token) : Res Value := .ok .undef (Skip toks)

/-- The loop of `parseSomething` over `t.Attr` that finds the `encoding` of a `<binary>`. -/
def encodingOf : List Attr → String
  | [] => ""
  | v :: attrs => if v.Name = "encoding" then v.Value else encodingOf attrs

mutual

/-- Method `parseMap`, at the head of its loop with the locals `m`, `current_key`
and `has_key`. -/
def parseMapLoop (lib : Lib) : Nat → Map → Bytes → Bool → List Token → Res Map
  | 0, _, _, _, _ => .noFuel
  | _ + 1, _, _, _, [] => .panic (.error .tokenizer)
  | fuel + 1, m, current_key, has_key, .StartElement t :: rest =>
    if ¬ has_key then
      if t.Name = "key" then
        (parseString rest).bind fun key rest' => parseMapLoop lib fuel m key true rest'
      else .panic (.str ("Execpted <key>, got <" ++ t.Name ++ ">"))
    else
      (parseSomething lib fuel t rest).bind fun v rest' =>
        parseMapLoop lib fuel (Map.set m current_key v) current_key false rest'
  | _ + 1, m, _, _, .EndElement name :: rest =>
    if name = "map" then .ok m rest
    else .panic (.str ("Closing element other than </map>! (" ++ name ++ ") - this is impossible."))
  | fuel + 1, m, current_key, has_key, _ :: rest => parseMapLoop lib fuel m current_key has_key rest

/-- Method `parseArray`, at the head of its loop with the list `l`. -/
def parseArrayLoop (lib : Lib) : Nat → List Value → List Token → Res Array
  | 0, _, _ => .noFuel
  | _ + 1, _, [] => .panic (.error .tokenizer)
  | fuel + 1, l, .StartElement t :: rest =>
    (parseSomething lib fuel t rest).bind fun v rest' => parseArrayLoop lib fuel (l ++ [v]) rest'
  | _ + 1, l, .EndElement name :: rest =>
    if name = "array" then .ok l rest
    else .panic (.str ("Closing element other than </map>! (" ++ name ++ ") - this is impossible."))
  | fuel + 1, l, _ :: rest => parseArrayLoop lib fuel l rest

/-- Method `parseSomething`. -/
def parseSomething (lib : Lib) : Nat → StartElement → List Token → Res Value
  | 0, _, _ => .noFuel
  | fuel + 1, t, toks =>
    if t.Name = "boolean" then (parseBoolean toks).map .boolean
    else if t.Name = "integer" then (parseInteger toks).map .integer
    else if t.Name = "real" then (parseReal lib toks).map .real
    else if t.Name = "string" then (parseString toks).map .string
    else if t.Name = "uuid" then (parseUUID lib toks).map .uuid
    else if t.Name = "date" then (parseDate lib toks).map .date
    else if t.Name = "uri" then (parseURI toks).map .string
    else if t.Name = "binary" then (parseBinary lib (encodingOf t.Attr) 0 toks).map .binary
    else if t.Name = "map" then (parseMapLoop lib fuel [] [] false toks).map .map
    else if t.Name = "array" then (parseArrayLoop lib fuel [] toks).map .array
    else if t.Name = "undef" then parseUndef toks
    else .panic (.str ("Unexpected element <" ++ t.Name ++ ">"))

end

/-- Method `parseMap`. -/
def parseMap (lib : Lib) (fuel : Nat) (toks : List Token) : Res Map :=
  parseMapLoop lib fuel [] [] false toks

/-- Method `parseArray`. -/
def parseArray (lib : Lib) (fuel : Nat) (toks : List Token) : Res Array :=
  parseArrayLoop lib fuel [] toks

/-- The second loop of `parseLLSD`: the child of `<llsd>`. -/
def parseLLSDRoot (lib : Lib) (fuel : Nat) : List Token → Res Value
  | [] => .panic (.error .tokenizer)
  | .EndElement name :: rest =>
    if name = "llsd" then .ok .undef rest
    else .panic (.str ("Logic error: </" ++ name ++ "> in parseLLSD()"))
  | .StartElement t :: rest =>
    if t.Name = "map" then (parseMap lib fuel rest).map .map
    else if t.Name = "array" then (parseArray lib fuel rest).map .array
    else if t.Name = "undef" then parseUndef rest
    else .panic (.str ("Unexpected element type " ++ t.Name))
  | _ :: rest => parseLLSDRoot lib fuel rest

/-- Method `parseLLSD`: the `root_search` loop, then the child of `<llsd>`. -/
def parseLLSD (lib : Lib) : Nat → List Token → Res Value
  | 0, _ => .noFuel
  | _ + 1, [] => .panic (.error .tokenizer)
  | fuel + 1, .StartElement t :: rest =>
    if t.Name = "llsd" then parseLLSDRoot lib fuel rest
    else parseLLSD lib fuel (Skip rest)
  | fuel + 1, _ :: rest => parseLLSD lib fuel rest

/-! ## Binding the result -/

/-- The variable `v` points to: an `Array`, a `Map`, an `interface{}`, or a variable of
another type (to which none of `Map`, `Array`, `Undef` can be assigned) of the given
`reflect.Kind`. -/
inductive Target where
  | array
  | map
  | any
  | otherSlice
  | otherMap
  | otherInterface
  | other
deriving DecidableEq, Repr

/-- The kinds `rv.Elem().Kind()` that `Unmarshal` tells apart. -/
inductive Kind where
  | Slice
  | Map
  | Interface
  | Other
deriving DecidableEq, Repr

/-- The expression `rv.Elem().Kind()`. -/
def Target.Kind : Target → Kind
  | .array | .otherSlice => .Slice
  | .map | .otherMap => .Map
  | .any | .otherInterface => .Interface
  | .other => .Other

/-- What a call of `Unmarshal` does: it returns `err` having stored `stored` in the
variable `v` points to (`none`: the variable is untouched), or it panics. -/
inductive Outcome where
  | returned (err : Option GoError) (stored : Option Value)
  | panicked (p : Panic)
  | noFuel

/-- The call `rv.Elem().Set(reflect.ValueOf(t))`: panics with a string when `t` is
not assignable to the variable. -/
def reflectSet (target : Target) (t : Value) : Outcome :=
  match target, t with
  | .any, t => .returned none (some t)
  | .array, .array a => .returned none (some (.array a))
  | .map, .map m => .returned none (some (.map m))
  | _, _ => .panicked (.str "reflect.Set: value is not assignable to type")

/-- The function `Unmarshal` defers: `recover`, then `panic(r)` for a
`runtime.Error` and `err = r.(error)` otherwise, a type assertion that itself
panics with a `runtime.Error` when `r` is not an `error`. -/
def recovered : Panic → Outcome
  | .runtime msg => .panicked (.runtime msg)
  | .error e => .returned (some e) none
  | .str _ => .panicked (.runtime "interface conversion: string is not error: missing method Error")

/-- The body of `Unmarshal`, before the deferred function. -/
def unmarshalBody (lib : Lib) (fuel : Nat) (toks : List Token) (target : Target) : Outcome :=
  match parseLLSD lib fuel toks with
  | .noFuel => .noFuel
  | .panic p => .panicked p
  | .ok result _ =>
    match result with
    | .map m => reflectSet target (.map m)
    | .array a => reflectSet target (.array a)
    | .undef =>
      match target.Kind with
      | .Slice => reflectSet target (.array [])
      | .Map => reflectSet target (.map [])
      | .Interface => reflectSet target .undef
      | .Other => .panicked (.str "Can't set reasonably type!")
    | _ => .returned none none

/-- Method `(*XMLLLSDParser).Unmarshal`. -/
def Unmarshal (lib : Lib) (fuel : Nat) (toks : List Token) (target : Target) : Outcome :=
  match unmarshalBody lib fuel toks target with
  | .panicked p => recovered p
  | o => o

/-- Function `UnmarshalXML`, on the tokens of `data`. -/
def UnmarshalXML (lib : Lib) (toks : List Token) (target : Target) : Outcome :=
  Unmarshal lib (2 * toks.length + 1) toks target

/-! ## Documents and what their text denotes -/

/-- A library for closed examples: of all texts it accepts the one date of the
repository's test document, `2007-03-15T18:30:18Z`, and nothing else. -/
def Lib.sample : Lib where
  ParseFloat := fun _ => none
  uuidParse := fun _ => []
  timeParse := fun s => if s = str "2007-03-15T18:30:18Z" then some ⟨1173983418, 0⟩ else none
  base64DecodeString := fun _ => ([], true)
  ascii85Decode := fun _ => []

/-- Start tag `<name>` without attributes. -/
def startTag (name : String) : Token := .StartElement ⟨name, []⟩

/-- The document `<llsd><undef/></llsd>`. -/
def undefDocument : List Token :=
  [startTag "llsd", startTag "undef", .EndElement "undef", .EndElement "llsd"]

/-- The document `<llsd><array><foo/></array></llsd>`. -/
def unknownTagDocument : List Token :=
  [startTag "llsd", startTag "array", startTag "foo", .EndElement "foo", .EndElement "array",
    .EndElement "llsd"]

/-- The lexical forms of a boolean, by `strconv.ParseBool`. -/
def booleanForms : List Bytes :=
  [str "1", str "t", str "T", str "true", str "TRUE", str "True",
   str "0", str "f", str "F", str "false", str "FALSE", str "False"]

/-- A decimal digit, `0` to `9`. -/
def isDigit (c : Nat) : Bool := decide (48 ≤ c ∧ c ≤ 57)

/-- The number a string of decimal digits denotes. -/
def digitsValue (s : Bytes) : Nat := s.foldl (fun n c => 10 * n + (c - 48)) 0

/-- A signed decimal numeral: an optional sign `+` or `-`, then one or more digits. -/
def isDecimalNumeral : Bytes → Bool
  | [] => false
  | c :: s => if c = 43 ∨ c = 45 then decide (s ≠ []) && s.all isDigit else (c :: s).all isDigit

/-- The integer a signed decimal numeral denotes. -/
def numeralValue : Bytes → Int
  | [] => 0
  | c :: s =>
    if c = 45 then -(digitsValue s : Int)
    else if c = 43 then (digitsValue s : Int)
    else (digitsValue (c :: s) : Int)

/-- A signed decimal numeral within the 32-bit range `[-2^31, 2^31 - 1]`. -/
def isInt32Numeral (s : Bytes) : Bool :=
  isDecimalNumeral s && decide (-2 ^ 31 ≤ numeralValue s ∧ numeralValue s ≤ 2 ^ 31 - 1)

/-- The integer an `<integer>` with text `s` stands for: the number `s` denotes when `s`
is a numeral within the 32-bit range, and 0 for every other text. -/
def integerOfText (s : Bytes) : Int := if isInt32Numeral s then numeralValue s else 0

/-- The tokens that are neither a start nor an end element: character data (as the
white space between elements), comments, processing instructions and directives. -/
inductive Filler where
  | CharData (data : Bytes)
  | Comment (data : Bytes)
  | ProcInst (target : String) (inst : Bytes)
  | Directive (data : Bytes)

/-- The token of a filler. -/
def Filler.token : Filler → Token
  | .CharData data => .CharData data
  | .Comment data => .Comment data
  | .ProcInst target inst => .ProcInst target inst
  | .Directive data => .Directive data

/-- The tokens of a run of fillers. -/
def fillers (g : List Filler) : List Token := g.map Filler.token

/-- An `<integer>` child of an array: the fillers before it, its attributes, and the one
character-data token it holds. -/
structure IntegerChild where
  gap : List Filler
  attr : List Attr
  text : Bytes

/-- The tokens of an `<integer>` child, the fillers before it included. -/
def IntegerChild.tokens (c : IntegerChild) : List Token :=
  fillers c.gap ++
    [.StartElement ⟨"integer", c.attr⟩, .CharData c.text, .EndElement "integer"]

/-- The tokens of the children of an array of integers. -/
def integerChildren : List IntegerChild → List Token
  | [] => []
  | c :: cs => c.tokens ++ integerChildren cs

/-- A document `<llsd><array> c1 ... cn </array></llsd>` of `<integer>` children, with
fillers before `<llsd>`, between the tags, and after `</llsd>`. -/
structure IntegerArrayDocument where
  prolog : List Filler
  llsdAttr : List Attr
  beforeArray : List Filler
  arrayAttr : List Attr
  children : List IntegerChild
  afterChildren : List Filler
  afterArray : List Filler
  epilog : List Filler

/-- The tokens of a document of integers. -/
def IntegerArrayDocument.tokens (d : IntegerArrayDocument) : List Token :=
  fillers d.prolog ++ .StartElement ⟨"llsd", d.llsdAttr⟩ ::
    (fillers d.beforeArray ++ .StartElement ⟨"array", d.arrayAttr⟩ ::
      (integerChildren d.children ++
        (fillers d.afterChildren ++ .EndElement "array" ::
          (fillers d.afterArray ++ .EndElement "llsd" :: fillers d.epilog))))

/-- White space, as in the documents of the repository's tests. -/
def whiteSpace : Filler := .CharData (str "\n    ")

/-- The document of `TestSimpleArray`: the integers 1, 2, 3. -/
def simpleArrayDocument : IntegerArrayDocument where
  prolog := [whiteSpace]
  llsdAttr := []
  beforeArray := [whiteSpace]
  arrayAttr := []
  children := [⟨[whiteSpace], [], str "1"⟩, ⟨[whiteSpace], [], str "2"⟩, ⟨[whiteSpace], [], str "3"⟩]
  afterChildren := [whiteSpace]
  afterArray := [whiteSpace]
  epilog := [whiteSpace]

/-- A document with a malformed `<integer>` before `<integer>5</integer>`. -/
def malformedIntegerDocument : IntegerArrayDocument where
  prolog := []
  llsdAttr := []
  beforeArray := []
  arrayAttr := []
  children := [⟨[], [], str "five"⟩, ⟨[], [], str "5"⟩]
  afterChildren := []
  afterArray := []
  epilog := []

/-- The keys of a map. -/
def Map.keys (m : Map) : List Bytes := m.map Prod.fst

/-- The value `UnmarshalXML` has stored in the variable `v` points to, if any. -/
def Outcome.stored : Outcome → Option Value
  | .returned _ stored => stored
  | _ => none

/-- The call returns the nil error. -/
def Outcome.returnsNil : Outcome → Bool
  | .returned none _ => true
  | _ => false

/-- The document `<llsd><map></map></llsd>`. -/
def emptyMapDocument : List Token :=
  [startTag "llsd", startTag "map", .EndElement "map", .EndElement "llsd"]

/-- The document `<llsd><array></array></llsd>`. -/
def emptyArrayDocument : List Token :=
  [startTag "llsd", startTag "array", .EndElement "array", .EndElement "llsd"]

/-- The document `<llsd><map><key>a</key></map></llsd>`: a key without a value. -/
def danglingKeyDocument : List Token :=
  [startTag "llsd", startTag "map", startTag "key", .CharData (str "a"), .EndElement "key",
    .EndElement "map", .EndElement "llsd"]

/-- The values a root can be: `Undef`, a `Map`, an `Array`. -/
def Value.isRoot : Value → Bool
  | .undef | .map _ | .array _ => true
  | _ => false

/-- Well-nested tokens, `depth` elements deep at their start: every end element closes
a start element (those of the `depth` open elements included), and every element is
closed at the end. -/
def wellNested : Nat → List Token → Bool
  | depth, [] => depth == 0
  | depth, .StartElement _ :: rest => wellNested (depth + 1) rest
  | 0, .EndElement _ :: _ => false
  | depth + 1, .EndElement _ :: rest => wellNested depth rest
  | depth, _ :: rest => wellNested depth rest

/-- The tags of the text scalars: every scalar but `<binary>`. -/
def scalarTags : List String :=
  ["boolean", "integer", "real", "string", "uuid", "date", "uri"]

/-- A filler that is character data. -/
def Filler.isCharData : Filler → Bool
  | .CharData _ => true
  | _ => false

/-- A library for closed examples in which `base64.StdEncoding.DecodeString` returns, on
the text `AAEC!`, the three bytes decoded before the `!` together with its error. -/
def Lib.base64Sample : Lib where
  ParseFloat := fun _ => none
  uuidParse := fun _ => []
  timeParse := fun _ => none
  base64DecodeString := fun s =>
    if s = str "AAEC" then ([0, 1, 2], false)
    else if s = str "AAEC!" then ([0, 1, 2], true)
    else ([], true)
  ascii85Decode := fun _ => []

/-- The document `<llsd><array><integer>5<foo/></integer></array></llsd>`. -/
def nestedAfterTextDocument : List Token :=
  [startTag "llsd", startTag "array", startTag "integer", .CharData (str "5"), startTag "foo",
    .EndElement "foo", .EndElement "integer", .EndElement "array", .EndElement "llsd"]

/-- The document
`<llsd><array><binary encoding="base32">AA</binary><integer>1</integer></array></llsd>`. -/
def unknownEncodingDocument : List Token :=
  [startTag "llsd", startTag "array", .StartElement ⟨"binary", [⟨"encoding", "base32"⟩]⟩,
    .CharData (str "AA"), .EndElement "binary", startTag "integer", .CharData (str "1"),
    .EndElement "integer", .EndElement "array", .EndElement "llsd"]

/-- What may stand before `<llsd>`: a filler, or a complete element, given by its start
tag, its content and the name in its end tag. -/
inductive PrologItem where
  | filler (f : Filler)
  | element (t : StartElement) (content : List Token) (endName : String)

/-- The tokens of a prolog item. -/
def PrologItem.tokens : PrologItem → List Token
  | .filler f => [f.token]
  | .element t content endName => .StartElement t :: (content ++ [.EndElement endName])

/-- A prolog item is skipped: a filler, or an element that is not named `llsd` and whose
content, which may hold elements named `llsd`, is well nested. -/
def PrologItem.skipped : PrologItem → Bool
  | .filler _ => true
  | .element t content _ => decide (t.Name ≠ "llsd") && wellNested 0 content

/-- The tokens of a prolog. -/
def prologTokens : List PrologItem → List Token
  | [] => []
  | i :: items => i.tokens ++ prologTokens items

/-- The prolog of `TestDummyAsset`, white space and `<?xml version="1.0"?>`, followed by
an element `<meta><llsd><undef/></llsd></meta>`. -/
def samplePrologue : List PrologItem :=
  [.filler whiteSpace, .filler (.ProcInst "xml" (str "version=\"1.0\"")), .filler whiteSpace,
    .element ⟨"meta", []⟩
      [startTag "llsd", startTag "undef", .EndElement "undef", .EndElement "llsd"] "meta",
    .filler whiteSpace]

/-- The depth after the tokens `toks`, entered `depth` elements deep: a start element
opens one level and an end element closes one, if one is open. -/
def netDepth : Nat → List Token → Nat
  | depth, [] => depth
  | depth, .StartElement _ :: rest => netDepth (depth + 1) rest
  | depth, .EndElement _ :: rest => netDepth (depth - 1) rest
  | depth, _ :: rest => netDepth depth rest

/-- The names of the end elements of `toks` that close none of the start elements of
`toks` nor one of the `depth` elements open at its start. -/
def unmatchedEnds : Nat → List Token → List String
  | _, [] => []
  | depth, .StartElement _ :: rest => unmatchedEnds (depth + 1) rest
  | 0, .EndElement name :: rest => name :: unmatchedEnds 0 rest
  | depth + 1, .EndElement _ :: rest => unmatchedEnds depth rest
  | depth, _ :: rest => unmatchedEnds depth rest

/-- A run of a routine `F` that does not recurse, on the tokens `s`, returning `v` and
leaving `rest`: the routine reads the tokens `pre`, returns, and its `k` deferred calls
of `Skip` run on the tokens `after` that follow. The `k` calls close the elements `pre`
leaves open, the routine looks at no token after `pre`, and it meets the end of the
decoder, a panic with the tokenizer's error, when `pre` is cut short. -/
def LeafRun {α : Type} (F : List Token → Res α) (s : List Token) (v : α)
    (rest : List Token) : Prop :=
  ∃ pre after k, s = pre ++ after ∧ rest = runDeferred k after ∧ netDepth 1 pre ≤ k ∧
    (∀ after', F (pre ++ after') = .ok v (runDeferred k after')) ∧
    (∀ p a, pre = p ++ a → a ≠ [] → F p = .panic (.error .tokenizer))

/-- Every run of the routine `F` that returns is a `LeafRun`. -/
def LeafSpec {α : Type} (F : List Token → Res α) : Prop :=
  ∀ s v rest, F s = .ok v rest → LeafRun F s v rest

/-- A token stream with a root child: a prolog, `<llsd>`, fillers, the start tag of the
root child, its content `body`, the end tag that closes it, and what follows. -/
def rootDocument (items : List PrologItem) (attr : List Attr) (g : List Filler)
    (t : StartElement) (body : List Token) (endName : String) (after : List Token) :
    List Token :=
  prologTokens items ++ .StartElement ⟨"llsd", attr⟩ ::
    (fillers g ++ .StartElement t :: (body ++ .EndElement endName :: after))

/-- The truncated input `<llsd><undef>`. -/
def truncatedUndefDocument : List Token := [startTag "llsd", startTag "undef"]

/-- The content of the root child `<array><integer>1</integer></array>`. -/
def oneIntegerBody : List Token :=
  [startTag "integer", .CharData (str "1"), .EndElement "integer"]

/-- Tokens after a root child in place of `</llsd>`: sibling elements, an unknown tag and
stray end tags, with no `</llsd>` before the end of the decoder. -/
def strayTail : List Token :=
  [startTag "map", .EndElement "map", startTag "bogus", .EndElement "array",
    .EndElement "map", .CharData (str "x")]

/-- A token stream whose root child is still open: a prolog, `<llsd>`, fillers, the start
tag of the root child and the tokens `body` delivered since. -/
def openRootDocument (items : List PrologItem) (attr : List Attr) (g : List Filler)
    (t : StartElement) (body : List Token) : List Token :=
  prologTokens items ++ .StartElement ⟨"llsd", attr⟩ :: (fillers g ++ .StartElement t :: body)

/-- The content of a scalar element, and of a `<key>`, after its start tag: fillers that
are no character data, then either nothing or the first character-data token followed by
further tokens, and the end tag. -/
structure ScalarContent where
  lead : List Filler
  text : Option (Bytes × List Token)
  endName : String

/-- The tokens of the content of a scalar element, its end tag included. -/
def ScalarContent.tokens (c : ScalarContent) : List Token :=
  fillers c.lead ++ ((match c.text with
    | none => []
    | some (t, trail) => .CharData t :: trail) ++ [.EndElement c.endName])

/-- The first character-data token of a scalar element, empty when it has none. -/
def ScalarContent.first (c : ScalarContent) : Bytes :=
  match c.text with
  | none => []
  | some (t, _) => t

/-- The content of a scalar element is well formed: no character data among the leading
fillers, and the tokens after the first character data well nested. -/
def ScalarContent.wellFormed (c : ScalarContent) : Bool :=
  c.lead.all (fun f => !f.isCharData) &&
    (match c.text with
    | none => true
    | some (_, trail) => wellNested 0 trail)

/-- The first character data of a `<binary>` with the encoding `enc` can be decoded:
base64 (the default), base85, or an even number of base16 characters. -/
def binaryText (enc : String) (text : Option (Bytes × List Token)) : Bool :=
  match text with
  | none => true
  | some (b, _) =>
    decide (enc = "base64" ∨ enc = "" ∨ enc = "base85" ∨ (enc = "base16" ∧ b.length % 2 = 0))

mutual

/-- A value element: a scalar (a text scalar or a `<binary>`), an `<undef>`, an `<array>`
of value elements or a `<map>` of keyed value elements. -/
inductive Element where
  | scalar (t : StartElement) (c : ScalarContent)
  | undef (attr : List Attr) (content : List Token) (endName : String)
  | array (attr : List Attr) (children : Children) (tail : List Filler)
  | map (attr : List Attr) (entries : Entries) (tail : List Filler)

/-- The children of an `<array>`, each after fillers. -/
inductive Children where
  | nil
  | cons (gap : List Filler) (e : Element) (rest : Children)

/-- The entries `<key>k</key> v` of a `<map>`: fillers, a `<key>`, fillers, a value
element. -/
inductive Entries where
  | nil
  | cons (gap : List Filler) (keyAttr : List Attr) (key : ScalarContent)
      (afterKey : List Filler) (e : Element) (rest : Entries)

end

/-- The start tag of a value element. -/
def Element.start : Element → StartElement
  | .scalar t _ => t
  | .undef attr _ _ => ⟨"undef", attr⟩
  | .array attr _ _ => ⟨"array", attr⟩
  | .map attr _ _ => ⟨"map", attr⟩

mutual

/-- The tokens of a value element after its start tag, its end tag included. -/
def Element.body : Element → List Token
  | .scalar _ c => c.tokens
  | .undef _ content endName => content ++ [.EndElement endName]
  | .array _ children tail => children.tokens ++ (fillers tail ++ [.EndElement "array"])
  | .map _ entries tail => entries.tokens ++ (fillers tail ++ [.EndElement "map"])

/-- The tokens of the children of an `<array>`. -/
def Children.tokens : Children → List Token
  | .nil => []
  | .cons gap e rest => fillers gap ++ .StartElement e.start :: (e.body ++ rest.tokens)

/-- The tokens of the entries of a `<map>`. -/
def Entries.tokens : Entries → List Token
  | .nil => []
  | .cons gap keyAttr key afterKey e rest =>
    fillers gap ++ .StartElement ⟨"key", keyAttr⟩ ::
      (key.tokens ++ (fillers afterKey ++ .StartElement e.start :: (e.body ++ rest.tokens)))

end

mutual

/-- A value element is well formed: a scalar has the tag of a text scalar, or the tag
`binary` and text that can be decoded, and well-formed content; the content of an
`<undef>` is well nested; the children of an `<array>` and the keys and values of a
`<map>` are well formed. -/
def Element.wellFormed : Element → Bool
  | .scalar t c =>
    (decide (t.Name ∈ scalarTags) ||
      (decide (t.Name = "binary") && binaryText (encodingOf t.Attr) c.text)) && c.wellFormed
  | .undef _ content _ => wellNested 0 content
  | .array _ children _ => children.wellFormed
  | .map _ entries _ => entries.wellFormed

/-- The children of an `<array>` are well formed. -/
def Children.wellFormed : Children → Bool
  | .nil => true
  | .cons _ e rest => e.wellFormed && rest.wellFormed

/-- The entries of a `<map>` are well formed. -/
def Entries.wellFormed : Entries → Bool
  | .nil => true
  | .cons _ _ key _ e rest => key.wellFormed && e.wellFormed && rest.wellFormed

end

/-- An entry of a map: its `<key>` and its value element. -/
structure KeyedElement where
  keyContent : ScalarContent
  value : Element

/-- The key of an entry: the first character-data token of its `<key>`, empty when it
has none. -/
def KeyedElement.key (e : KeyedElement) : Bytes := e.keyContent.first

/-- The entries of a `<map>`, in document order. -/
def Entries.toList : Entries → List KeyedElement
  | .nil => []
  | .cons _ _ key _ e rest => ⟨key, e⟩ :: rest.toList

/-- A document `<llsd><map> (<key>k</key> v)* </map></llsd>`, with fillers before
`<llsd>`, between the tags, and after `</llsd>`. -/
structure MapDocument where
  prolog : List Filler
  llsdAttr : List Attr
  beforeMap : List Filler
  mapAttr : List Attr
  entries : Entries
  afterEntries : List Filler
  afterMap : List Filler
  epilog : List Filler

/-- The tokens of a map document. -/
def MapDocument.tokens (d : MapDocument) : List Token :=
  fillers d.prolog ++ .StartElement ⟨"llsd", d.llsdAttr⟩ ::
    (fillers d.beforeMap ++ .StartElement ⟨"map", d.mapAttr⟩ ::
      (d.entries.tokens ++
        (fillers d.afterEntries ++ .EndElement "map" ::
          (fillers d.afterMap ++ .EndElement "llsd" :: fillers d.epilog))))

/-- The element `<integer>i</integer>`. -/
def integerElement (i : String) : Element :=
  .scalar ⟨"integer", []⟩ ⟨[], some (str i, []), "integer"⟩

/-- The content `k</key>` of a `<key>`. -/
def keyContent (k : String) : ScalarContent := ⟨[], some (str k, []), "key"⟩

/-- The document of `TestSimpleMap`, followed by the key `Three` with an array
`<array><integer>5</integer><undef/></array>` and by the key `One` a second time:
`One` 1, `Two` 2, `Three` 3, `Three` the array, `One` 4. -/
def simpleMapDocument : MapDocument where
  prolog := [whiteSpace]
  llsdAttr := []
  beforeMap := [whiteSpace]
  mapAttr := []
  entries :=
    .cons [whiteSpace] [] (keyContent "One") [whiteSpace] (integerElement "1")
      (.cons [whiteSpace] [] (keyContent "Two") [whiteSpace] (integerElement "2")
        (.cons [whiteSpace] [] (keyContent "Three") [whiteSpace] (integerElement "3")
          (.cons [whiteSpace] [] (keyContent "Three") [whiteSpace]
            (.array [] (.cons [whiteSpace] (integerElement "5")
              (.cons [] (.undef [] [] "undef") .nil)) [whiteSpace])
            (.cons [whiteSpace] [] (keyContent "One") [whiteSpace] (integerElement "4")
              .nil))))
  afterEntries := [whiteSpace]
  afterMap := [whiteSpace]
  epilog := [whiteSpace]

/-- The document `<llsd><map><key>a<!--x-->b</key><integer>1</integer></map></llsd>`, the
text of its key in two character-data tokens. -/
def splitKeyDocument : List Token :=
  [startTag "llsd", startTag "map", startTag "key", .CharData (str "a"), .Comment (str "x"),
    .CharData (str "b"), .EndElement "key", startTag "integer", .CharData (str "1"),
    .EndElement "integer", .EndElement "map", .EndElement "llsd"]

/-- The document `<llsd><map><key>a</key><integer><x/>1</integer></map></llsd>`, an
element nested in its value element before the text. -/
def nestedValueDocument : List Token :=
  [startTag "llsd", startTag "map", startTag "key", .CharData (str "a"), .EndElement "key",
    startTag "integer", startTag "x", .EndElement "x", .CharData (str "1"),
    .EndElement "integer", .EndElement "map", .EndElement "llsd"]

/-- The value element `e` decodes to `v`: `parseSomething`, called after the start tag of
`e`, returns `v` and leaves the tokens after the element. -/
def Element.DecodesTo (lib : Lib) (e : Element) (v : Value) : Prop :=
  ∀ rest, ∃ fuel, parseSomething lib fuel e.start (e.body ++ rest) = .ok v rest

/-- The document `<llsd><map><key>a</key><binary encoding="base32">AA</binary></map></llsd>`. -/
def unknownEncodingMapDocument : List Token :=
  [startTag "llsd", startTag "map", startTag "key", .CharData (str "a"), .EndElement "key",
    .StartElement ⟨"binary", [⟨"encoding", "base32"⟩]⟩, .CharData (str "AA"),
    .EndElement "binary", .EndElement "map", .EndElement "llsd"]

/-- The document `<llsd><map><key>a</key><binary encoding="base16">A</binary></map></llsd>`,
an odd number of base16 characters in its value element. -/
def oddBase16MapDocument : List Token :=
  [startTag "llsd", startTag "map", startTag "key", .CharData (str "a"), .EndElement "key",
    .StartElement ⟨"binary", [⟨"encoding", "base16"⟩]⟩, .CharData (str "A"),
    .EndElement "binary", .EndElement "map", .EndElement "llsd"]

/-- The tags `parseSomething` knows. -/
def knownTags : List String :=
  ["boolean", "integer", "real", "string", "uuid", "date", "uri", "binary", "map", "array", "undef"]

/-! ## Properties

### Results -/

theorem Res.map_eq_ok {α β : Type} {f : α → β} {r : Res α} {v : β} {rest : List Token} :
    r.map f = .ok v rest ↔ ∃ a, r = .ok a rest ∧ f a = v := by
  cases r with
  | ok a r1 =>
    simp only [Res.map, Res.ok.injEq]
    constructor
    · rintro ⟨h1, h2⟩; exact ⟨a, ⟨rfl, h2⟩, h1⟩
    · rintro ⟨b, ⟨rfl, h2⟩, h1⟩; exact ⟨h1, h2⟩
  | panic p => simp [Res.map]
  | noFuel => simp [Res.map]

theorem Res.bind_eq_ok {α β : Type} {f : α → List Token → Res β} {r : Res α} {v : β}
    {rest : List Token} :
    r.bind f = .ok v rest ↔ ∃ a rest', r = .ok a rest' ∧ f a rest' = .ok v rest := by
  cases r with
  | ok a r1 =>
    simp only [Res.bind, Res.ok.injEq]
    constructor
    · intro h; exact ⟨a, r1, ⟨rfl, rfl⟩, h⟩
    · rintro ⟨b, r2, ⟨rfl, rfl⟩, h⟩; exact h
  | panic p => simp [Res.bind]
  | noFuel => simp [Res.bind]

theorem Res.map_eq_noFuel {α β : Type} {f : α → β} {r : Res α} :
    r.map f = .noFuel ↔ r = .noFuel := by
  cases r <;> simp [Res.map]

theorem Res.map_eq_panic {α β : Type} {f : α → β} {r : Res α} {p : Panic} :
    r.map f = .panic p ↔ r = .panic p := by
  cases r <;> simp [Res.map]

/-! ### The tokens left behind -/

theorem skipFrom_length_le (depth : Nat) (toks : List Token) :
    (skipFrom depth toks).length ≤ toks.length := by
  induction toks generalizing depth with
  | nil => simp [skipFrom]
  | cons t rest ih =>
    cases t <;> cases depth <;> simp only [skipFrom, List.length_cons] <;>
      first
        | exact Nat.le_succ_of_le (ih _)
        | exact Nat.le_succ _

theorem Skip_length_le (toks : List Token) : (Skip toks).length ≤ toks.length :=
  skipFrom_length_le 0 toks

theorem runDeferred_length_le (n : Nat) (toks : List Token) :
    (runDeferred n toks).length ≤ toks.length := by
  induction n generalizing toks with
  | zero => simp [runDeferred]
  | succ n ih => exact Nat.le_trans (ih _) (Skip_length_le toks)

theorem parseBoolean_length {toks : List Token} {v : Bool} {rest : List Token}
    (h : parseBoolean toks = .ok v rest) : rest.length ≤ toks.length := by
  induction toks with
  | nil => simp [parseBoolean] at h
  | cons t ts ih =>
    cases t <;> simp only [parseBoolean, Res.ok.injEq, reduceCtorEq] at h
    · obtain ⟨_, rfl⟩ := h; exact Nat.le_succ _
    · obtain ⟨_, rfl⟩ := h; exact Nat.le_succ_of_le (Skip_length_le _)
    all_goals exact Nat.le_succ_of_le (ih h)

theorem parseInteger_length {toks : List Token} {v : Int} {rest : List Token}
    (h : parseInteger toks = .ok v rest) : rest.length ≤ toks.length := by
  induction toks with
  | nil => simp [parseInteger] at h
  | cons t ts ih =>
    cases t <;> simp only [parseInteger, Res.ok.injEq, reduceCtorEq] at h
    · obtain ⟨_, rfl⟩ := h; exact Nat.le_succ _
    · obtain ⟨_, rfl⟩ := h; exact Nat.le_succ_of_le (Skip_length_le _)
    all_goals exact Nat.le_succ_of_le (ih h)

theorem parseReal_length {lib : Lib} {toks : List Token} {v : Nat} {rest : List Token}
    (h : parseReal lib toks = .ok v rest) : rest.length ≤ toks.length := by
  induction toks with
  | nil => simp [parseReal] at h
  | cons t ts ih =>
    cases t <;> simp only [parseReal, Res.ok.injEq, reduceCtorEq] at h
    · obtain ⟨_, rfl⟩ := h; exact Nat.le_succ _
    · obtain ⟨_, rfl⟩ := h; exact Nat.le_succ_of_le (Skip_length_le _)
    all_goals exact Nat.le_succ_of_le (ih h)

theorem parseString_length {toks : List Token} {v : Bytes} {rest : List Token}
    (h : parseString toks = .ok v rest) : rest.length ≤ toks.length := by
  induction toks with
  | nil => simp [parseString] at h
  | cons t ts ih =>
    cases t <;> simp only [parseString, Res.ok.injEq, reduceCtorEq] at h
    · obtain ⟨_, rfl⟩ := h; exact Nat.le_succ _
    · obtain ⟨_, rfl⟩ := h; exact Nat.le_succ_of_le (Skip_length_le _)
    all_goals exact Nat.le_succ_of_le (ih h)

theorem parseUUID_length {lib : Lib} {toks : List Token} {v : Bytes} {rest : List Token}
    (h : parseUUID lib toks = .ok v rest) : rest.length ≤ toks.length := by
  induction toks with
  | nil => simp [parseUUID] at h
  | cons t ts ih =>
    cases t <;> simp only [parseUUID, Res.ok.injEq, reduceCtorEq] at h
    · obtain ⟨_, rfl⟩ := h; exact Nat.le_succ _
    · obtain ⟨_, rfl⟩ := h; exact Nat.le_succ_of_le (Skip_length_le _)
    all_goals exact Nat.le_succ_of_le (ih h)

theorem parseDate_length {lib : Lib} {toks : List Token} {v : Time} {rest : List Token}
    (h : parseDate lib toks = .ok v rest) : rest.length ≤ toks.length := by
  induction toks with
  | nil => simp [parseDate] at h
  | cons t ts ih =>
    cases t <;> simp only [parseDate, Res.ok.injEq, reduceCtorEq] at h
    · obtain ⟨_, rfl⟩ := h; exact Nat.le_succ _
    · split at h <;> simp only [Res.ok.injEq] at h <;> obtain ⟨_, rfl⟩ := h <;>
        exact Nat.le_succ_of_le (Skip_length_le _)
    all_goals exact Nat.le_succ_of_le (ih h)

theorem parseBinary_length {lib : Lib} {encoding : String} {deferred : Nat} {toks : List Token}
    {v : Bytes} {rest : List Token}
    (h : parseBinary lib encoding deferred toks = .ok v rest) : rest.length ≤ toks.length := by
  induction toks generalizing deferred with
  | nil => simp [parseBinary] at h
  | cons t ts ih =>
    cases t <;> simp only [parseBinary, Res.ok.injEq, reduceCtorEq] at h
    · obtain ⟨_, rfl⟩ := h; exact Nat.le_succ_of_le (runDeferred_length_le _ _)
    · split at h
      · simp only [Res.ok.injEq] at h; obtain ⟨_, rfl⟩ := h
        exact Nat.le_succ_of_le (runDeferred_length_le _ _)
      · split at h
        · simp only [Res.ok.injEq] at h; obtain ⟨_, rfl⟩ := h
          exact Nat.le_succ_of_le (runDeferred_length_le _ _)
        · split at h
          · split at h
            · simp at h
            · simp only [Res.ok.injEq] at h; obtain ⟨_, rfl⟩ := h
              exact Nat.le_succ_of_le (runDeferred_length_le _ _)
          · exact Nat.le_succ_of_le (ih h)
    all_goals exact Nat.le_succ_of_le (ih h)

/-! ### The dispatcher -/

/-- The twelve ways of `parseSomething`: one per known tag, and the panic. -/
theorem parseSomething_succ (lib : Lib) (fuel : Nat) (t : StartElement) (toks : List Token) :
    (t.Name = "boolean" ∧ parseSomething lib (fuel + 1) t toks = (parseBoolean toks).map .boolean) ∨
    (t.Name = "integer" ∧ parseSomething lib (fuel + 1) t toks = (parseInteger toks).map .integer) ∨
    (t.Name = "real" ∧ parseSomething lib (fuel + 1) t toks = (parseReal lib toks).map .real) ∨
    (t.Name = "string" ∧ parseSomething lib (fuel + 1) t toks = (parseString toks).map .string) ∨
    (t.Name = "uuid" ∧ parseSomething lib (fuel + 1) t toks = (parseUUID lib toks).map .uuid) ∨
    (t.Name = "date" ∧ parseSomething lib (fuel + 1) t toks = (parseDate lib toks).map .date) ∨
    (t.Name = "uri" ∧ parseSomething lib (fuel + 1) t toks = (parseString toks).map .string) ∨
    (t.Name = "binary" ∧ parseSomething lib (fuel + 1) t toks =
      (parseBinary lib (encodingOf t.Attr) 0 toks).map .binary) ∨
    (t.Name = "map" ∧ parseSomething lib (fuel + 1) t toks =
      (parseMapLoop lib fuel [] [] false toks).map .map) ∨
    (t.Name = "array" ∧ parseSomething lib (fuel + 1) t toks =
      (parseArrayLoop lib fuel [] toks).map .array) ∨
    (t.Name = "undef" ∧ parseSomething lib (fuel + 1) t toks = parseUndef toks) ∨
    (t.Name ∉ knownTags ∧ parseSomething lib (fuel + 1) t toks =
      .panic (.str ("Unexpected element <" ++ t.Name ++ ">"))) := by
  rw [parseSomething]
  by_cases h1 : t.Name = "boolean"
  · left; exact ⟨h1, if_pos h1⟩
  right; rw [if_neg h1]
  by_cases h2 : t.Name = "integer"
  · left; exact ⟨h2, if_pos h2⟩
  right; rw [if_neg h2]
  by_cases h3 : t.Name = "real"
  · left; exact ⟨h3, if_pos h3⟩
  right; rw [if_neg h3]
  by_cases h4 : t.Name = "string"
  · left; exact ⟨h4, if_pos h4⟩
  right; rw [if_neg h4]
  by_cases h5 : t.Name = "uuid"
  · left; exact ⟨h5, if_pos h5⟩
  right; rw [if_neg h5]
  by_cases h6 : t.Name = "date"
  · left; exact ⟨h6, if_pos h6⟩
  right; rw [if_neg h6]
  by_cases h7 : t.Name = "uri"
  · left; exact ⟨h7, if_pos h7⟩
  right; rw [if_neg h7]
  by_cases h8 : t.Name = "binary"
  · left; exact ⟨h8, if_pos h8⟩
  right; rw [if_neg h8]
  by_cases h9 : t.Name = "map"
  · left; exact ⟨h9, if_pos h9⟩
  right; rw [if_neg h9]
  by_cases h10 : t.Name = "array"
  · left; exact ⟨h10, if_pos h10⟩
  right; rw [if_neg h10]
  by_cases h11 : t.Name = "undef"
  · left; exact ⟨h11, if_pos h11⟩
  right; rw [if_neg h11]
  refine ⟨?_, rfl⟩
  simp only [knownTags, List.mem_cons, List.mem_singleton, List.not_mem_nil, or_false, not_or]
  exact ⟨h1, h2, h3, h4, h5, h6, h7, h8, h9, h10, h11⟩


/-- The tokens left by the recursive routines are among those they were given. -/
theorem parse_length (lib : Lib) (fuel : Nat) :
    (∀ m k h toks v rest, parseMapLoop lib fuel m k h toks = .ok v rest →
      rest.length ≤ toks.length) ∧
    (∀ l toks v rest, parseArrayLoop lib fuel l toks = .ok v rest →
      rest.length ≤ toks.length) ∧
    (∀ t toks v rest, parseSomething lib fuel t toks = .ok v rest →
      rest.length ≤ toks.length) := by
  induction fuel with
  | zero =>
    refine ⟨?_, ?_, ?_⟩ <;> intros <;> simp_all [parseMapLoop, parseArrayLoop, parseSomething]
  | succ fuel ih =>
    obtain ⟨ihm, iha, ihs⟩ := ih
    refine ⟨?_, ?_, ?_⟩
    · intro m k h toks v rest hp
      cases toks with
      | nil => simp [parseMapLoop] at hp
      | cons t ts =>
        cases t <;> simp only [parseMapLoop] at hp
        case StartElement t =>
          split at hp
          · split at hp
            · obtain ⟨key, r1, hs, hp⟩ := Res.bind_eq_ok.1 hp
              have h1 := parseString_length hs
              have h2 := ihm _ _ _ _ _ _ hp
              simp only [List.length_cons]; omega
            · simp at hp
          · obtain ⟨val, r1, hs, hp⟩ := Res.bind_eq_ok.1 hp
            have h1 := ihs _ _ _ _ hs
            have h2 := ihm _ _ _ _ _ _ hp
            simp only [List.length_cons]; omega
        case EndElement name =>
          split at hp
          · simp only [Res.ok.injEq] at hp; obtain ⟨_, rfl⟩ := hp; simp
          · simp at hp
        all_goals
          have := ihm _ _ _ _ _ _ hp; simp only [List.length_cons]; omega
    · intro l toks v rest hp
      cases toks with
      | nil => simp [parseArrayLoop] at hp
      | cons t ts =>
        cases t <;> simp only [parseArrayLoop] at hp
        case StartElement t =>
          obtain ⟨val, r1, hs, hp⟩ := Res.bind_eq_ok.1 hp
          have h1 := ihs _ _ _ _ hs
          have h2 := iha _ _ _ _ hp
          simp only [List.length_cons]; omega
        case EndElement name =>
          split at hp
          · simp only [Res.ok.injEq] at hp; obtain ⟨_, rfl⟩ := hp; simp
          · simp at hp
        all_goals
          have := iha _ _ _ _ hp; simp only [List.length_cons]; omega
    · intro t toks v rest hp
      rcases parseSomething_succ lib fuel t toks with
        ⟨-, h⟩ | ⟨-, h⟩ | ⟨-, h⟩ | ⟨-, h⟩ | ⟨-, h⟩ | ⟨-, h⟩ | ⟨-, h⟩ | ⟨-, h⟩ | ⟨-, h⟩ | ⟨-, h⟩ |
        ⟨-, h⟩ | ⟨-, h⟩ <;> rw [h] at hp
      · obtain ⟨a, h, _⟩ := Res.map_eq_ok.1 hp; exact parseBoolean_length h
      · obtain ⟨a, h, _⟩ := Res.map_eq_ok.1 hp; exact parseInteger_length h
      · obtain ⟨a, h, _⟩ := Res.map_eq_ok.1 hp; exact parseReal_length h
      · obtain ⟨a, h, _⟩ := Res.map_eq_ok.1 hp; exact parseString_length h
      · obtain ⟨a, h, _⟩ := Res.map_eq_ok.1 hp; exact parseUUID_length h
      · obtain ⟨a, h, _⟩ := Res.map_eq_ok.1 hp; exact parseDate_length h
      · obtain ⟨a, h, _⟩ := Res.map_eq_ok.1 hp; exact parseString_length h
      · obtain ⟨a, h, _⟩ := Res.map_eq_ok.1 hp; exact parseBinary_length h
      · obtain ⟨a, h, _⟩ := Res.map_eq_ok.1 hp; exact ihm _ _ _ _ _ _ h
      · obtain ⟨a, h, _⟩ := Res.map_eq_ok.1 hp; exact iha _ _ _ _ h
      · simp only [parseUndef, Res.ok.injEq] at hp; obtain ⟨_, rfl⟩ := hp
        exact Skip_length_le _
      · simp at hp

/-! ### The recursion budget -/

theorem Res.bind_congr_of_ne_noFuel {α β : Type} {r r' : Res α} {f f' : α → List Token → Res β}
    (hb : r.bind f ≠ .noFuel) (hr : r ≠ .noFuel → r' = r)
    (hf : ∀ a rest, f a rest ≠ .noFuel → f' a rest = f a rest) :
    r'.bind f' = r.bind f := by
  cases r with
  | ok a rest =>
    rw [hr (by simp)]
    exact hf a rest hb
  | panic p => rw [hr (by simp)]; rfl
  | noFuel => exact absurd rfl hb

theorem Res.map_congr_of_ne_noFuel {α β : Type} {r r' : Res α} {f : α → β}
    (hb : r.map f ≠ .noFuel) (hr : r ≠ .noFuel → r' = r) :
    r'.map f = r.map f := by
  cases r with
  | ok a rest => rw [hr (by simp)]
  | panic p => rw [hr (by simp)]
  | noFuel => exact absurd rfl hb

/-- A result reached within a budget is the result for every larger budget (one step). -/
theorem parse_fuel_succ (lib : Lib) (fuel : Nat) :
    (∀ m k h toks, parseMapLoop lib fuel m k h toks ≠ .noFuel →
      parseMapLoop lib (fuel + 1) m k h toks = parseMapLoop lib fuel m k h toks) ∧
    (∀ l toks, parseArrayLoop lib fuel l toks ≠ .noFuel →
      parseArrayLoop lib (fuel + 1) l toks = parseArrayLoop lib fuel l toks) ∧
    (∀ t toks, parseSomething lib fuel t toks ≠ .noFuel →
      parseSomething lib (fuel + 1) t toks = parseSomething lib fuel t toks) := by
  induction fuel with
  | zero =>
    refine ⟨?_, ?_, ?_⟩ <;> intros <;> simp_all [parseMapLoop, parseArrayLoop, parseSomething]
  | succ fuel ih =>
    obtain ⟨ihm, iha, ihs⟩ := ih
    refine ⟨?_, ?_, ?_⟩
    · intro m k h toks hp
      cases toks with
      | nil => simp [parseMapLoop]
      | cons t ts =>
        cases t <;> simp only [parseMapLoop] at hp ⊢
        case StartElement t =>
          split
          · split
            · rw [if_pos ‹_›, if_pos ‹_›] at hp
              exact Res.bind_congr_of_ne_noFuel hp (fun _ => rfl) (fun a rest h => ihm _ _ _ _ h)
            · rfl
          · rw [if_neg ‹_›] at hp
            exact Res.bind_congr_of_ne_noFuel hp (ihs _ _) (fun a rest h => ihm _ _ _ _ h)
        all_goals exact ihm _ _ _ _ hp
    · intro l toks hp
      cases toks with
      | nil => simp [parseArrayLoop]
      | cons t ts =>
        cases t <;> simp only [parseArrayLoop] at hp ⊢
        case StartElement t =>
          exact Res.bind_congr_of_ne_noFuel hp (ihs _ _) (fun a rest h => iha _ _ h)
        all_goals exact iha _ _ hp
    · intro t toks hp
      rcases parseSomething_succ lib fuel t toks with
        ⟨hn, h⟩ | ⟨hn, h⟩ | ⟨hn, h⟩ | ⟨hn, h⟩ | ⟨hn, h⟩ | ⟨hn, h⟩ | ⟨hn, h⟩ | ⟨hn, h⟩ | ⟨hn, h⟩ |
        ⟨hn, h⟩ | ⟨hn, h⟩ | ⟨hn, h⟩ <;>
      rcases parseSomething_succ lib (fuel + 1) t toks with
        ⟨hn', h'⟩ | ⟨hn', h'⟩ | ⟨hn', h'⟩ | ⟨hn', h'⟩ | ⟨hn', h'⟩ | ⟨hn', h'⟩ | ⟨hn', h'⟩ |
        ⟨hn', h'⟩ | ⟨hn', h'⟩ | ⟨hn', h'⟩ | ⟨hn', h'⟩ | ⟨hn', h'⟩ <;>
      first
        | (exfalso; rw [hn] at hn'; revert hn'; decide)
        | (exfalso; rw [hn'] at hn; revert hn; decide)
        | (rw [h, h']; done)
        | (rw [h] at hp; rw [h, h']; exact Res.map_congr_of_ne_noFuel hp (ihm _ _ _ _))
        | (rw [h] at hp; rw [h, h']; exact Res.map_congr_of_ne_noFuel hp (iha _ _))

theorem parseMapLoop_fuel_mono (lib : Lib) {fuel fuel' : Nat} (hle : fuel ≤ fuel') {m k h toks}
    (hp : parseMapLoop lib fuel m k h toks ≠ .noFuel) :
    parseMapLoop lib fuel' m k h toks = parseMapLoop lib fuel m k h toks := by
  induction hle with
  | refl => rfl
  | step _ ih => rw [(parse_fuel_succ lib _).1 _ _ _ _ (by rw [ih]; exact hp), ih]

theorem parseArrayLoop_fuel_mono (lib : Lib) {fuel fuel' : Nat} (hle : fuel ≤ fuel') {l toks}
    (hp : parseArrayLoop lib fuel l toks ≠ .noFuel) :
    parseArrayLoop lib fuel' l toks = parseArrayLoop lib fuel l toks := by
  induction hle with
  | refl => rfl
  | step _ ih => rw [(parse_fuel_succ lib _).2.1 _ _ (by rw [ih]; exact hp), ih]

theorem parseSomething_fuel_mono (lib : Lib) {fuel fuel' : Nat} (hle : fuel ≤ fuel') {t toks}
    (hp : parseSomething lib fuel t toks ≠ .noFuel) :
    parseSomething lib fuel' t toks = parseSomething lib fuel t toks := by
  induction hle with
  | refl => rfl
  | step _ ih => rw [(parse_fuel_succ lib _).2.2 _ _ (by rw [ih]; exact hp), ih]

theorem leaf_ne_noFuel :
    (∀ toks, parseBoolean toks ≠ .noFuel) ∧ (∀ toks, parseInteger toks ≠ .noFuel) ∧
    (∀ toks, parseString toks ≠ .noFuel) := by
  refine ⟨?_, ?_, ?_⟩ <;> intro toks <;> induction toks with
    | nil => simp [parseBoolean, parseInteger, parseString]
    | cons t ts ih => cases t <;> simp [parseBoolean, parseInteger, parseString, ih]

theorem leaf_lib_ne_noFuel (lib : Lib) :
    (∀ toks, parseReal lib toks ≠ .noFuel) ∧ (∀ toks, parseUUID lib toks ≠ .noFuel) ∧
    (∀ toks, parseDate lib toks ≠ .noFuel) ∧
    (∀ enc n toks, parseBinary lib enc n toks ≠ .noFuel) := by
  refine ⟨?_, ?_, ?_, ?_⟩
  · intro toks
    induction toks with
    | nil => simp [parseReal]
    | cons t ts ih => cases t <;> simp [parseReal, ih]
  · intro toks
    induction toks with
    | nil => simp [parseUUID]
    | cons t ts ih => cases t <;> simp [parseUUID, ih]
  · intro toks
    induction toks with
    | nil => simp [parseDate]
    | cons t ts ih =>
      cases t <;> simp only [parseDate, ne_eq, reduceCtorEq, not_false_eq_true, ih]
      split <;> simp
  · intro enc n toks
    induction toks generalizing n with
    | nil => simp [parseBinary]
    | cons t ts ih =>
      cases t <;> simp only [parseBinary, ne_eq, reduceCtorEq, not_false_eq_true, ih]
      split_ifs
      · simp
      · simp
      · split <;> simp
      · exact ih _

theorem Res.bind_ne_noFuel {α β : Type} {r : Res α} {f : α → List Token → Res β}
    (hr : r ≠ .noFuel) (hf : ∀ a rest, r = .ok a rest → f a rest ≠ .noFuel) :
    r.bind f ≠ .noFuel := by
  cases r with
  | ok a rest => exact hf a rest rfl
  | panic p => simp [Res.bind]
  | noFuel => exact absurd rfl hr

/-- Two units of budget per token, and one (two for `parseSomething`) more, are enough. -/
theorem parse_ne_noFuel (lib : Lib) (fuel : Nat) :
    (∀ m k h toks, 2 * toks.length + 1 ≤ fuel → parseMapLoop lib fuel m k h toks ≠ .noFuel) ∧
    (∀ l toks, 2 * toks.length + 1 ≤ fuel → parseArrayLoop lib fuel l toks ≠ .noFuel) ∧
    (∀ t toks, 2 * toks.length + 2 ≤ fuel → parseSomething lib fuel t toks ≠ .noFuel) := by
  induction fuel with
  | zero => refine ⟨?_, ?_, ?_⟩ <;> intros <;> omega
  | succ fuel ih =>
    obtain ⟨ihm, iha, ihs⟩ := ih
    refine ⟨?_, ?_, ?_⟩
    · intro m k h toks hf
      cases toks with
      | nil => simp [parseMapLoop]
      | cons t ts =>
        simp only [List.length_cons] at hf
        cases t <;> simp only [parseMapLoop]
        case StartElement t =>
          split
          · split
            · refine Res.bind_ne_noFuel (leaf_ne_noFuel.2.2 _) (fun a rest hs => ihm _ _ _ _ ?_)
              have := parseString_length hs; omega
            · simp
          · refine Res.bind_ne_noFuel (ihs _ _ (by omega)) (fun a rest hs => ihm _ _ _ _ ?_)
            have := (parse_length lib fuel).2.2 _ _ _ _ hs; omega
        case EndElement name => split <;> simp
        all_goals exact ihm _ _ _ _ (by omega)
    · intro l toks hf
      cases toks with
      | nil => simp [parseArrayLoop]
      | cons t ts =>
        simp only [List.length_cons] at hf
        cases t <;> simp only [parseArrayLoop]
        case StartElement t =>
          refine Res.bind_ne_noFuel (ihs _ _ (by omega)) (fun a rest hs => iha _ _ ?_)
          have := (parse_length lib fuel).2.2 _ _ _ _ hs; omega
        case EndElement name => split <;> simp
        all_goals exact iha _ _ (by omega)
    · intro t toks hf
      rcases parseSomething_succ lib fuel t toks with
        ⟨-, h⟩ | ⟨-, h⟩ | ⟨-, h⟩ | ⟨-, h⟩ | ⟨-, h⟩ | ⟨-, h⟩ | ⟨-, h⟩ | ⟨-, h⟩ | ⟨-, h⟩ | ⟨-, h⟩ |
        ⟨-, h⟩ | ⟨-, h⟩ <;> rw [h]
      · exact fun hh => leaf_ne_noFuel.1 _ (Res.map_eq_noFuel.1 hh)
      · exact fun hh => leaf_ne_noFuel.2.1 _ (Res.map_eq_noFuel.1 hh)
      · exact fun hh => (leaf_lib_ne_noFuel lib).1 _ (Res.map_eq_noFuel.1 hh)
      · exact fun hh => leaf_ne_noFuel.2.2 _ (Res.map_eq_noFuel.1 hh)
      · exact fun hh => (leaf_lib_ne_noFuel lib).2.1 _ (Res.map_eq_noFuel.1 hh)
      · exact fun hh => (leaf_lib_ne_noFuel lib).2.2.1 _ (Res.map_eq_noFuel.1 hh)
      · exact fun hh => leaf_ne_noFuel.2.2 _ (Res.map_eq_noFuel.1 hh)
      · exact fun hh => (leaf_lib_ne_noFuel lib).2.2.2 _ _ _ (Res.map_eq_noFuel.1 hh)
      · exact fun hh => ihm _ _ _ _ (by omega) (Res.map_eq_noFuel.1 hh)
      · exact fun hh => iha _ _ (by omega) (Res.map_eq_noFuel.1 hh)
      · simp [parseUndef]
      · simp

theorem parseLLSDRoot_fuel_mono (lib : Lib) {fuel fuel' : Nat} (hle : fuel ≤ fuel')
    {toks : List Token} (hp : parseLLSDRoot lib fuel toks ≠ .noFuel) :
    parseLLSDRoot lib fuel' toks = parseLLSDRoot lib fuel toks := by
  induction toks with
  | nil => simp [parseLLSDRoot]
  | cons t ts ih =>
    cases t <;> simp only [parseLLSDRoot] at hp ⊢
    case StartElement t =>
      split_ifs at hp ⊢
      · exact Res.map_congr_of_ne_noFuel hp (parseMapLoop_fuel_mono lib hle)
      · exact Res.map_congr_of_ne_noFuel hp (parseArrayLoop_fuel_mono lib hle)
      · rfl
      · rfl
    all_goals exact ih hp

theorem parseLLSDRoot_ne_noFuel (lib : Lib) {fuel : Nat} {toks : List Token}
    (hf : 2 * toks.length + 1 ≤ fuel) : parseLLSDRoot lib fuel toks ≠ .noFuel := by
  induction toks with
  | nil => simp [parseLLSDRoot]
  | cons t ts ih =>
    simp only [List.length_cons] at hf
    cases t <;> simp only [parseLLSDRoot]
    case StartElement t =>
      split_ifs
      · exact fun hh => (parse_ne_noFuel lib fuel).1 _ _ _ _ (by omega) (Res.map_eq_noFuel.1 hh)
      · exact fun hh => (parse_ne_noFuel lib fuel).2.1 _ _ (by omega) (Res.map_eq_noFuel.1 hh)
      · simp [parseUndef]
      · simp
    case EndElement name => split <;> simp
    all_goals exact ih (by omega)

theorem parseLLSD_fuel_succ (lib : Lib) (fuel : Nat) (toks : List Token)
    (hp : parseLLSD lib fuel toks ≠ .noFuel) :
    parseLLSD lib (fuel + 1) toks = parseLLSD lib fuel toks := by
  induction fuel generalizing toks with
  | zero => simp [parseLLSD] at hp
  | succ fuel ih =>
    cases toks with
    | nil => simp [parseLLSD]
    | cons t ts =>
      cases t <;> simp only [parseLLSD] at hp ⊢
      case StartElement t =>
        split_ifs at hp ⊢
        · exact parseLLSDRoot_fuel_mono lib (Nat.le_succ _) hp
        · exact ih _ hp
      all_goals exact ih _ hp

theorem parseLLSD_fuel_mono (lib : Lib) {fuel fuel' : Nat} (hle : fuel ≤ fuel')
    {toks : List Token} (hp : parseLLSD lib fuel toks ≠ .noFuel) :
    parseLLSD lib fuel' toks = parseLLSD lib fuel toks := by
  induction hle with
  | refl => rfl
  | step _ ih => rw [parseLLSD_fuel_succ lib _ _ (by rw [ih]; exact hp), ih]

theorem parseLLSD_ne_noFuel (lib : Lib) {fuel : Nat} {toks : List Token}
    (hf : 2 * toks.length + 1 ≤ fuel) : parseLLSD lib fuel toks ≠ .noFuel := by
  induction fuel generalizing toks with
  | zero => omega
  | succ fuel ih =>
    cases toks with
    | nil => simp [parseLLSD]
    | cons t ts =>
      simp only [List.length_cons] at hf
      cases t <;> simp only [parseLLSD]
      case StartElement t =>
        split_ifs
        · exact parseLLSDRoot_ne_noFuel lib (by omega)
        · exact ih (by have := Skip_length_le ts; omega)
      all_goals exact ih (by omega)

/-- The budget of `UnmarshalXML` gives the result of every budget that is enough. -/
theorem parseLLSD_eq_of_fuel (lib : Lib) {fuel : Nat} {toks : List Token} {r : Res Value}
    (h : parseLLSD lib fuel toks = r) (hr : r ≠ .noFuel) :
    parseLLSD lib (2 * toks.length + 1) toks = r := by
  subst h
  rcases Nat.le_total fuel (2 * toks.length + 1) with hle | hle
  · exact parseLLSD_fuel_mono lib hle hr
  · exact (parseLLSD_fuel_mono lib hle (parseLLSD_ne_noFuel lib (Nat.le_refl _))).symm

theorem Unmarshal_eq_of_parseLLSD (lib : Lib) {fuel fuel' : Nat} {toks : List Token}
    (h : parseLLSD lib fuel' toks = parseLLSD lib fuel toks) (target : Target) :
    Unmarshal lib fuel' toks target = Unmarshal lib fuel toks target := by
  simp only [Unmarshal, unmarshalBody, h]

/-- What `Unmarshal` does within some budget, `UnmarshalXML` does. -/
theorem UnmarshalXML_eq_of_fuel (lib : Lib) {fuel : Nat} {toks : List Token} {target : Target}
    {o : Outcome} (h : Unmarshal lib fuel toks target = o) (ho : o ≠ .noFuel) :
    UnmarshalXML lib toks target = o := by
  have hr : parseLLSD lib fuel toks ≠ .noFuel := by
    intro hh
    apply ho
    rw [← h]
    simp [Unmarshal, unmarshalBody, hh]
  rw [← h]
  exact Unmarshal_eq_of_parseLLSD lib (parseLLSD_eq_of_fuel lib rfl hr) target

theorem UnmarshalXML_eq_of_parseLLSD (lib : Lib) {fuel : Nat} {toks : List Token}
    {r : Res Value} (h : parseLLSD lib fuel toks = r) (hr : r ≠ .noFuel) (target : Target) :
    UnmarshalXML lib toks target = Unmarshal lib fuel toks target := by
  subst h
  exact Unmarshal_eq_of_parseLLSD lib (parseLLSD_eq_of_fuel lib rfl hr) target

/-- The decoder never exhausts the budget `UnmarshalXML` gives it: `UnmarshalXML` is total. -/
theorem UnmarshalXML_ne_noFuel (lib : Lib) (toks : List Token) (target : Target) :
    UnmarshalXML lib toks target ≠ .noFuel := by
  have hr := parseLLSD_ne_noFuel lib (Nat.le_refl (2 * toks.length + 1))
  simp only [UnmarshalXML, Unmarshal, unmarshalBody]
  cases hp : parseLLSD lib (2 * toks.length + 1) toks with
  | noFuel => exact absurd hp hr
  | panic p => cases p <;> simp [recovered]
  | ok v rest =>
    cases v <;> cases target <;> simp [reflectSet, Target.Kind, recovered]

/-! ### The root and its binding -/

theorem Unmarshal_undef (lib : Lib) {fuel : Nat} {toks rest : List Token}
    (h : parseLLSD lib fuel toks = .ok .undef rest) (target : Target) :
    UnmarshalXML lib toks target =
      match target with
      | .array => .returned none (some (.array []))
      | .map => .returned none (some (.map []))
      | .any => .returned none (some .undef)
      | _ => .panicked (.runtime "interface conversion: string is not error: missing method Error") := by
  rw [UnmarshalXML_eq_of_parseLLSD lib h (by simp)]
  cases target <;> simp [Unmarshal, unmarshalBody, h, reflectSet, Target.Kind, recovered]

/-- A panic of `parseLLSD` goes through the deferred function of `Unmarshal`: an
`error` is returned, a string or a `runtime.Error` leaves `UnmarshalXML` as a panic. -/
theorem Unmarshal_panic (lib : Lib) {fuel : Nat} {toks : List Token} {p : Panic}
    (h : parseLLSD lib fuel toks = .panic p) (target : Target) :
    UnmarshalXML lib toks target = recovered p := by
  rw [UnmarshalXML_eq_of_parseLLSD lib h (by simp)]
  simp [Unmarshal, unmarshalBody, h]

/-- C3: when the root decodes to Undefined, `UnmarshalXML` returns no error and stores
the empty `Array` in a sequence, the empty `Map` in a mapping and the `Undef` marker in
an `interface{}`. -/
theorem undef_root_binding (lib : Lib) (fuel : Nat) (toks rest : List Token)
    (h : parseLLSD lib fuel toks = .ok .undef rest) :
    UnmarshalXML lib toks .array = .returned none (some (.array [])) ∧
    UnmarshalXML lib toks .map = .returned none (some (.map [])) ∧
    UnmarshalXML lib toks .any = .returned none (some .undef) :=
  ⟨Unmarshal_undef lib h .array, Unmarshal_undef lib h .map, Unmarshal_undef lib h .any⟩

/-- C3 at the document `<llsd><undef/></llsd>`. -/
theorem undef_root_binding_witness :
    parseLLSD Lib.sample 1 undefDocument = .ok .undef [.EndElement "llsd"] ∧
    UnmarshalXML Lib.sample undefDocument .array = .returned none (some (.array [])) ∧
    UnmarshalXML Lib.sample undefDocument .map = .returned none (some (.map [])) ∧
    UnmarshalXML Lib.sample undefDocument .any = .returned none (some .undef) :=
  ⟨rfl, undef_root_binding Lib.sample 1 undefDocument [.EndElement "llsd"] rfl⟩

/-- C4: on `<llsd><array><foo/></array></llsd>` the string panic of `parseSomething`
is not converted into a returned error: the type assertion `r.(error)` of the deferred
function fails and `UnmarshalXML` panics. -/
theorem unknown_tag_panics (lib : Lib) (target : Target) :
    UnmarshalXML lib unknownTagDocument target =
      .panicked (.runtime "interface conversion: string is not error: missing method Error") := by
  rfl

/-! ### Scalars -/

/-- C6: a `<boolean>` holding `true` or `1` decodes to true; holding `false` or `0`,
empty, or holding a text that is no boolean form, to false; and it decodes for every text. -/
theorem boolean_element (lib : Lib) (fuel : Nat) (attr : List Attr) (rest : List Token) :
    (∀ text, text = str "true" ∨ text = str "1" →
      parseSomething lib (fuel + 1) ⟨"boolean", attr⟩
        (.CharData text :: .EndElement "boolean" :: rest) = .ok (.boolean true) rest) ∧
    (∀ text, text = str "false" ∨ text = str "0" ∨ text ∉ booleanForms →
      parseSomething lib (fuel + 1) ⟨"boolean", attr⟩
        (.CharData text :: .EndElement "boolean" :: rest) = .ok (.boolean false) rest) ∧
    parseSomething lib (fuel + 1) ⟨"boolean", attr⟩ (.EndElement "boolean" :: rest) =
      .ok (.boolean false) rest ∧
    (∀ text, ∃ b, parseSomething lib (fuel + 1) ⟨"boolean", attr⟩
        (.CharData text :: .EndElement "boolean" :: rest) = .ok (.boolean b) rest) := by
  have hs : ∀ text, parseSomething lib (fuel + 1) ⟨"boolean", attr⟩
      (.CharData text :: .EndElement "boolean" :: rest) =
      .ok (.boolean (match ParseBool text with
        | (_, some _) => false
        | (b, none) => b)) rest := by
    intro text; rfl
  refine ⟨?_, ?_, rfl, fun text => ⟨_, hs text⟩⟩
  · rintro text (rfl | rfl) <;> rfl
  · rintro text (rfl | rfl | h)
    · rfl
    · rfl
    · rw [hs]
      simp only [booleanForms, List.mem_cons, List.mem_singleton, List.not_mem_nil, or_false,
        not_or] at h
      obtain ⟨h1, h2, h3, h4, h5, h6, h7, h8, h9, h10, h11, h12⟩ := h
      simp [ParseBool, h1, h2, h3, h4, h5, h6, h7, h8, h9, h10, h11, h12]

/-- C6 at the texts `true`, `0` and `maybe`. -/
theorem boolean_element_witness :
    parseSomething Lib.sample 1 ⟨"boolean", []⟩
      [.CharData (str "true"), .EndElement "boolean"] = .ok (.boolean true) [] ∧
    parseSomething Lib.sample 1 ⟨"boolean", []⟩
      [.CharData (str "0"), .EndElement "boolean"] = .ok (.boolean false) [] ∧
    parseSomething Lib.sample 1 ⟨"boolean", []⟩
      [.CharData (str "maybe"), .EndElement "boolean"] = .ok (.boolean false) [] :=
  ⟨(boolean_element Lib.sample 0 [] []).1 _ (Or.inl rfl),
   (boolean_element Lib.sample 0 [] []).2.1 _ (Or.inr (Or.inl rfl)),
   (boolean_element Lib.sample 0 [] []).2.1 _ (Or.inr (Or.inr (by decide)))⟩

/-- C7: a `<date>` whose text `time.Parse` accepts decodes to `time.Unix(0, 0)`, the
epoch, whatever instant the text denotes. -/
theorem date_accepted_decodes_to_epoch (lib : Lib) (fuel : Nat) (attr : List Attr)
    (text : Bytes) (t : Time) (rest : List Token) (h : lib.timeParse text = some t) :
    parseSomething lib (fuel + 1) ⟨"date", attr⟩
      (.CharData text :: .EndElement "date" :: rest) = .ok (.date (Time.Unix 0 0)) rest := by
  have : parseSomething lib (fuel + 1) ⟨"date", attr⟩
      (.CharData text :: .EndElement "date" :: rest) =
      (parseDate lib (.CharData text :: .EndElement "date" :: rest)).map .date := rfl
  rw [this]
  simp only [parseDate, h]
  rfl

/-- C7 at `<date>2007-03-15T18:30:18Z</date>`, which is Unix time 1173983418. -/
theorem date_accepted_decodes_to_epoch_witness :
    Lib.sample.timeParse (str "2007-03-15T18:30:18Z") = some ⟨1173983418, 0⟩ ∧
    parseSomething Lib.sample 1 ⟨"date", []⟩
      [.CharData (str "2007-03-15T18:30:18Z"), .EndElement "date"] =
      .ok (.date (Time.Unix 0 0)) [] ∧
    Time.Unix 0 0 ≠ ⟨1173983418, 0⟩ :=
  ⟨rfl, date_accepted_decodes_to_epoch Lib.sample 0 [] (str "2007-03-15T18:30:18Z")
    ⟨1173983418, 0⟩ [] rfl, by decide⟩

/-- C8: a `<date>` whose text `time.Parse` rejects decodes to the `time.Time{}` that
`time.Parse` returns with its error, the year 1, and not to the epoch an empty `<date/>`
decodes to. -/
theorem date_rejected_decodes_to_zero_time (lib : Lib) (fuel : Nat) (attr : List Attr)
    (text : Bytes) (rest : List Token) (h : lib.timeParse text = none) :
    parseSomething lib (fuel + 1) ⟨"date", attr⟩
      (.CharData text :: .EndElement "date" :: rest) = .ok (.date Time.zero) rest ∧
    parseSomething lib (fuel + 1) ⟨"date", attr⟩ (.EndElement "date" :: rest) =
      .ok (.date (Time.Unix 0 0)) rest ∧
    Time.zero ≠ Time.Unix 0 0 := by
  have : parseSomething lib (fuel + 1) ⟨"date", attr⟩
      (.CharData text :: .EndElement "date" :: rest) =
      (parseDate lib (.CharData text :: .EndElement "date" :: rest)).map .date := rfl
  rw [this]
  simp only [parseDate, h]
  exact ⟨rfl, rfl, by decide⟩

/-- C8 at `<date>yesterday</date>`. -/
theorem date_rejected_decodes_to_zero_time_witness :
    Lib.sample.timeParse (str "yesterday") = none ∧
    parseSomething Lib.sample 1 ⟨"date", []⟩
      [.CharData (str "yesterday"), .EndElement "date"] = .ok (.date ⟨-62135596800, 0⟩) [] :=
  ⟨rfl, (date_rejected_decodes_to_zero_time Lib.sample 0 [] (str "yesterday") [] rfl).1⟩

/-! ### Binary -/

/-- C9: in `base16` the digit pairs `FF` and `80` both decode to the byte 127, the
largest value `strconv.ParseInt(_, 16, 8)` returns, not to 255 and 128; `7F` decodes to 127
as well. -/
theorem base16_high_bytes_saturate (lib : Lib) (fuel : Nat) (rest : List Token) :
    parseSomething lib (fuel + 1) ⟨"binary", [⟨"encoding", "base16"⟩]⟩
      (.CharData (str "FF") :: .EndElement "binary" :: rest) = .ok (.binary [127]) rest ∧
    parseSomething lib (fuel + 1) ⟨"binary", [⟨"encoding", "base16"⟩]⟩
      (.CharData (str "80") :: .EndElement "binary" :: rest) = .ok (.binary [127]) rest ∧
    parseSomething lib (fuel + 1) ⟨"binary", [⟨"encoding", "base16"⟩]⟩
      (.CharData (str "7F") :: .EndElement "binary" :: rest) = .ok (.binary [127]) rest :=
  ⟨rfl, rfl, rfl⟩

theorem encodingOf_of_not_mem {attr : List Attr} (h : ∀ a ∈ attr, a.Name ≠ "encoding")
    (post : List Attr) : encodingOf (attr ++ post) = encodingOf post := by
  induction attr with
  | nil => rfl
  | cons a as ih =>
    have ha : a.Name ≠ "encoding" := h a (List.mem_cons_self _ _)
    simp only [List.cons_append, encodingOf, if_neg ha]
    exact ih (fun b hb => h b (List.mem_cons_of_mem _ hb))

theorem parseBinary_default (lib : Lib) (deferred : Nat) (toks : List Token) :
    parseBinary lib "" deferred toks = parseBinary lib "base64" deferred toks := by
  induction toks generalizing deferred with
  | nil => rfl
  | cons t ts ih => cases t <;> simp [parseBinary, ih]

/-- C10: a `<binary>` without an `encoding` attribute, or with an empty one, decodes
on every content to what the same content decodes to under `encoding="base64"`: the same
bytes, or the same panic. -/
theorem binary_default_encoding_is_base64 (lib : Lib) (fuel : Nat) (attr post : List Attr)
    (content : List Token) (h : ∀ a ∈ attr, a.Name ≠ "encoding") :
    parseSomething lib fuel ⟨"binary", attr⟩ content =
      parseSomething lib fuel ⟨"binary", [⟨"encoding", "base64"⟩]⟩ content ∧
    parseSomething lib fuel ⟨"binary", attr ++ ⟨"encoding", ""⟩ :: post⟩ content =
      parseSomething lib fuel ⟨"binary", [⟨"encoding", "base64"⟩]⟩ content := by
  have h1 : encodingOf attr = "" := by
    have := encodingOf_of_not_mem h []
    simpa [encodingOf] using this
  have h2 : encodingOf (attr ++ ⟨"encoding", ""⟩ :: post) = "" := by
    rw [encodingOf_of_not_mem h]; rfl
  cases fuel with
  | zero => exact ⟨rfl, rfl⟩
  | succ fuel =>
    have hb : ∀ a, parseSomething lib (fuel + 1) ⟨"binary", a⟩ content =
        (parseBinary lib (encodingOf a) 0 content).map .binary := fun a => rfl
    rw [hb, hb, hb, h1, h2, parseBinary_default]
    exact ⟨rfl, rfl⟩

/-- C10 at `<binary id="x">AAEC</binary>` and `<binary id="x" encoding="">AAEC</binary>`. -/
theorem binary_default_encoding_is_base64_witness :
    parseSomething Lib.sample 1 ⟨"binary", [⟨"id", "x"⟩]⟩
        [.CharData (str "AAEC"), .EndElement "binary"] =
      parseSomething Lib.sample 1 ⟨"binary", [⟨"encoding", "base64"⟩]⟩
        [.CharData (str "AAEC"), .EndElement "binary"] ∧
    parseSomething Lib.sample 1 ⟨"binary", [⟨"id", "x"⟩, ⟨"encoding", ""⟩]⟩
        [.CharData (str "AAEC"), .EndElement "binary"] =
      parseSomething Lib.sample 1 ⟨"binary", [⟨"encoding", "base64"⟩]⟩
        [.CharData (str "AAEC"), .EndElement "binary"] :=
  binary_default_encoding_is_base64 Lib.sample 1 [⟨"id", "x"⟩] [] _ (by decide)

/-! ### `strconv.ParseInt` on decimal text -/

theorem foldl_digits_ge (s : Bytes) (n : Nat) :
    n ≤ s.foldl (fun n c => 10 * n + (c - 48)) n := by
  induction s generalizing n with
  | nil => simp
  | cons c s ih =>
    simp only [List.foldl_cons]
    exact Nat.le_trans (by omega) (ih _)

/-- The loop of `ParseUint` in base 10 with 32 bits, on digits. -/
theorem parseUintLoop_digits (s : Bytes) (n : Nat) (hn : n ≤ 2 ^ 32 - 1)
    (hs : s.all isDigit = true) :
    parseUintLoop 10 (2 ^ 32 - 1) n s =
      if s.foldl (fun n c => 10 * n + (c - 48)) n ≤ 2 ^ 32 - 1 then
        (s.foldl (fun n c => 10 * n + (c - 48)) n, none)
      else (2 ^ 32 - 1, some .ErrRange) := by
  induction s generalizing n with
  | nil =>
    simp only [parseUintLoop, List.foldl_nil]
    rw [if_pos hn]
  | cons c s ih =>
    simp only [List.all_cons, Bool.and_eq_true, isDigit, decide_eq_true_eq] at hs
    obtain ⟨⟨h1, h2⟩, hs⟩ := hs
    simp only [Nat.reducePow, Nat.reduceSub] at hn ih ⊢
    have hdig : digitOf c = some (c - 48) := by simp [digitOf, h1, h2]
    simp only [parseUintLoop, hdig, List.foldl_cons]
    have hd : ¬ (c - 48 ≥ 10) := by omega
    have hc : ¬ (n ≥ (2 ^ 64 - 1) / 10 + 1) := by
      simp only [Nat.reducePow, Nat.reduceSub, Nat.reduceDiv, Nat.reduceAdd]; omega
    simp only [hd, hc, if_false]
    have hmod : (n * 10 + (c - 48)) % 2 ^ 64 = 10 * n + (c - 48) := by
      simp only [Nat.reducePow]; omega
    rw [hmod]
    by_cases hover : 10 * n + (c - 48) > 4294967295
    · have hge := foldl_digits_ge s (10 * n + (c - 48))
      rw [if_pos (Or.inr hover), if_neg (by omega)]
    · rw [if_neg (by omega)]
      exact ih _ (by omega) hs

/-- The loop of `ParseUint` in base 10 reports an error when some byte is no digit. -/
theorem parseUintLoop_not_digits (s : Bytes) (n maxVal : Nat) (hs : s.all isDigit = false) :
    (parseUintLoop 10 maxVal n s).2 ≠ none := by
  induction s generalizing n with
  | nil => simp at hs
  | cons c s ih =>
    simp only [parseUintLoop]
    by_cases hc : 48 ≤ c ∧ c ≤ 57
    · have hs' : s.all isDigit = false := by
        simpa [List.all_cons, isDigit, hc] using hs
      have hdig : digitOf c = some (c - 48) := by simp [digitOf, hc]
      simp only [hdig]
      split_ifs
      · simp
      · simp
      · simp
      · exact ih _ hs'
    · by_cases hl : 97 ≤ lower c ∧ lower c ≤ 122
      · have hdig : digitOf c = some (lower c - 97 + 10) := by simp [digitOf, hc, hl]
        have : lower c - 97 + 10 ≥ 10 := by omega
        simp [hdig, this]
      · have hdig : digitOf c = none := by simp [digitOf, hc, hl]
        simp [hdig]

theorem ParseUint_digits (s : Bytes) (hne : s ≠ []) (hs : s.all isDigit = true) :
    ParseUint s 10 32 =
      if digitsValue s ≤ 2 ^ 32 - 1 then (digitsValue s, none) else (2 ^ 32 - 1, some .ErrRange) := by
  rw [ParseUint, if_neg hne, parseUintLoop_digits s 0 (by simp) hs]
  rfl

theorem ParseUint_not_digits (s : Bytes) (hs : s = [] ∨ s.all isDigit = false) :
    (ParseUint s 10 32).2 ≠ none := by
  rcases hs with rfl | hs
  · simp [ParseUint]
  · have hne : s ≠ [] := by rintro rfl; simp at hs
    rw [ParseUint, if_neg hne]
    exact parseUintLoop_not_digits s 0 _ hs

theorem parseUintLoop_range (base maxVal : Nat) (s : Bytes) (n : Nat)
    (h : (parseUintLoop base maxVal n s).2 = some .ErrRange) :
    (parseUintLoop base maxVal n s).1 = maxVal := by
  induction s generalizing n with
  | nil => simp [parseUintLoop] at h
  | cons c s ih =>
    simp only [parseUintLoop] at h ⊢
    cases hd : digitOf c with
    | none => simp [hd] at h
    | some d =>
      simp only [hd] at h ⊢
      split_ifs at h ⊢
      · simp at h
      · rfl
      · rfl
      · exact ih _ h

/-- The result of `ParseInt` from that of `ParseUint` on the text after the sign. -/
theorem ParseInt_cons (c : Nat) (s : Bytes) (un : Nat) (e : Option NumError)
    (h : ParseUint (if c = 43 ∨ c = 45 then s else c :: s) 10 32 = (un, e)) :
    ParseInt (c :: s) 10 32 =
      if e = some .ErrSyntax then (0, some .ErrSyntax)
      else if ¬ c = 45 ∧ un ≥ 2 ^ 31 then (2 ^ 31 - 1, some .ErrRange)
      else if c = 45 ∧ un > 2 ^ 31 then (-2 ^ 31, some .ErrRange)
      else (if c = 45 then -(un : Int) else (un : Int), none) := by
  simp only [ParseInt, h]
  cases e with
  | none => simp
  | some e =>
    cases e with
    | ErrSyntax => simp
    | ErrRange => simp


theorem ParseUint_range (s : Bytes) (h : (ParseUint s 10 32).2 = some .ErrRange) :
    (ParseUint s 10 32).1 = 2 ^ 32 - 1 := by
  unfold ParseUint at h ⊢
  split_ifs at h ⊢
  · simp at h
  · exact parseUintLoop_range _ _ _ _ h

/-- The conversion of `parseInteger` is the reading of a 32-bit decimal numeral, with 0
for every other text. -/
theorem parseInteger_conversion (s : Bytes) :
    (match ParseInt s 10 32 with
      | (_, some _) => 0
      | (i, none) => i) = integerOfText s := by
  cases s with
  | nil => rfl
  | cons c s =>
    by_cases hsign : c = 43 ∨ c = 45
    · -- a sign, then the digits
      have hs1 : (if c = 43 ∨ c = 45 then s else c :: s) = s := if_pos hsign
      by_cases hd : s ≠ [] ∧ s.all isDigit = true
      · have hu := ParseUint_digits s hd.1 hd.2
        have hnum : isDecimalNumeral (c :: s) = true := by
          simp [isDecimalNumeral, hsign, hd.1, hd.2]
        by_cases hv : digitsValue s ≤ 2 ^ 32 - 1
        · rw [if_pos hv] at hu
          rw [ParseInt_cons c s (digitsValue s) none (by rw [hs1]; exact hu)]
          simp only [integerOfText, isInt32Numeral, hnum, numeralValue, Bool.true_and]
          rcases hsign with rfl | rfl
          · simp only [Nat.reducePow, Nat.reduceSub] at hv ⊢
            by_cases hr : digitsValue s ≥ 2147483648
            · have : ¬ ((digitsValue s : Int) ≤ 2147483647) := by omega
              simp [hr, this]
            · have : (digitsValue s : Int) ≤ 2147483647 := by omega
              have h0 : (-2147483648 : Int) ≤ (digitsValue s : Int) := by omega
              simp [hr, this, h0]
          · simp only [Nat.reducePow, Nat.reduceSub] at hv ⊢
            by_cases hr : digitsValue s > 2147483648
            · have : ¬ ((-2147483648 : Int) ≤ -(digitsValue s : Int)) := by omega
              simp [hr, this]
            · have : (-2147483648 : Int) ≤ -(digitsValue s : Int) := by omega
              have h0 : -(digitsValue s : Int) ≤ 2147483647 := by omega
              simp [hr, this, h0]
        · rw [if_neg hv] at hu
          rw [ParseInt_cons c s (2 ^ 32 - 1) (some .ErrRange) (by rw [hs1]; exact hu)]
          simp only [integerOfText, isInt32Numeral, hnum, numeralValue, Bool.true_and]
          rcases hsign with rfl | rfl
          · simp only [Nat.reducePow, Nat.reduceSub] at hv ⊢
            have : ¬ ((digitsValue s : Int) ≤ 2147483647) := by omega
            simp [this]
          · simp only [Nat.reducePow, Nat.reduceSub] at hv ⊢
            have : ¬ ((-2147483648 : Int) ≤ -(digitsValue s : Int)) := by omega
            simp [this]
      · have hnum : isDecimalNumeral (c :: s) = false := by
          simp only [isDecimalNumeral, if_pos hsign]
          by_cases hne : s = []
          · simp [hne]
          · have : s.all isDigit = false := by
              by_contra hh
              exact hd ⟨hne, by simpa using hh⟩
            simp [this]
        have herr := ParseUint_not_digits s (by
          by_cases hne : s = []
          · exact Or.inl hne
          · right
            by_contra hh
            exact hd ⟨hne, by simpa using hh⟩)
        have hint : integerOfText (c :: s) = 0 := by simp [integerOfText, isInt32Numeral, hnum]
        rw [hint]
        cases hres : ParseUint s 10 32 with
        | mk un e =>
          rw [hres] at herr
          have hrange := ParseUint_range s
          rw [hres] at hrange
          rw [ParseInt_cons c s un e (by rw [hs1]; exact hres)]
          cases e with
          | none => exact absurd rfl herr
          | some e =>
            cases e with
            | ErrSyntax => simp
            | ErrRange =>
              have hun : un = 2 ^ 32 - 1 := hrange rfl
              subst hun
              rcases hsign with rfl | rfl <;> simp
    · -- no sign
      have hs1 : (if c = 43 ∨ c = 45 then s else c :: s) = c :: s := if_neg hsign
      have h43 : ¬ c = 43 := fun h => hsign (Or.inl h)
      have h45 : ¬ c = 45 := fun h => hsign (Or.inr h)
      by_cases hd : (c :: s).all isDigit = true
      · have hu := ParseUint_digits (c :: s) (by simp) hd
        have hnum : isDecimalNumeral (c :: s) = true := by
          simp only [isDecimalNumeral, if_neg hsign]; exact hd
        by_cases hv : digitsValue (c :: s) ≤ 2 ^ 32 - 1
        · rw [if_pos hv] at hu
          rw [ParseInt_cons c s (digitsValue (c :: s)) none (by rw [hs1]; exact hu)]
          simp only [integerOfText, isInt32Numeral, hnum, numeralValue, Bool.true_and, if_neg h43,
            if_neg h45]
          simp only [Nat.reducePow, Nat.reduceSub] at hv ⊢
          by_cases hr : digitsValue (c :: s) ≥ 2147483648
          · have : ¬ ((digitsValue (c :: s) : Int) ≤ 2147483647) := by omega
            simp [hr, this, h45]
          · have : (digitsValue (c :: s) : Int) ≤ 2147483647 := by omega
            have h0 : (-2147483648 : Int) ≤ (digitsValue (c :: s) : Int) := by omega
            simp [hr, this, h0, h45]
        · rw [if_neg hv] at hu
          rw [ParseInt_cons c s (2 ^ 32 - 1) (some .ErrRange) (by rw [hs1]; exact hu)]
          simp only [integerOfText, isInt32Numeral, hnum, numeralValue, Bool.true_and, if_neg h43,
            if_neg h45]
          simp only [Nat.reducePow, Nat.reduceSub] at hv ⊢
          have : ¬ ((digitsValue (c :: s) : Int) ≤ 2147483647) := by omega
          simp [this, h45]
      · have hd' : (c :: s).all isDigit = false := by simpa using hd
        have hnum : isDecimalNumeral (c :: s) = false := by
          simp only [isDecimalNumeral, if_neg hsign]; exact hd'
        have herr := ParseUint_not_digits (c :: s) (Or.inr hd')
        have hint : integerOfText (c :: s) = 0 := by simp [integerOfText, isInt32Numeral, hnum]
        rw [hint]
        cases hres : ParseUint (c :: s) 10 32 with
        | mk un e =>
          rw [hres] at herr
          have hrange := ParseUint_range (c :: s)
          rw [hres] at hrange
          rw [ParseInt_cons c s un e (by rw [hs1]; exact hres)]
          cases e with
          | none => exact absurd rfl herr
          | some e =>
            cases e with
            | ErrSyntax => simp
            | ErrRange =>
              have hun : un = 2 ^ 32 - 1 := hrange rfl
              subst hun
              simp [h45]

/-! ### Fillers -/

theorem parseLLSD_fillers (lib : Lib) (g : List Filler) (fuel : Nat) (rest : List Token) :
    parseLLSD lib (fuel + g.length) (fillers g ++ rest) = parseLLSD lib fuel rest := by
  induction g with
  | nil => rfl
  | cons a g ih =>
    cases a <;> simpa [fillers, Filler.token, parseLLSD, ← Nat.add_assoc] using ih

theorem parseLLSDRoot_fillers (lib : Lib) (g : List Filler) (fuel : Nat) (rest : List Token) :
    parseLLSDRoot lib fuel (fillers g ++ rest) = parseLLSDRoot lib fuel rest := by
  induction g with
  | nil => rfl
  | cons a g ih =>
    cases a <;> simpa [fillers, Filler.token, parseLLSDRoot] using ih

theorem parseArrayLoop_fillers (lib : Lib) (g : List Filler) (fuel : Nat) (l : List Value)
    (rest : List Token) :
    parseArrayLoop lib (fuel + g.length) l (fillers g ++ rest) = parseArrayLoop lib fuel l rest := by
  induction g with
  | nil => rfl
  | cons a g ih =>
    cases a <;> simpa [fillers, Filler.token, parseArrayLoop, ← Nat.add_assoc] using ih

theorem parseMapLoop_fillers (lib : Lib) (g : List Filler) (fuel : Nat) (m : Map) (k : Bytes)
    (h : Bool) (rest : List Token) :
    parseMapLoop lib (fuel + g.length) m k h (fillers g ++ rest) =
      parseMapLoop lib fuel m k h rest := by
  induction g with
  | nil => rfl
  | cons a g ih =>
    cases a <;> simpa [fillers, Filler.token, parseMapLoop, ← Nat.add_assoc] using ih

/-- The root `<llsd>` after fillers, then its child after fillers. -/
theorem parseLLSD_document (lib : Lib) (prolog gap : List Filler) (attr : List Attr)
    (fuel : Nat) (rest : List Token) :
    parseLLSD lib (fuel + 1 + prolog.length)
        (fillers prolog ++ .StartElement ⟨"llsd", attr⟩ :: (fillers gap ++ rest)) =
      parseLLSDRoot lib fuel rest := by
  rw [parseLLSD_fillers]
  simp [parseLLSD, parseLLSDRoot_fillers]

/-! ### Binding a container -/

theorem Unmarshal_array (lib : Lib) {fuel : Nat} {toks rest : List Token} {a : Array}
    (h : parseLLSD lib fuel toks = .ok (.array a) rest) (target : Target) :
    UnmarshalXML lib toks target =
      match target with
      | .array | .any => .returned none (some (.array a))
      | _ => .panicked (.runtime "interface conversion: string is not error: missing method Error") := by
  rw [UnmarshalXML_eq_of_parseLLSD lib h (by simp)]
  cases target <;> simp [Unmarshal, unmarshalBody, h, reflectSet, recovered]

theorem Unmarshal_map (lib : Lib) {fuel : Nat} {toks rest : List Token} {m : Map}
    (h : parseLLSD lib fuel toks = .ok (.map m) rest) (target : Target) :
    UnmarshalXML lib toks target =
      match target with
      | .map | .any => .returned none (some (.map m))
      | _ => .panicked (.runtime "interface conversion: string is not error: missing method Error") := by
  rw [UnmarshalXML_eq_of_parseLLSD lib h (by simp)]
  cases target <;> simp [Unmarshal, unmarshalBody, h, reflectSet, recovered]

/-! ### Arrays of integers -/

theorem parseSomething_integer (lib : Lib) (fuel : Nat) (attr : List Attr) (text : Bytes)
    (rest : List Token) :
    parseSomething lib (fuel + 1) ⟨"integer", attr⟩
        (.CharData text :: .EndElement "integer" :: rest) =
      .ok (.integer (integerOfText text)) rest := by
  have : parseSomething lib (fuel + 1) ⟨"integer", attr⟩
      (.CharData text :: .EndElement "integer" :: rest) =
      (parseInteger (.CharData text :: .EndElement "integer" :: rest)).map .integer := rfl
  rw [this]
  simp only [parseInteger, parseInteger_conversion]
  rfl

/-- The loop of `parseArray` over `<integer>` children appends one integer per child. -/
theorem parseArrayLoop_integerChildren (lib : Lib) (cs : List IntegerChild) (l : List Value)
    (rest : List Token) (fuel : Nat) (hf : 1 ≤ fuel) :
    ∃ fuel', fuel ≤ fuel' ∧
      parseArrayLoop lib fuel' l (integerChildren cs ++ rest) =
        parseArrayLoop lib fuel (l ++ cs.map fun c => .integer (integerOfText c.text)) rest := by
  induction cs generalizing l with
  | nil => exact ⟨fuel, Nat.le_refl _, by simp [integerChildren]⟩
  | cons c cs ih =>
    obtain ⟨f1, hle, h1⟩ := ih (l ++ [.integer (integerOfText c.text)])
    obtain ⟨f0, rfl⟩ : ∃ f0, f1 = f0 + 1 := ⟨f1 - 1, by omega⟩
    refine ⟨f0 + 1 + 1 + c.gap.length, by omega, ?_⟩
    simp only [integerChildren, IntegerChild.tokens, List.append_assoc, List.cons_append,
      List.nil_append, parseArrayLoop_fillers]
    simp only [parseArrayLoop, parseSomething_integer, Res.bind]
    rw [h1]
    simp

/-- The root of a document of integers. -/
theorem parseLLSD_integerArrayDocument (lib : Lib) (d : IntegerArrayDocument) :
    ∃ fuel, parseLLSD lib fuel d.tokens =
      .ok (.array (d.children.map fun c => .integer (integerOfText c.text)))
        (fillers d.afterArray ++ .EndElement "llsd" :: fillers d.epilog) := by
  obtain ⟨f1, hle, h1⟩ := parseArrayLoop_integerChildren lib d.children []
    (fillers d.afterChildren ++ .EndElement "array" ::
      (fillers d.afterArray ++ .EndElement "llsd" :: fillers d.epilog))
    (1 + d.afterChildren.length) (by omega)
  refine ⟨f1 + 1 + d.prolog.length, ?_⟩
  rw [IntegerArrayDocument.tokens, parseLLSD_document]
  simp only [parseLLSDRoot, parseArray]
  rw [if_neg (by decide), if_pos trivial, h1, parseArrayLoop_fillers]
  simp [parseArrayLoop, Res.map]

/-- C1: a document `<llsd><array> c1 ... cn </array></llsd>` whose children are
`<integer>` elements holding numerals of the 32-bit range, with any fillers between the
elements, decodes into an `Array` without error, to the `n` integers the children
denote, in document order. -/
theorem integer_array_decodes (lib : Lib) (d : IntegerArrayDocument)
    (h : ∀ c ∈ d.children, isInt32Numeral c.text = true) :
    ∃ a : Array,
      UnmarshalXML lib d.tokens .array = .returned none (some (.array a)) ∧
      a.length = d.children.length ∧
      a = d.children.map (fun c => .integer (numeralValue c.text)) ∧
      ∀ i (hi : i < d.children.length),
        a[i]? = some (.integer (numeralValue (d.children.get ⟨i, hi⟩).text)) := by
  obtain ⟨fuel, hp⟩ := parseLLSD_integerArrayDocument lib d
  have hmap : (d.children.map fun c => Value.integer (integerOfText c.text)) =
      d.children.map (fun c => .integer (numeralValue c.text)) := by
    apply List.map_congr_left
    intro c hc
    simp [integerOfText, h c hc]
  rw [hmap] at hp
  refine ⟨_, Unmarshal_array lib hp .array, by simp, rfl, ?_⟩
  intro i hi
  simp [List.getElem?_map, List.getElem?_eq_getElem hi]

/-- C1 at the document of `TestSimpleArray`. -/
theorem integer_array_decodes_witness :
    ∃ a : Array,
      UnmarshalXML Lib.sample simpleArrayDocument.tokens .array =
        .returned none (some (.array a)) ∧
      a.length = 3 ∧
      a = [.integer 1, .integer 2, .integer 3] ∧
      ∀ i (hi : i < 3),
        a[i]? = some (.integer (numeralValue (simpleArrayDocument.children.get ⟨i, hi⟩).text)) :=
  integer_array_decodes Lib.sample simpleArrayDocument (by decide)

/-- C5: a document `<llsd><array> c1 ... cn </array></llsd>` whose children are
`<integer>` elements holding any text decodes without error to one integer per child:
the number the child's text denotes when the text is a numeral of the 32-bit range, and
0 when it is not, whatever its siblings hold; a malformed `<integer>` before
`<integer>5</integer>` gives `[0, 5]`. -/
theorem integer_array_defaults (lib : Lib) :
    (∀ d : IntegerArrayDocument,
      UnmarshalXML lib d.tokens .array = .returned none (some (.array
        (d.children.map fun c =>
          .integer (if isInt32Numeral c.text then numeralValue c.text else 0))))) ∧
    UnmarshalXML lib malformedIntegerDocument.tokens .array =
      .returned none (some (.array [.integer 0, .integer 5])) := by
  have hd : ∀ d : IntegerArrayDocument,
      UnmarshalXML lib d.tokens .array = .returned none (some (.array
        (d.children.map fun c =>
          .integer (if isInt32Numeral c.text then numeralValue c.text else 0)))) := by
    intro d
    obtain ⟨fuel, hp⟩ := parseLLSD_integerArrayDocument lib d
    exact Unmarshal_array lib hp .array
  exact ⟨hd, hd malformedIntegerDocument⟩

/-! ### Maps -/

theorem Map.keys_set (m : Map) (k : Bytes) (v : Value) (k' : Bytes) :
    k' ∈ (Map.set m k v).keys ↔ k' ∈ m.keys ∨ k' = k := by
  induction m with
  | nil => simp [Map.set, Map.keys]
  | cons a m ih =>
    obtain ⟨ka, va⟩ := a
    simp only [Map.set]
    split_ifs with h
    · subst h
      simp only [Map.keys, List.map_cons, List.mem_cons]
      tauto
    · simp only [Map.keys, List.map_cons, List.mem_cons] at ih ⊢
      rw [ih]; tauto

theorem Map.nodup_keys_set (m : Map) (k : Bytes) (v : Value) (h : m.keys.Nodup) :
    (Map.set m k v).keys.Nodup := by
  induction m with
  | nil => simp [Map.set, Map.keys]
  | cons a m ih =>
    obtain ⟨ka, va⟩ := a
    simp only [Map.keys, List.map_cons, List.nodup_cons] at h
    simp only [Map.set]
    split_ifs with hk
    · subst hk; simpa [Map.keys] using h
    · have hmem := Map.keys_set m k v ka
      simp only [Map.keys, List.map_cons, List.nodup_cons] at hmem ⊢
      refine ⟨?_, ih h.2⟩
      rw [hmem]
      rintro (h1 | h1)
      · exact h.1 h1
      · exact hk h1

theorem Map.get?_set (m : Map) (k : Bytes) (v : Value) (k' : Bytes) :
    Map.get? (Map.set m k v) k' = if k' = k then some v else Map.get? m k' := by
  induction m with
  | nil =>
    simp only [Map.set, Map.get?]
    by_cases h : k = k'
    · simp [h]
    · simp [h, Ne.symm h]
  | cons a m ih =>
    obtain ⟨ka, va⟩ := a
    simp only [Map.set]
    split_ifs with h1 h2 h2
    · simp [Map.get?, h2]
    · subst h1
      have : ¬ ka = k' := fun h => h2 h.symm
      simp [Map.get?, this, h2]
    · subst h2
      simp [Map.get?, h1, ih]
    · simp only [Map.get?, ih, if_neg h2]

/-! ### The shape of the target -/

/-- C11 fails on `<llsd><map></map></llsd>` into a sequence and on
`<llsd><array></array></llsd>` into a mapping: no value is delivered and the call does
not return the nil error. -/
theorem container_root_wrong_target_counterexample :
    UnmarshalXML Lib.sample emptyMapDocument .array ≠ .returned none (some (.map [])) ∧
    (UnmarshalXML Lib.sample emptyMapDocument .array).stored = none ∧
    (UnmarshalXML Lib.sample emptyMapDocument .array).returnsNil = false ∧
    UnmarshalXML Lib.sample emptyArrayDocument .map ≠ .returned none (some (.array [])) ∧
    (UnmarshalXML Lib.sample emptyArrayDocument .map).stored = none ∧
    (UnmarshalXML Lib.sample emptyArrayDocument .map).returnsNil = false := by
  refine ⟨?_, rfl, rfl, ?_, rfl, rfl⟩
  · intro h
    have h' := congrArg Outcome.returnsNil h
    exact absurd h' (by decide)
  · intro h
    have h' := congrArg Outcome.returnsNil h
    exact absurd h' (by decide)

/-- C11, amended: a root that decodes to a `Map` is delivered, with the nil error, to a
mapping and to an `interface{}`, and a root that decodes to an `Array` to a sequence and
to an `interface{}`; a `Map` for a sequence and an `Array` for a mapping are not
delivered, and the nil error is not returned. -/
theorem container_root_binding (lib : Lib) (fuel : Nat) (toks rest : List Token) :
    (∀ m : Map, parseLLSD lib fuel toks = .ok (.map m) rest →
      UnmarshalXML lib toks .map = .returned none (some (.map m)) ∧
      UnmarshalXML lib toks .any = .returned none (some (.map m)) ∧
      (UnmarshalXML lib toks .array).stored = none ∧
      (UnmarshalXML lib toks .array).returnsNil = false) ∧
    (∀ a : Array, parseLLSD lib fuel toks = .ok (.array a) rest →
      UnmarshalXML lib toks .array = .returned none (some (.array a)) ∧
      UnmarshalXML lib toks .any = .returned none (some (.array a)) ∧
      (UnmarshalXML lib toks .map).stored = none ∧
      (UnmarshalXML lib toks .map).returnsNil = false) := by
  constructor
  · intro m h
    refine ⟨Unmarshal_map lib h .map, Unmarshal_map lib h .any, ?_, ?_⟩ <;>
      rw [Unmarshal_map lib h .array] <;> rfl
  · intro a h
    refine ⟨Unmarshal_array lib h .array, Unmarshal_array lib h .any, ?_, ?_⟩ <;>
      rw [Unmarshal_array lib h .map] <;> rfl

/-- C11, amended, at the documents `<llsd><map></map></llsd>` and
`<llsd><array></array></llsd>`. -/
theorem container_root_binding_witness :
    parseLLSD Lib.sample 2 emptyMapDocument = .ok (.map []) [.EndElement "llsd"] ∧
    parseLLSD Lib.sample 2 emptyArrayDocument = .ok (.array []) [.EndElement "llsd"] ∧
    UnmarshalXML Lib.sample emptyMapDocument .map = .returned none (some (.map [])) ∧
    UnmarshalXML Lib.sample emptyArrayDocument .any = .returned none (some (.array [])) :=
  ⟨rfl, rfl,
    ((container_root_binding Lib.sample 2 emptyMapDocument [.EndElement "llsd"]).1 [] rfl).1,
    ((container_root_binding Lib.sample 2 emptyArrayDocument [.EndElement "llsd"]).2 [] rfl).2.1⟩

/-! ### The end of a map -/

/-- C14 fails on `<llsd><map><key>a</key></map></llsd>`: the `</map>` after the key
without a value returns the mapping, here the empty one, and no error. -/
theorem dangling_key_counterexample :
    UnmarshalXML Lib.sample danglingKeyDocument .map = .returned none (some (.map [])) := by
  rfl

/-- C14, amended: the loop of `parseMap` accepts the end tag `</map>` in both of its
states, before a key and between a key and its value, and returns the mapping it has
accumulated, the pending key dropped; an end tag of another name is a panic. -/
theorem map_end_tag (lib : Lib) (fuel : Nat) (m : Map) (current_key : Bytes)
    (rest : List Token) :
    parseMapLoop lib (fuel + 1) m current_key false (.EndElement "map" :: rest) = .ok m rest ∧
    parseMapLoop lib (fuel + 1) m current_key true (.EndElement "map" :: rest) = .ok m rest ∧
    (∀ has_key name, name ≠ "map" →
      ∃ msg, parseMapLoop lib (fuel + 1) m current_key has_key (.EndElement name :: rest) =
        .panic (.str msg)) := by
  refine ⟨by simp [parseMapLoop], by simp [parseMapLoop], ?_⟩
  intro has_key name hname
  simp only [parseMapLoop, if_neg hname]
  exact ⟨_, rfl⟩

/-! ### What a root is -/

theorem parseLLSDRoot_isRoot (lib : Lib) (fuel : Nat) (toks : List Token) (v : Value)
    (rest : List Token) (h : parseLLSDRoot lib fuel toks = .ok v rest) : v.isRoot = true := by
  induction toks with
  | nil => simp [parseLLSDRoot] at h
  | cons t ts ih =>
    cases t <;> simp only [parseLLSDRoot] at h
    case StartElement t =>
      split_ifs at h
      · obtain ⟨a, -, rfl⟩ := Res.map_eq_ok.1 h; rfl
      · obtain ⟨a, -, rfl⟩ := Res.map_eq_ok.1 h; rfl
      · simp only [parseUndef, Res.ok.injEq] at h; obtain ⟨rfl, -⟩ := h; rfl
    case EndElement name =>
      split_ifs at h
      simp only [Res.ok.injEq] at h; obtain ⟨rfl, -⟩ := h; rfl
    all_goals exact ih h

theorem parseLLSD_isRoot (lib : Lib) (fuel : Nat) (toks : List Token) (v : Value)
    (rest : List Token) (h : parseLLSD lib fuel toks = .ok v rest) : v.isRoot = true := by
  induction fuel generalizing toks with
  | zero => simp [parseLLSD] at h
  | succ fuel ih =>
    cases toks with
    | nil => simp [parseLLSD] at h
    | cons t ts =>
      cases t <;> simp only [parseLLSD] at h
      case StartElement t =>
        split_ifs at h
        · exact parseLLSDRoot_isRoot lib fuel _ v rest h
        · exact ih _ h
      all_goals exact ih _ h

/-- C20: the root `parseLLSD` returns is a `Map`, an `Array` or `Undef`, and when
`UnmarshalXML` returns the nil error it has stored a value, a `Map`, an `Array` or
`Undef`, in the variable. -/
theorem nil_error_stores_root (lib : Lib) (toks : List Token) (target : Target) :
    (∀ fuel v rest, parseLLSD lib fuel toks = .ok v rest → v.isRoot = true) ∧
    (∀ stored, UnmarshalXML lib toks target = .returned none stored →
      ∃ v, stored = some v ∧ v.isRoot = true) := by
  refine ⟨fun fuel v rest h => parseLLSD_isRoot lib fuel toks v rest h, ?_⟩
  intro stored h
  simp only [UnmarshalXML, Unmarshal, unmarshalBody] at h
  cases hp : parseLLSD lib (2 * toks.length + 1) toks with
  | noFuel => rw [hp] at h; simp at h
  | panic p => rw [hp] at h; cases p <;> simp [recovered] at h
  | ok v rest =>
    rw [hp] at h
    have hroot := parseLLSD_isRoot lib _ toks v rest hp
    cases v <;> simp only [Value.isRoot, Bool.false_eq_true] at hroot <;>
      cases target <;>
      simp only [reflectSet, Target.Kind, recovered, Outcome.returned.injEq, true_and,
        reduceCtorEq] at h <;>
      exact ⟨_, h.symm, rfl⟩

/-- C20 at `<llsd><undef/></llsd>` into a sequence, where the empty `Array` is stored. -/
theorem nil_error_stores_root_witness :
    UnmarshalXML Lib.sample undefDocument .array = .returned none (some (.array [])) ∧
    ∃ v, some (Value.array []) = some v ∧ v.isRoot = true :=
  ⟨rfl, (nil_error_stores_root Lib.sample undefDocument .array).2 _ rfl⟩

/-! ### Well-nested tokens -/

theorem skipFrom_wellNested (b : List Token) (k depth : Nat) (rest : List Token)
    (h : wellNested k b = true) : skipFrom (depth + k) (b ++ rest) = skipFrom depth rest := by
  induction b generalizing k with
  | nil =>
    have : k = 0 := by simpa [wellNested] using h
    subst this; rfl
  | cons t ts ih =>
    cases t with
    | StartElement s =>
      simp only [wellNested] at h
      simpa [skipFrom, Nat.add_assoc] using ih (k + 1) h
    | EndElement n =>
      cases k with
      | zero => simp [wellNested] at h
      | succ k =>
        simp only [wellNested] at h
        have := ih k h
        simpa [skipFrom, ← Nat.add_assoc] using this
    | CharData d =>
      simp only [wellNested] at h
      cases hk : depth + k <;> simpa [skipFrom, hk] using ih k h
    | Comment d =>
      simp only [wellNested] at h
      cases hk : depth + k <;> simpa [skipFrom, hk] using ih k h
    | ProcInst a d =>
      simp only [wellNested] at h
      cases hk : depth + k <;> simpa [skipFrom, hk] using ih k h
    | Directive d =>
      simp only [wellNested] at h
      cases hk : depth + k <;> simpa [skipFrom, hk] using ih k h

/-- The call `Skip` inside an element with well-nested content leaves the tokens after
the end tag of the element. -/
theorem Skip_wellNested (b : List Token) (name : String) (rest : List Token)
    (h : wellNested 0 b = true) : Skip (b ++ .EndElement name :: rest) = rest := by
  have := skipFrom_wellNested b 0 0 (.EndElement name :: rest) h
  simpa [Skip, skipFrom] using this

/-! ### The first character data of a scalar -/

theorem parseSomething_of_scalarTag (lib : Lib) (fuel : Nat) (t : StartElement)
    (toks : List Token) (h : t.Name ∈ scalarTags) :
    parseSomething lib (fuel + 1) t toks =
      if t.Name = "boolean" then (parseBoolean toks).map .boolean
      else if t.Name = "integer" then (parseInteger toks).map .integer
      else if t.Name = "real" then (parseReal lib toks).map .real
      else if t.Name = "uuid" then (parseUUID lib toks).map .uuid
      else if t.Name = "date" then (parseDate lib toks).map .date
      else (parseString toks).map .string := by
  simp only [scalarTags, List.mem_cons, List.mem_singleton, List.not_mem_nil, or_false] at h
  rw [parseSomething]
  rcases h with h | h | h | h | h | h | h <;> rw [h] <;> rfl

theorem parseSomething_binary (lib : Lib) (fuel : Nat) (attr : List Attr) (toks : List Token) :
    parseSomething lib (fuel + 1) ⟨"binary", attr⟩ toks =
      (parseBinary lib (encodingOf attr) 0 toks).map .binary := rfl

/-- The scalar routines pass over the fillers that are no character data. -/
theorem leaf_fillers (g : List Filler) (hg : g.all (fun f => !f.isCharData) = true)
    (rest : List Token) :
    parseBoolean (fillers g ++ rest) = parseBoolean rest ∧
    parseInteger (fillers g ++ rest) = parseInteger rest ∧
    parseString (fillers g ++ rest) = parseString rest := by
  induction g with
  | nil => exact ⟨rfl, rfl, rfl⟩
  | cons f g ih =>
    simp only [List.all_cons, Bool.and_eq_true] at hg
    obtain ⟨hf, hg⟩ := hg
    cases f <;> simp only [Filler.isCharData, Bool.not_true, Bool.false_eq_true] at hf <;>
      simpa [fillers, Filler.token, parseBoolean, parseInteger, parseString] using ih hg

theorem leaf_lib_fillers (lib : Lib) (g : List Filler)
    (hg : g.all (fun f => !f.isCharData) = true) (rest : List Token) :
    parseReal lib (fillers g ++ rest) = parseReal lib rest ∧
    parseUUID lib (fillers g ++ rest) = parseUUID lib rest ∧
    parseDate lib (fillers g ++ rest) = parseDate lib rest ∧
    ∀ enc n, parseBinary lib enc n (fillers g ++ rest) = parseBinary lib enc n rest := by
  induction g with
  | nil => exact ⟨rfl, rfl, rfl, fun _ _ => rfl⟩
  | cons f g ih =>
    simp only [List.all_cons, Bool.and_eq_true] at hg
    obtain ⟨hf, hg⟩ := hg
    cases f <;> simp only [Filler.isCharData, Bool.not_true, Bool.false_eq_true] at hf <;>
      simpa [fillers, Filler.token, parseReal, parseUUID, parseDate, parseBinary] using ih hg

/-- C13 fails on `<integer>5<foo/></integer>`: the nested `<foo/>` after the character
data is skipped, the `<integer>` decodes to 5 and the document to the array of 5. -/
theorem nested_after_text_counterexample :
    parseSomething Lib.sample 1 ⟨"integer", []⟩
      [.CharData (str "5"), startTag "foo", .EndElement "foo", .EndElement "integer"] =
        .ok (.integer 5) [] ∧
    UnmarshalXML Lib.sample nestedAfterTextDocument .array =
      .returned none (some (.array [.integer 5])) :=
  ⟨rfl, rfl⟩

/-- C13, amended: in a scalar element a nested start element met before any character
data is a panic and no value is returned; after the first character data the text
scalars return, and so does a `<binary>` in `base64` or `base85`, with the value of that
character data, and what follows in the element, nested elements included, is skipped. -/
theorem scalar_nested_element (lib : Lib) (fuel : Nat) (t : StartElement) (g : List Filler)
    (hg : g.all (fun f => !f.isCharData) = true) :
    (t.Name ∈ scalarTags ∨ t.Name = "binary" →
      ∀ nested rest, ∃ msg,
        parseSomething lib (fuel + 1) t (fillers g ++ .StartElement nested :: rest) =
          .panic (.str msg)) ∧
    (t.Name ∈ scalarTags ∨ (t.Name = "binary" ∧ encodingOf t.Attr ∈ ["base64", "", "base85"]) →
      ∀ text more, ∃ v,
        parseSomething lib (fuel + 1) t (fillers g ++ .CharData text :: more) =
          .ok v (Skip more) ∧
        parseSomething lib (fuel + 1) t [.CharData text, .EndElement t.Name] = .ok v []) := by
  have gb := fun rest => (leaf_fillers g hg rest).1
  have gi := fun rest => (leaf_fillers g hg rest).2.1
  have gs := fun rest => (leaf_fillers g hg rest).2.2
  have gr := fun rest => (leaf_lib_fillers lib g hg rest).1
  have gu := fun rest => (leaf_lib_fillers lib g hg rest).2.1
  have gd := fun rest => (leaf_lib_fillers lib g hg rest).2.2.1
  have gbin := fun rest => (leaf_lib_fillers lib g hg rest).2.2.2
  constructor
  · rintro (ht | ht) nested rest
    · rw [parseSomething_of_scalarTag lib fuel t _ ht, gb, gi, gr, gu, gd, gs]
      split_ifs <;> exact ⟨_, rfl⟩
    · obtain ⟨name, attr⟩ := t
      simp only at ht
      subst ht
      rw [parseSomething_binary, gbin]
      exact ⟨_, rfl⟩
  · rintro (ht | ⟨ht, henc⟩) text more
    · rw [parseSomething_of_scalarTag lib fuel t _ ht, parseSomething_of_scalarTag lib fuel t _ ht,
        gb, gi, gr, gu, gd, gs]
      split_ifs
      · exact ⟨_, rfl, rfl⟩
      · exact ⟨_, rfl, rfl⟩
      · exact ⟨_, rfl, rfl⟩
      · exact ⟨_, rfl, rfl⟩
      · simp only [parseDate]
        cases lib.timeParse text <;> exact ⟨_, rfl, rfl⟩
      · exact ⟨_, rfl, rfl⟩
    · obtain ⟨name, attr⟩ := t
      simp only at ht henc
      subst ht
      rw [parseSomething_binary, parseSomething_binary, gbin]
      simp only [List.mem_cons, List.mem_singleton, List.not_mem_nil, or_false] at henc
      rcases henc with h | h | h <;> rw [h] <;> exact ⟨_, rfl, rfl⟩

/-- C13, amended, at `<integer><foo/></integer>` and `<integer>5<foo/></integer>`. -/
theorem scalar_nested_element_witness :
    (∃ msg, parseSomething Lib.sample 1 ⟨"integer", []⟩
      [startTag "foo", .EndElement "foo", .EndElement "integer"] = .panic (.str msg)) ∧
    (∃ v, parseSomething Lib.sample 1 ⟨"integer", []⟩
        [.CharData (str "5"), startTag "foo", .EndElement "foo", .EndElement "integer"] =
          .ok v (Skip [startTag "foo", .EndElement "foo", .EndElement "integer"]) ∧
      parseSomething Lib.sample 1 ⟨"integer", []⟩
        [.CharData (str "5"), .EndElement "integer"] = .ok v []) :=
  ⟨(scalar_nested_element Lib.sample 0 ⟨"integer", []⟩ [] rfl).1 (Or.inl (by decide))
      ⟨"foo", []⟩ [.EndElement "foo", .EndElement "integer"],
   (scalar_nested_element Lib.sample 0 ⟨"integer", []⟩ [] rfl).2 (Or.inl (by decide))
      (str "5") [startTag "foo", .EndElement "foo", .EndElement "integer"]⟩

/-- C15 fails on `<string>a<!--x-->b</string>`, whose text arrives as the two tokens `a`
and `b`: the string decodes to `a`, not to `ab`; and `<integer>1<!--x-->2</integer>`
decodes to 1, not to 12. -/
theorem split_text_counterexample :
    parseSomething Lib.sample 1 ⟨"string", []⟩
      [.CharData (str "a"), .Comment (str "x"), .CharData (str "b"), .EndElement "string"] =
        .ok (.string (str "a")) [] ∧
    str "a" ≠ str "a" ++ str "b" ∧
    parseSomething Lib.sample 1 ⟨"integer", []⟩
      [.CharData (str "1"), .Comment (str "x"), .CharData (str "2"), .EndElement "integer"] =
        .ok (.integer 1) [] ∧
    integerOfText (str "1" ++ str "2") = 12 :=
  ⟨rfl, by decide, rfl, by decide⟩

/-- C15, amended: the text of a scalar element is its first character-data token. A
`<string>` or `<uri>` whose content is the token `t1` and then any well-nested tokens,
further character data included, decodes to `t1`, untrimmed, and an `<integer>` is
converted from `t1`; what follows `t1` in the element is skipped. -/
theorem scalar_text_is_first_token (lib : Lib) (fuel : Nat) (attr : List Attr) (t1 : Bytes)
    (more : List Token) (name : String) (rest : List Token) (h : wellNested 0 more = true) :
    parseSomething lib (fuel + 1) ⟨"string", attr⟩
      (.CharData t1 :: (more ++ .EndElement name :: rest)) = .ok (.string t1) rest ∧
    parseSomething lib (fuel + 1) ⟨"uri", attr⟩
      (.CharData t1 :: (more ++ .EndElement name :: rest)) = .ok (.string t1) rest ∧
    parseSomething lib (fuel + 1) ⟨"integer", attr⟩
      (.CharData t1 :: (more ++ .EndElement name :: rest)) =
        .ok (.integer (integerOfText t1)) rest := by
  have hs : parseString (.CharData t1 :: (more ++ .EndElement name :: rest)) = .ok t1 rest := by
    simp only [parseString, Skip_wellNested more name rest h]
  have hi : parseInteger (.CharData t1 :: (more ++ .EndElement name :: rest)) =
      .ok (integerOfText t1) rest := by
    simp only [parseInteger, Skip_wellNested more name rest h, parseInteger_conversion]
  refine ⟨?_, ?_, ?_⟩
  · have : parseSomething lib (fuel + 1) ⟨"string", attr⟩
        (.CharData t1 :: (more ++ .EndElement name :: rest)) =
        (parseString (.CharData t1 :: (more ++ .EndElement name :: rest))).map .string := rfl
    rw [this, hs]; rfl
  · have : parseSomething lib (fuel + 1) ⟨"uri", attr⟩
        (.CharData t1 :: (more ++ .EndElement name :: rest)) =
        (parseString (.CharData t1 :: (more ++ .EndElement name :: rest))).map .string := rfl
    rw [this, hs]; rfl
  · have : parseSomething lib (fuel + 1) ⟨"integer", attr⟩
        (.CharData t1 :: (more ++ .EndElement name :: rest)) =
        (parseInteger (.CharData t1 :: (more ++ .EndElement name :: rest))).map .integer := rfl
    rw [this, hi]; rfl

/-- C15, amended, at `<string>a<!--x-->b</string>`. -/
theorem scalar_text_is_first_token_witness :
    wellNested 0 [.Comment (str "x"), .CharData (str "b")] = true ∧
    parseSomething Lib.sample 1 ⟨"string", []⟩
      [.CharData (str "a"), .Comment (str "x"), .CharData (str "b"), .EndElement "string"] =
        .ok (.string (str "a")) [] :=
  ⟨rfl, (scalar_text_is_first_token Lib.sample 0 [] (str "a")
    [.Comment (str "x"), .CharData (str "b")] "string" [] rfl).1⟩

/-- C16 fails on `<binary>AAEC!</binary>`, whose text is no base64: `DecodeString`
returns the three bytes decoded before the `!` with its error, and the element decodes
to these three bytes. -/
theorem base64_failure_counterexample :
    Lib.base64Sample.base64DecodeString (str "AAEC!") = ([0, 1, 2], true) ∧
    parseSomething Lib.base64Sample 1 ⟨"binary", []⟩
      [.CharData (str "AAEC!"), .EndElement "binary"] = .ok (.binary [0, 1, 2]) [] ∧
    parseSomething Lib.base64Sample 1 ⟨"binary", [⟨"encoding", "base64"⟩]⟩
      [.CharData (str "AAEC!"), .EndElement "binary"] = .ok (.binary [0, 1, 2]) [] :=
  ⟨rfl, rfl, rfl⟩

/-- C16, amended: a `<binary>` in `base64`, named or by default, decodes to the bytes
`DecodeString` returns for its first character data, also when `DecodeString` returns
them with an error: the error is dropped, the bytes decoded before it are the value of
the element, and decoding goes on after the element. -/
theorem base64_failure_is_dropped (lib : Lib) (fuel : Nat) (attr : List Attr) (text : Bytes)
    (more : List Token) (name : String) (rest : List Token)
    (henc : encodingOf attr = "base64" ∨ encodingOf attr = "")
    (h : wellNested 0 more = true) :
    parseSomething lib (fuel + 1) ⟨"binary", attr⟩
      (.CharData text :: (more ++ .EndElement name :: rest)) =
        .ok (.binary (lib.base64DecodeString text).1) rest := by
  rw [parseSomething_binary]
  have hskip : runDeferred 1 (more ++ .EndElement name :: rest) = rest := by
    simp only [runDeferred, Skip_wellNested more name rest h]
  rcases henc with he | he <;> rw [he] <;> simp [parseBinary, hskip, Res.map]

/-- C16, amended, at `<binary>AAEC!</binary>`. -/
theorem base64_failure_is_dropped_witness :
    (Lib.base64Sample.base64DecodeString (str "AAEC!")).2 = true ∧
    parseSomething Lib.base64Sample 1 ⟨"binary", []⟩
      [.CharData (str "AAEC!"), .EndElement "binary"] =
        .ok (.binary (Lib.base64Sample.base64DecodeString (str "AAEC!")).1) [] :=
  ⟨rfl, base64_failure_is_dropped Lib.base64Sample 0 [] (str "AAEC!") [] "binary" []
    (Or.inr rfl) rfl⟩

/-! ### The cursor after an element -/

/-- C18: on `<binary encoding="base32">AA</binary>` followed by
`<integer>1</integer></array></llsd>`, `parseSomething` returns the empty bytes and
leaves `</llsd>`: the `Skip` deferred at the character data runs after the end tag of the
`<binary>` has been read and consumes the sibling `<integer>` and the `</array>` of the
enclosing array, which then meets `</llsd>` and panics. -/
theorem unknown_encoding_overruns (lib : Lib) (fuel : Nat) (target : Target) :
    parseSomething lib (fuel + 1) ⟨"binary", [⟨"encoding", "base32"⟩]⟩
      [.CharData (str "AA"), .EndElement "binary", startTag "integer", .CharData (str "1"),
        .EndElement "integer", .EndElement "array", .EndElement "llsd"] =
      .ok (.binary []) [.EndElement "llsd"] ∧
    UnmarshalXML lib unknownEncodingDocument target =
      .panicked (.runtime "interface conversion: string is not error: missing method Error") :=
  ⟨rfl, rfl⟩

/-! ### The search for the root -/

theorem Unmarshal_congr (lib : Lib) {fuel fuel' : Nat} {toks toks' : List Token}
    (h : parseLLSD lib fuel' toks' = parseLLSD lib fuel toks) (target : Target) :
    Unmarshal lib fuel' toks' target = Unmarshal lib fuel toks target := by
  simp only [Unmarshal, unmarshalBody, h]

theorem parseLLSD_prolog (lib : Lib) (items : List PrologItem)
    (h : ∀ i ∈ items, i.skipped = true) (fuel : Nat) (doc : List Token) :
    parseLLSD lib (fuel + items.length) (prologTokens items ++ doc) = parseLLSD lib fuel doc := by
  induction items with
  | nil => rfl
  | cons i items ih =>
    have hi := h i (List.mem_cons_self _ _)
    have ih' := ih (fun j hj => h j (List.mem_cons_of_mem _ hj))
    cases i with
    | filler f =>
      have := parseLLSD_fillers lib [f] (fuel + items.length) (prologTokens items ++ doc)
      simpa [prologTokens, PrologItem.tokens, fillers, ih', ← Nat.add_assoc] using this
    | element t content endName =>
      simp only [PrologItem.skipped, Bool.and_eq_true, decide_eq_true_eq] at hi
      have hskip := Skip_wellNested content endName (prologTokens items ++ doc) hi.2
      have e : prologTokens (.element t content endName :: items) ++ doc =
          .StartElement t :: (content ++ .EndElement endName :: (prologTokens items ++ doc)) := by
        simp [prologTokens, PrologItem.tokens]
      rw [e, List.length_cons, ← Nat.add_assoc]
      simp only [parseLLSD, if_neg hi.1, hskip]
      exact ih'

/-- C17: fillers and complete elements not named `llsd`, whatever their well-nested
content, are passed over by the root search: the tokens that follow them decode as they
do alone, to the same value or the same fault; and `<llsd></llsd>`, with nothing but
fillers inside, decodes to the Undefined root. -/
theorem root_search_skips_prolog (lib : Lib) (items : List PrologItem)
    (h : ∀ i ∈ items, i.skipped = true) (doc : List Token) (target : Target) :
    UnmarshalXML lib (prologTokens items ++ doc) target = UnmarshalXML lib doc target ∧
    ∀ (attr : List Attr) (g : List Filler) (rest : List Token),
      parseLLSD lib 1 (.StartElement ⟨"llsd", attr⟩ :: (fillers g ++ .EndElement "llsd" :: rest)) =
        .ok .undef rest ∧
      UnmarshalXML lib (prologTokens items ++
        .StartElement ⟨"llsd", attr⟩ :: (fillers g ++ .EndElement "llsd" :: rest)) .any =
        .returned none (some .undef) := by
  have hmain : ∀ doc target,
      UnmarshalXML lib (prologTokens items ++ doc) target = UnmarshalXML lib doc target := by
    intro doc target
    have hp := parseLLSD_prolog lib items h (2 * doc.length + 1) doc
    have hne := parseLLSD_ne_noFuel lib (Nat.le_refl (2 * doc.length + 1))
    rw [UnmarshalXML_eq_of_parseLLSD lib hp hne target]
    exact Unmarshal_congr lib hp target
  refine ⟨hmain doc target, ?_⟩
  intro attr g rest
  have hroot : parseLLSD lib 1
      (.StartElement ⟨"llsd", attr⟩ :: (fillers g ++ .EndElement "llsd" :: rest)) =
      .ok .undef rest := by
    simp [parseLLSD, parseLLSDRoot_fillers, parseLLSDRoot]
  refine ⟨hroot, ?_⟩
  rw [hmain]
  exact Unmarshal_undef lib hroot .any

/-- C17 at the prolog of `TestDummyAsset` followed by an element that holds an `<llsd>`,
before the document of `TestSimpleArray`. -/
theorem root_search_skips_prolog_witness :
    (∀ i ∈ samplePrologue, i.skipped = true) ∧
    UnmarshalXML Lib.sample (prologTokens samplePrologue ++ simpleArrayDocument.tokens) .array =
      UnmarshalXML Lib.sample simpleArrayDocument.tokens .array ∧
    UnmarshalXML Lib.sample (prologTokens samplePrologue ++ simpleArrayDocument.tokens) .array =
      .returned none (some (.array [.integer 1, .integer 2, .integer 3])) := by
  have hs : ∀ i ∈ samplePrologue, i.skipped = true := by decide
  exact ⟨hs, (root_search_skips_prolog Lib.sample samplePrologue hs
    simpleArrayDocument.tokens .array).1, rfl⟩

/-! ### Depth -/

theorem netDepth_append (a b : List Token) (d : Nat) :
    netDepth d (a ++ b) = netDepth (netDepth d a) b := by
  induction a generalizing d with
  | nil => rfl
  | cons t ts ih => cases t <;> simp [netDepth, ih]

theorem netDepth_mono (c : List Token) (d : Nat) :
    netDepth d c ≤ netDepth (d + 1) c ∧ netDepth (d + 1) c ≤ netDepth d c + 1 := by
  induction c generalizing d with
  | nil => simp [netDepth]
  | cons t ts ih =>
    cases t <;> simp only [netDepth]
    case EndElement n =>
      cases d with
      | zero => simp
      | succ d => simpa using ih d
    all_goals exact ih _

theorem unmatchedEnds_append (a b : List Token) (d : Nat) :
    unmatchedEnds d (a ++ b) = unmatchedEnds d a ++ unmatchedEnds (netDepth d a) b := by
  induction a generalizing d with
  | nil => cases d <;> simp [unmatchedEnds, netDepth]
  | cons t ts ih =>
    cases t <;> cases d <;> simp [unmatchedEnds, netDepth, ih]

theorem wellNested_netDepth (b : List Token) (k : Nat) (h : wellNested k b = true) :
    netDepth k b = 0 := by
  induction b generalizing k with
  | nil => simpa [wellNested] using h
  | cons t ts ih =>
    cases t with
    | StartElement s => exact ih _ (by simpa [wellNested] using h)
    | EndElement n =>
      cases k with
      | zero => simp [wellNested] at h
      | succ k => exact ih _ (by simpa [wellNested] using h)
    | CharData d => cases k <;> exact ih _ (by simpa [wellNested] using h)
    | Comment d => cases k <;> exact ih _ (by simpa [wellNested] using h)
    | ProcInst a d => cases k <;> exact ih _ (by simpa [wellNested] using h)
    | Directive d => cases k <;> exact ih _ (by simpa [wellNested] using h)

/-- Inside well-nested tokens an end element closes an element opened before it. -/
theorem wellNested_prefix_depth (c : List Token) (m : String) (y : List Token) (k : Nat)
    (h : wellNested k (c ++ .EndElement m :: y) = true) : 1 ≤ netDepth k c := by
  induction c generalizing k with
  | nil =>
    cases k with
    | zero => simp [wellNested] at h
    | succ k => simp [netDepth]
  | cons t ts ih =>
    cases t with
    | StartElement s => exact ih _ (by simpa [wellNested] using h)
    | EndElement n =>
      cases k with
      | zero => simp [wellNested] at h
      | succ k => exact ih _ (by simpa [wellNested] using h)
    | CharData d => cases k <;> exact ih _ (by simpa [wellNested] using h)
    | Comment d => cases k <;> exact ih _ (by simpa [wellNested] using h)
    | ProcInst a d => cases k <;> exact ih _ (by simpa [wellNested] using h)
    | Directive d => cases k <;> exact ih _ (by simpa [wellNested] using h)

/-- The first end element that closes nothing before it is found in one place only. -/
theorem first_unmatched_end (b x c y : List Token) (n m : String)
    (hb : wellNested 0 b = true) (hc : netDepth 0 c = 0)
    (h : b ++ .EndElement n :: x = c ++ .EndElement m :: y) :
    (c = b ∧ m = n ∧ y = x) ∨ m ∈ unmatchedEnds 0 x := by
  rcases List.append_eq_append_iff.1 h with ⟨a, hca, hx⟩ | ⟨a, hba, hy⟩
  · cases a with
    | nil =>
      simp only [List.nil_append, List.cons.injEq, Token.EndElement.injEq] at hx
      left
      exact ⟨by simpa using hca, hx.1.symm, hx.2.symm⟩
    | cons t a =>
      simp only [List.cons_append, List.cons.injEq] at hx
      obtain ⟨rfl, rfl⟩ := hx
      right
      rw [hca, netDepth_append, wellNested_netDepth b 0 hb] at hc
      simp only [netDepth] at hc
      rw [unmatchedEnds_append, hc]
      simp [unmatchedEnds]
  · cases a with
    | nil =>
      simp only [List.nil_append, List.cons.injEq, Token.EndElement.injEq] at hy
      left
      exact ⟨by simpa using hba.symm, hy.1, hy.2⟩
    | cons t a =>
      simp only [List.cons_append, List.cons.injEq] at hy
      obtain ⟨rfl, rfl⟩ := hy
      rw [hba] at hb
      have := wellNested_prefix_depth c m a 0 hb
      omega

/-! ### What `Skip` reads -/

theorem skipFrom_nil (d : Nat) : skipFrom d [] = [] := by cases d <;> rfl

theorem skipFrom_start (d : Nat) (s : StartElement) (r : List Token) :
    skipFrom d (.StartElement s :: r) = skipFrom (d + 1) r := by cases d <;> rfl

theorem skipFrom_charData (d : Nat) (x : Bytes) (r : List Token) :
    skipFrom d (.CharData x :: r) = skipFrom d r := by cases d <;> rfl

theorem skipFrom_comment (d : Nat) (x : Bytes) (r : List Token) :
    skipFrom d (.Comment x :: r) = skipFrom d r := by cases d <;> rfl

theorem skipFrom_procInst (d : Nat) (x : String) (y : Bytes) (r : List Token) :
    skipFrom d (.ProcInst x y :: r) = skipFrom d r := by cases d <;> rfl

theorem skipFrom_directive (d : Nat) (x : Bytes) (r : List Token) :
    skipFrom d (.Directive x :: r) = skipFrom d r := by cases d <;> rfl

theorem skipFrom_length_lt (d : Nat) (s : List Token) (h : s ≠ []) :
    (skipFrom d s).length < s.length := by
  cases s with
  | nil => exact absurd rfl h
  | cons t ts =>
    cases t <;> cases d <;> simp only [skipFrom, List.length_cons] <;>
      first
        | exact Nat.lt_succ_of_le (skipFrom_length_le _ _)
        | exact Nat.lt_succ_self _

/-- A `Skip` that ends before the tokens `r` has not looked at them. -/
theorem skipFrom_local (a r : List Token) (d : Nat) (hr : r ≠ [])
    (h : r.length ≤ (skipFrom d (a ++ r)).length) :
    ∃ q, skipFrom d (a ++ r) = q ++ r ∧ ∀ r', skipFrom d (a ++ r') = q ++ r' := by
  induction a generalizing d with
  | nil =>
    have := skipFrom_length_lt d r hr
    simp only [List.nil_append] at h
    omega
  | cons t ts ih =>
    cases t with
    | StartElement s =>
      simp only [List.cons_append, skipFrom_start] at h ⊢
      exact ih (d + 1) h
    | EndElement n =>
      cases d with
      | zero => exact ⟨ts, rfl, fun _ => rfl⟩
      | succ d =>
        simp only [List.cons_append, skipFrom] at h ⊢
        exact ih d h
    | CharData x =>
      simp only [List.cons_append, skipFrom_charData] at h ⊢
      exact ih d h
    | Comment x =>
      simp only [List.cons_append, skipFrom_comment] at h ⊢
      exact ih d h
    | ProcInst x y =>
      simp only [List.cons_append, skipFrom_procInst] at h ⊢
      exact ih d h
    | Directive x =>
      simp only [List.cons_append, skipFrom_directive] at h ⊢
      exact ih d h

/-- A `Skip` that reads into the tokens `r` runs to the end of the decoder without them. -/
theorem skipFrom_truncated (a r : List Token) (d : Nat)
    (h : (skipFrom d (a ++ r)).length < r.length) : skipFrom d a = [] := by
  induction a generalizing d with
  | nil => exact skipFrom_nil d
  | cons t ts ih =>
    cases t with
    | StartElement s =>
      simp only [List.cons_append, skipFrom_start] at h ⊢
      exact ih (d + 1) h
    | EndElement n =>
      cases d with
      | zero =>
        have h' : (ts ++ r).length < r.length := h
        rw [List.length_append] at h'
        omega
      | succ d =>
        simp only [List.cons_append, skipFrom] at h ⊢
        exact ih d h
    | CharData x =>
      simp only [List.cons_append, skipFrom_charData] at h ⊢
      exact ih d h
    | Comment x =>
      simp only [List.cons_append, skipFrom_comment] at h ⊢
      exact ih d h
    | ProcInst x y =>
      simp only [List.cons_append, skipFrom_procInst] at h ⊢
      exact ih d h
    | Directive x =>
      simp only [List.cons_append, skipFrom_directive] at h ⊢
      exact ih d h

/-- A `Skip` that leaves tokens has read down to the end element that closes the
element it was called in. -/
theorem skipFrom_depth (s : List Token) (d : Nat) (h : skipFrom d s ≠ []) :
    ∃ c, s = c ++ skipFrom d s ∧ ∀ e, netDepth e c = e - (d + 1) := by
  induction s generalizing d with
  | nil => exact absurd (skipFrom_nil d) h
  | cons t ts ih =>
    cases t with
    | StartElement x =>
      rw [skipFrom_start] at h ⊢
      obtain ⟨c, hc, hd⟩ := ih (d + 1) h
      refine ⟨.StartElement x :: c, by rw [List.cons_append, ← hc], ?_⟩
      intro e
      simp only [netDepth, hd]; omega
    | EndElement n =>
      cases d with
      | zero => exact ⟨[.EndElement n], rfl, fun e => by simp [netDepth]⟩
      | succ d =>
        simp only [skipFrom] at h ⊢
        obtain ⟨c, hc, hd⟩ := ih d h
        refine ⟨.EndElement n :: c, by rw [List.cons_append, ← hc], ?_⟩
        intro e
        simp only [netDepth, hd]; omega
    | CharData x =>
      rw [skipFrom_charData] at h ⊢
      obtain ⟨c, hc, hd⟩ := ih d h
      exact ⟨.CharData x :: c, by rw [List.cons_append, ← hc], fun e => by
        simp only [netDepth, hd]⟩
    | Comment x =>
      rw [skipFrom_comment] at h ⊢
      obtain ⟨c, hc, hd⟩ := ih d h
      exact ⟨.Comment x :: c, by rw [List.cons_append, ← hc], fun e => by
        simp only [netDepth, hd]⟩
    | ProcInst x y =>
      rw [skipFrom_procInst] at h ⊢
      obtain ⟨c, hc, hd⟩ := ih d h
      exact ⟨.ProcInst x y :: c, by rw [List.cons_append, ← hc], fun e => by
        simp only [netDepth, hd]⟩
    | Directive x =>
      rw [skipFrom_directive] at h ⊢
      obtain ⟨c, hc, hd⟩ := ih d h
      exact ⟨.Directive x :: c, by rw [List.cons_append, ← hc], fun e => by
        simp only [netDepth, hd]⟩

theorem runDeferred_nil (k : Nat) : runDeferred k [] = [] := by
  induction k with
  | zero => rfl
  | succ k ih => simpa [runDeferred, Skip, skipFrom_nil] using ih

theorem runDeferred_length_lt (k : Nat) (s : List Token) (hk : 1 ≤ k) (h : s ≠ []) :
    (runDeferred k s).length < s.length := by
  obtain ⟨k, rfl⟩ : ∃ j, k = j + 1 := ⟨k - 1, by omega⟩
  have h1 := runDeferred_length_le k (skipFrom 0 s)
  have h2 := skipFrom_length_lt 0 s h
  simp only [runDeferred, Skip]
  omega

theorem runDeferred_local (k : Nat) (a r : List Token) (hr : r ≠ [])
    (h : r.length ≤ (runDeferred k (a ++ r)).length) :
    ∃ q, runDeferred k (a ++ r) = q ++ r ∧ ∀ r', runDeferred k (a ++ r') = q ++ r' := by
  induction k generalizing a with
  | zero => exact ⟨a, rfl, fun _ => rfl⟩
  | succ k ih =>
    simp only [runDeferred, Skip] at h ⊢
    have h1 := runDeferred_length_le k (skipFrom 0 (a ++ r))
    obtain ⟨q1, hq1, hall⟩ := skipFrom_local a r 0 hr (by omega)
    rw [hq1] at h ⊢
    obtain ⟨q, hq, hall'⟩ := ih q1 h
    exact ⟨q, hq, fun r' => by rw [hall r']; exact hall' r'⟩

theorem runDeferred_truncated (k : Nat) (a r : List Token)
    (h : (runDeferred k (a ++ r)).length < r.length) : runDeferred k a = [] := by
  induction k generalizing a with
  | zero => simp only [runDeferred, List.length_append] at h; omega
  | succ k ih =>
    simp only [runDeferred, Skip] at h ⊢
    have hr : r ≠ [] := by rintro rfl; simp at h
    by_cases hs : (skipFrom 0 (a ++ r)).length < r.length
    · have := skipFrom_truncated a r 0 hs
      rw [this, runDeferred_nil]
    · obtain ⟨q1, hq1, hall⟩ := skipFrom_local a r 0 hr (by omega)
      rw [hq1] at h
      have := hall []
      simp only [List.append_nil] at this
      rw [this]
      exact ih q1 h

theorem runDeferred_depth (k : Nat) (s : List Token) (h : runDeferred k s ≠ []) :
    ∃ c, s = c ++ runDeferred k s ∧ ∀ e, netDepth e c = e - k := by
  induction k generalizing s with
  | zero => exact ⟨[], rfl, fun e => rfl⟩
  | succ k ih =>
    simp only [runDeferred, Skip] at h ⊢
    have hs : skipFrom 0 s ≠ [] := by
      intro hh
      apply h
      rw [hh, runDeferred_nil]
    obtain ⟨c1, hc1, hd1⟩ := skipFrom_depth s 0 hs
    obtain ⟨c2, hc2, hd2⟩ := ih (skipFrom 0 s) h
    refine ⟨c1 ++ c2, ?_, ?_⟩
    · rw [List.append_assoc, ← hc2]; exact hc1
    · intro e
      rw [netDepth_append, hd1, hd2]; omega

/-! ### The routines that do not recurse -/

theorem LeafRun.of_end {α : Type} {F : List Token → Res α} (n : String) (ts : List Token)
    (v : α) (hnil : F [] = .panic (.error .tokenizer))
    (h : ∀ after', F (.EndElement n :: after') = .ok v after') :
    LeafRun F (.EndElement n :: ts) v ts := by
  refine ⟨[.EndElement n], ts, 0, rfl, rfl, by simp [netDepth], fun a => h a, ?_⟩
  intro p a hp ha
  cases p with
  | nil => exact hnil
  | cons x p =>
    simp only [List.cons_append, List.cons.injEq] at hp
    have : a = [] := (List.append_eq_nil.1 hp.2.symm).2
    exact absurd this ha

theorem LeafRun.of_text {α : Type} {F : List Token → Res α} (x : Bytes) (ts : List Token)
    (v : α) (k : Nat) (hnil : F [] = .panic (.error .tokenizer))
    (h : ∀ after', F (.CharData x :: after') = .ok v (runDeferred (k + 1) after')) :
    LeafRun F (.CharData x :: ts) v (runDeferred (k + 1) ts) := by
  refine ⟨[.CharData x], ts, k + 1, rfl, rfl, by simp [netDepth], fun a => h a, ?_⟩
  intro p a hp ha
  cases p with
  | nil => exact hnil
  | cons y p =>
    simp only [List.cons_append, List.cons.injEq] at hp
    have : a = [] := (List.append_eq_nil.1 hp.2.symm).2
    exact absurd this ha

theorem LeafRun.of_filler {α : Type} {F G : List Token → Res α} (f : Filler) (ts : List Token)
    (v : α) (rest : List Token) (hnil : F [] = .panic (.error .tokenizer))
    (h : ∀ s, F (f.token :: s) = G s) (hrun : LeafRun G ts v rest) :
    LeafRun F (f.token :: ts) v rest := by
  obtain ⟨pre, after, k, hs, hrest, hd, hloc, hcut⟩ := hrun
  refine ⟨f.token :: pre, after, k, by rw [hs]; rfl, hrest, ?_, ?_, ?_⟩
  · cases f <;> simpa [Filler.token, netDepth] using hd
  · intro a
    rw [List.cons_append, h]
    exact hloc a
  · intro p a hp ha
    cases p with
    | nil => exact hnil
    | cons y p =>
      simp only [List.cons_append, List.cons.injEq] at hp
      obtain ⟨rfl, hp⟩ := hp
      rw [h]
      exact hcut p a hp ha

theorem LeafSpec.map {α β : Type} {F : List Token → Res α} (f : α → β) (hF : LeafSpec F) :
    LeafSpec (fun s => (F s).map f) := by
  intro s v rest h
  obtain ⟨a, ha, rfl⟩ := Res.map_eq_ok.1 h
  obtain ⟨pre, after, k, hs, hrest, hd, hloc, hcut⟩ := hF s a rest ha
  refine ⟨pre, after, k, hs, hrest, hd, ?_, ?_⟩
  · intro a'
    simp only [hloc a', Res.map]
  · intro p b hp hb
    simp only [hcut p b hp hb, Res.map]

theorem LeafSpec.ite {α : Type} {F G : List Token → Res α} (c : Prop) [Decidable c]
    (hF : LeafSpec F) (hG : LeafSpec G) : LeafSpec (fun s => if c then F s else G s) := by
  by_cases hc : c
  · simpa [hc] using hF
  · simpa [hc] using hG

theorem LeafSpec.of_panic {α : Type} (p : Panic) :
    LeafSpec (fun _ : List Token => (Res.panic p : Res α)) := by
  intro s v rest h
  simp at h

theorem parseBoolean_leafSpec : LeafSpec parseBoolean := by
  intro s
  induction s with
  | nil => intro v rest h; simp [parseBoolean] at h
  | cons t ts ih =>
    intro v rest h
    cases t with
    | StartElement x => simp [parseBoolean] at h
    | EndElement n =>
      simp only [parseBoolean, Res.ok.injEq] at h
      obtain ⟨rfl, rfl⟩ := h
      exact LeafRun.of_end n ts _ rfl (fun _ => rfl)
    | CharData x =>
      simp only [parseBoolean, Res.ok.injEq] at h
      obtain ⟨rfl, rfl⟩ := h
      exact LeafRun.of_text x ts _ 0 rfl (fun _ => rfl)
    | Comment x => exact LeafRun.of_filler (.Comment x) ts v rest rfl (fun _ => rfl) (ih v rest h)
    | ProcInst x y =>
      exact LeafRun.of_filler (.ProcInst x y) ts v rest rfl (fun _ => rfl) (ih v rest h)
    | Directive x =>
      exact LeafRun.of_filler (.Directive x) ts v rest rfl (fun _ => rfl) (ih v rest h)

theorem parseInteger_leafSpec : LeafSpec parseInteger := by
  intro s
  induction s with
  | nil => intro v rest h; simp [parseInteger] at h
  | cons t ts ih =>
    intro v rest h
    cases t with
    | StartElement x => simp [parseInteger] at h
    | EndElement n =>
      simp only [parseInteger, Res.ok.injEq] at h
      obtain ⟨rfl, rfl⟩ := h
      exact LeafRun.of_end n ts _ rfl (fun _ => rfl)
    | CharData x =>
      simp only [parseInteger, Res.ok.injEq] at h
      obtain ⟨rfl, rfl⟩ := h
      exact LeafRun.of_text x ts _ 0 rfl (fun _ => rfl)
    | Comment x => exact LeafRun.of_filler (.Comment x) ts v rest rfl (fun _ => rfl) (ih v rest h)
    | ProcInst x y =>
      exact LeafRun.of_filler (.ProcInst x y) ts v rest rfl (fun _ => rfl) (ih v rest h)
    | Directive x =>
      exact LeafRun.of_filler (.Directive x) ts v rest rfl (fun _ => rfl) (ih v rest h)

theorem parseString_leafSpec : LeafSpec parseString := by
  intro s
  induction s with
  | nil => intro v rest h; simp [parseString] at h
  | cons t ts ih =>
    intro v rest h
    cases t with
    | StartElement x => simp [parseString] at h
    | EndElement n =>
      simp only [parseString, Res.ok.injEq] at h
      obtain ⟨rfl, rfl⟩ := h
      exact LeafRun.of_end n ts _ rfl (fun _ => rfl)
    | CharData x =>
      simp only [parseString, Res.ok.injEq] at h
      obtain ⟨rfl, rfl⟩ := h
      exact LeafRun.of_text x ts _ 0 rfl (fun _ => rfl)
    | Comment x => exact LeafRun.of_filler (.Comment x) ts v rest rfl (fun _ => rfl) (ih v rest h)
    | ProcInst x y =>
      exact LeafRun.of_filler (.ProcInst x y) ts v rest rfl (fun _ => rfl) (ih v rest h)
    | Directive x =>
      exact LeafRun.of_filler (.Directive x) ts v rest rfl (fun _ => rfl) (ih v rest h)

theorem parseReal_leafSpec (lib : Lib) : LeafSpec (parseReal lib) := by
  intro s
  induction s with
  | nil => intro v rest h; simp [parseReal] at h
  | cons t ts ih =>
    intro v rest h
    cases t with
    | StartElement x => simp [parseReal] at h
    | EndElement n =>
      simp only [parseReal, Res.ok.injEq] at h
      obtain ⟨rfl, rfl⟩ := h
      exact LeafRun.of_end n ts _ rfl (fun _ => rfl)
    | CharData x =>
      simp only [parseReal, Res.ok.injEq] at h
      obtain ⟨rfl, rfl⟩ := h
      exact LeafRun.of_text x ts _ 0 rfl (fun _ => rfl)
    | Comment x => exact LeafRun.of_filler (.Comment x) ts v rest rfl (fun _ => rfl) (ih v rest h)
    | ProcInst x y =>
      exact LeafRun.of_filler (.ProcInst x y) ts v rest rfl (fun _ => rfl) (ih v rest h)
    | Directive x =>
      exact LeafRun.of_filler (.Directive x) ts v rest rfl (fun _ => rfl) (ih v rest h)

theorem parseUUID_leafSpec (lib : Lib) : LeafSpec (parseUUID lib) := by
  intro s
  induction s with
  | nil => intro v rest h; simp [parseUUID] at h
  | cons t ts ih =>
    intro v rest h
    cases t with
    | StartElement x => simp [parseUUID] at h
    | EndElement n =>
      simp only [parseUUID, Res.ok.injEq] at h
      obtain ⟨rfl, rfl⟩ := h
      exact LeafRun.of_end n ts _ rfl (fun _ => rfl)
    | CharData x =>
      simp only [parseUUID, Res.ok.injEq] at h
      obtain ⟨rfl, rfl⟩ := h
      exact LeafRun.of_text x ts _ 0 rfl (fun _ => rfl)
    | Comment x => exact LeafRun.of_filler (.Comment x) ts v rest rfl (fun _ => rfl) (ih v rest h)
    | ProcInst x y =>
      exact LeafRun.of_filler (.ProcInst x y) ts v rest rfl (fun _ => rfl) (ih v rest h)
    | Directive x =>
      exact LeafRun.of_filler (.Directive x) ts v rest rfl (fun _ => rfl) (ih v rest h)

theorem parseDate_leafSpec (lib : Lib) : LeafSpec (parseDate lib) := by
  intro s
  induction s with
  | nil => intro v rest h; simp [parseDate] at h
  | cons t ts ih =>
    intro v rest h
    cases t with
    | StartElement x => simp [parseDate] at h
    | EndElement n =>
      simp only [parseDate, Res.ok.injEq] at h
      obtain ⟨rfl, rfl⟩ := h
      exact LeafRun.of_end n ts _ rfl (fun _ => rfl)
    | CharData x =>
      simp only [parseDate] at h
      cases hx : lib.timeParse x with
      | none =>
        simp only [hx, Res.ok.injEq] at h
        obtain ⟨rfl, rfl⟩ := h
        exact LeafRun.of_text x ts _ 0 rfl (fun _ => by simp only [parseDate, hx]; rfl)
      | some d =>
        simp only [hx, Res.ok.injEq] at h
        obtain ⟨rfl, rfl⟩ := h
        exact LeafRun.of_text x ts _ 0 rfl (fun _ => by simp only [parseDate, hx]; rfl)
    | Comment x => exact LeafRun.of_filler (.Comment x) ts v rest rfl (fun _ => rfl) (ih v rest h)
    | ProcInst x y =>
      exact LeafRun.of_filler (.ProcInst x y) ts v rest rfl (fun _ => rfl) (ih v rest h)
    | Directive x =>
      exact LeafRun.of_filler (.Directive x) ts v rest rfl (fun _ => rfl) (ih v rest h)

theorem parseBinary_leafSpec (lib : Lib) (enc : String) (deferred : Nat) :
    LeafSpec (parseBinary lib enc deferred) := by
  intro s
  induction s generalizing deferred with
  | nil => intro v rest h; simp [parseBinary] at h
  | cons t ts ih =>
    intro v rest h
    cases t with
    | StartElement x => simp [parseBinary] at h
    | EndElement n =>
      simp only [parseBinary, Res.ok.injEq] at h
      obtain ⟨rfl, rfl⟩ := h
      refine ⟨[.EndElement n], ts, deferred, rfl, rfl, by simp [netDepth], fun _ => rfl, ?_⟩
      intro p a hp ha
      cases p with
      | nil => rfl
      | cons y p =>
        simp only [List.cons_append, List.cons.injEq] at hp
        exact absurd (List.append_eq_nil.1 hp.2.symm).2 ha
    | CharData x =>
      simp only [parseBinary] at h
      by_cases h1 : enc = "base64" ∨ enc = ""
      · simp only [if_pos h1, Res.ok.injEq] at h
        obtain ⟨rfl, rfl⟩ := h
        exact LeafRun.of_text x ts _ deferred rfl (fun _ => by simp only [parseBinary, if_pos h1])
      · by_cases h2 : enc = "base85"
        · simp only [if_neg h1, if_pos h2, Res.ok.injEq] at h
          obtain ⟨rfl, rfl⟩ := h
          exact LeafRun.of_text x ts _ deferred rfl
            (fun _ => by simp only [parseBinary, if_neg h1, if_pos h2])
        · by_cases h3 : enc = "base16"
          · simp only [if_neg h1, if_neg h2, if_pos h3] at h
            cases hb : base16 x with
            | error e => simp [hb] at h
            | ok out =>
              simp only [hb, Res.ok.injEq] at h
              obtain ⟨rfl, rfl⟩ := h
              exact LeafRun.of_text x ts _ deferred rfl
                (fun _ => by simp only [parseBinary, if_neg h1, if_neg h2, if_pos h3, hb])
          · simp only [if_neg h1, if_neg h2, if_neg h3] at h
            exact LeafRun.of_filler (G := parseBinary lib enc (deferred + 1)) (.CharData x) ts v
              rest rfl (fun _ => by simp only [Filler.token, parseBinary, if_neg h1, if_neg h2,
                if_neg h3]) (ih (deferred + 1) v rest h)
    | Comment x =>
      exact LeafRun.of_filler (.Comment x) ts v rest rfl (fun _ => rfl) (ih deferred v rest h)
    | ProcInst x y =>
      exact LeafRun.of_filler (.ProcInst x y) ts v rest rfl (fun _ => rfl) (ih deferred v rest h)
    | Directive x =>
      exact LeafRun.of_filler (.Directive x) ts v rest rfl (fun _ => rfl) (ih deferred v rest h)

theorem parseUndef_leafSpec : LeafSpec parseUndef := by
  intro s v rest h
  simp only [parseUndef, Res.ok.injEq] at h
  obtain ⟨rfl, rfl⟩ := h
  refine ⟨[], s, 1, rfl, rfl, by simp [netDepth], fun _ => rfl, ?_⟩
  intro p a hp ha
  exact absurd (List.append_eq_nil.1 hp.symm).2 ha

/-- What `parseSomething` does for a tag that is neither `map` nor `array`. -/
theorem parseSomething_leaf (lib : Lib) (fuel : Nat) (t : StartElement)
    (hm : t.Name ≠ "map") (ha : t.Name ≠ "array") (toks : List Token) :
    parseSomething lib (fuel + 1) t toks =
      if t.Name = "boolean" then (parseBoolean toks).map .boolean
      else if t.Name = "integer" then (parseInteger toks).map .integer
      else if t.Name = "real" then (parseReal lib toks).map .real
      else if t.Name = "string" then (parseString toks).map .string
      else if t.Name = "uuid" then (parseUUID lib toks).map .uuid
      else if t.Name = "date" then (parseDate lib toks).map .date
      else if t.Name = "uri" then (parseString toks).map .string
      else if t.Name = "binary" then (parseBinary lib (encodingOf t.Attr) 0 toks).map .binary
      else if t.Name = "undef" then parseUndef toks
      else .panic (.str ("Unexpected element <" ++ t.Name ++ ">")) := by
  rw [parseSomething, if_neg hm, if_neg ha]
  rfl

theorem parseSomething_leafSpec (lib : Lib) (fuel : Nat) (t : StartElement)
    (hm : t.Name ≠ "map") (ha : t.Name ≠ "array") :
    LeafSpec (parseSomething lib (fuel + 1) t) := by
  have h := funext (parseSomething_leaf lib fuel t hm ha)
  rw [h]
  refine LeafSpec.ite _ (LeafSpec.map _ parseBoolean_leafSpec) ?_
  refine LeafSpec.ite _ (LeafSpec.map _ parseInteger_leafSpec) ?_
  refine LeafSpec.ite _ (LeafSpec.map _ (parseReal_leafSpec lib)) ?_
  refine LeafSpec.ite _ (LeafSpec.map _ parseString_leafSpec) ?_
  refine LeafSpec.ite _ (LeafSpec.map _ (parseUUID_leafSpec lib)) ?_
  refine LeafSpec.ite _ (LeafSpec.map _ (parseDate_leafSpec lib)) ?_
  refine LeafSpec.ite _ (LeafSpec.map _ parseString_leafSpec) ?_
  refine LeafSpec.ite _ (LeafSpec.map _ (parseBinary_leafSpec lib _ 0)) ?_
  exact LeafSpec.ite _ parseUndef_leafSpec (LeafSpec.of_panic _)

/-- A routine that returns has read a token, unless there was none. -/
theorem LeafSpec.length_lt {α : Type} {F : List Token → Res α} (hF : LeafSpec F)
    {s : List Token} {v : α} {rest : List Token} (h : F s = .ok v rest) (hs : s ≠ []) :
    rest.length < s.length := by
  obtain ⟨pre, after, k, rfl, rfl, hd, -, -⟩ := hF s v rest h
  have h1 := runDeferred_length_le k after
  cases pre with
  | nil =>
    simp only [netDepth] at hd
    simp only [List.nil_append] at hs ⊢
    exact runDeferred_length_lt k after hd hs
  | cons x pre => simp only [List.cons_append, List.length_cons, List.length_append]; omega

/-- A routine that returns before the tokens `r` has not looked at them. -/
theorem LeafSpec.local {α : Type} {F : List Token → Res α} (hF : LeafSpec F)
    {p r : List Token} {v : α} {rest : List Token} (h : F (p ++ r) = .ok v rest)
    (hr : r ≠ []) (hlen : r.length ≤ rest.length) :
    ∃ q, rest = q ++ r ∧ ∀ r', F (p ++ r') = .ok v (q ++ r') := by
  obtain ⟨pre, after, k, hs, rfl, -, hloc, -⟩ := hF _ v rest h
  have h1 := runDeferred_length_le k after
  rcases List.append_eq_append_iff.1 hs with ⟨a, hpre, hr'⟩ | ⟨a, hp, hafter⟩
  · -- `pre` reaches into `r`
    have : after.length ≤ r.length := by rw [hr']; simp
    have ha : a = [] := by
      have : r.length = after.length := by omega
      rw [hr', List.length_append] at this
      exact List.length_eq_zero.1 (by omega)
    subst ha
    simp only [List.append_nil] at hpre
    simp only [List.nil_append] at hr'
    subst hpre hr'
    have h2 := runDeferred_local k [] r hr (by simpa using hlen)
    simp only [List.nil_append] at h2
    obtain ⟨q, hq, hall⟩ := h2
    exact ⟨q, hq, fun r' => by rw [hloc r', hall r']⟩
  · subst hp hafter
    obtain ⟨q, hq, hall⟩ := runDeferred_local k a r hr hlen
    exact ⟨q, hq, fun r' => by rw [List.append_assoc, hloc, hall r']⟩

/-- A routine that returns after reading into the tokens `r` meets without them the end
of the decoder: it panics with the tokenizer's error, or its `Skip` runs to the end. -/
theorem LeafSpec.truncated {α : Type} {F : List Token → Res α} (hF : LeafSpec F)
    {p r : List Token} {v : α} {rest : List Token} (h : F (p ++ r) = .ok v rest)
    (hlen : rest.length < r.length) :
    F p = .panic (.error .tokenizer) ∨ F p = .ok v [] := by
  obtain ⟨pre, after, k, hs, rfl, -, hloc, hcut⟩ := hF _ v rest h
  rcases List.append_eq_append_iff.1 hs with ⟨a, hpre, hr'⟩ | ⟨a, hp, hafter⟩
  · by_cases ha : a = []
    · subst ha
      simp only [List.append_nil] at hpre
      subst hpre
      right
      have := hloc []
      simp only [List.append_nil] at this
      rw [this]
      have hk : runDeferred k [] = [] := runDeferred_nil k
      rw [hk]
    · left
      exact hcut p a hpre ha
  · subst hp hafter
    right
    have := hloc a
    rw [this, runDeferred_truncated k a r hlen]

/-- A routine that returns and leaves tokens has closed the element it was called in. -/
theorem LeafSpec.depth {α : Type} {F : List Token → Res α} (hF : LeafSpec F)
    {s : List Token} {v : α} {rest : List Token} (h : F s = .ok v rest) (hrest : rest ≠ []) :
    ∃ c, s = c ++ rest ∧ netDepth 1 c = 0 := by
  obtain ⟨pre, after, k, rfl, rfl, hd, -, -⟩ := hF s v rest h
  obtain ⟨c, hc, hdc⟩ := runDeferred_depth k after hrest
  refine ⟨pre ++ c, by rw [List.append_assoc, ← hc], ?_⟩
  rw [netDepth_append, hdc]
  omega

/-! ### Where the recursive routines stop -/

theorem parseSomething_map (lib : Lib) (fuel : Nat) (t : StartElement) (h : t.Name = "map")
    (toks : List Token) :
    parseSomething lib (fuel + 1) t toks = (parseMapLoop lib fuel [] [] false toks).map .map := by
  rw [parseSomething, h]
  rfl

theorem parseSomething_array (lib : Lib) (fuel : Nat) (t : StartElement)
    (h : t.Name = "array") (toks : List Token) :
    parseSomething lib (fuel + 1) t toks = (parseArrayLoop lib fuel [] toks).map .array := by
  rw [parseSomething, h]
  rfl

theorem netDepth_close (c : List Token) (name : String) (h : netDepth 0 c = 0) :
    netDepth 1 (c ++ [.EndElement name]) = 0 := by
  have h1 := (netDepth_mono c 0).2
  simp only [Nat.zero_add] at h1
  rw [netDepth_append]
  simp only [netDepth]
  omega

/-- A loop that returns has stopped at an end tag of its own name that closes nothing
the loop has read; `parseSomething`, when it leaves tokens, has closed its element. -/
theorem parse_depth (lib : Lib) (fuel : Nat) :
    (∀ m k h s v rest, parseMapLoop lib fuel m k h s = .ok v rest →
      ∃ c, s = c ++ .EndElement "map" :: rest ∧ netDepth 0 c = 0) ∧
    (∀ l s v rest, parseArrayLoop lib fuel l s = .ok v rest →
      ∃ c, s = c ++ .EndElement "array" :: rest ∧ netDepth 0 c = 0) ∧
    (∀ t s v rest, parseSomething lib fuel t s = .ok v rest → rest ≠ [] →
      ∃ c, s = c ++ rest ∧ netDepth 1 c = 0) := by
  induction fuel with
  | zero =>
    refine ⟨?_, ?_, ?_⟩ <;> intros <;> simp_all [parseMapLoop, parseArrayLoop, parseSomething]
  | succ fuel ih =>
    obtain ⟨ihm, iha, ihs⟩ := ih
    refine ⟨?_, ?_, ?_⟩
    · intro m k h s v rest hp
      cases s with
      | nil => simp [parseMapLoop] at hp
      | cons t ts =>
        cases t with
        | StartElement t =>
          simp only [parseMapLoop] at hp
          split at hp
          · split at hp
            · obtain ⟨key, r1, hs, hp⟩ := Res.bind_eq_ok.1 hp
              obtain ⟨c2, hc2, hd2⟩ := ihm _ _ _ _ _ _ hp
              obtain ⟨c1, hc1, hd1⟩ := parseString_leafSpec.depth hs (by rw [hc2]; simp)
              refine ⟨.StartElement t :: (c1 ++ c2), ?_, ?_⟩
              · rw [hc1, hc2]; simp
              · simp only [netDepth]
                rw [netDepth_append, hd1, hd2]
            · simp at hp
          · obtain ⟨val, r1, hs, hp⟩ := Res.bind_eq_ok.1 hp
            obtain ⟨c2, hc2, hd2⟩ := ihm _ _ _ _ _ _ hp
            obtain ⟨c1, hc1, hd1⟩ := ihs _ _ _ _ hs (by rw [hc2]; simp)
            refine ⟨.StartElement t :: (c1 ++ c2), ?_, ?_⟩
            · rw [hc1, hc2]; simp
            · simp only [netDepth]
              rw [netDepth_append, hd1, hd2]
        | EndElement name =>
          simp only [parseMapLoop] at hp
          split at hp
          · rename_i hname
            simp only [Res.ok.injEq] at hp
            obtain ⟨-, rfl⟩ := hp
            subst hname
            exact ⟨[], rfl, rfl⟩
          · simp at hp
        | CharData x =>
          simp only [parseMapLoop] at hp
          obtain ⟨c, hc, hd⟩ := ihm _ _ _ _ _ _ hp
          exact ⟨.CharData x :: c, by rw [hc]; rfl, by simpa [netDepth] using hd⟩
        | Comment x =>
          simp only [parseMapLoop] at hp
          obtain ⟨c, hc, hd⟩ := ihm _ _ _ _ _ _ hp
          exact ⟨.Comment x :: c, by rw [hc]; rfl, by simpa [netDepth] using hd⟩
        | ProcInst x y =>
          simp only [parseMapLoop] at hp
          obtain ⟨c, hc, hd⟩ := ihm _ _ _ _ _ _ hp
          exact ⟨.ProcInst x y :: c, by rw [hc]; rfl, by simpa [netDepth] using hd⟩
        | Directive x =>
          simp only [parseMapLoop] at hp
          obtain ⟨c, hc, hd⟩ := ihm _ _ _ _ _ _ hp
          exact ⟨.Directive x :: c, by rw [hc]; rfl, by simpa [netDepth] using hd⟩
    · intro l s v rest hp
      cases s with
      | nil => simp [parseArrayLoop] at hp
      | cons t ts =>
        cases t with
        | StartElement t =>
          simp only [parseArrayLoop] at hp
          obtain ⟨val, r1, hs, hp⟩ := Res.bind_eq_ok.1 hp
          obtain ⟨c2, hc2, hd2⟩ := iha _ _ _ _ hp
          obtain ⟨c1, hc1, hd1⟩ := ihs _ _ _ _ hs (by rw [hc2]; simp)
          refine ⟨.StartElement t :: (c1 ++ c2), ?_, ?_⟩
          · rw [hc1, hc2]; simp
          · simp only [netDepth]
            rw [netDepth_append, hd1, hd2]
        | EndElement name =>
          simp only [parseArrayLoop] at hp
          split at hp
          · rename_i hname
            simp only [Res.ok.injEq] at hp
            obtain ⟨-, rfl⟩ := hp
            subst hname
            exact ⟨[], rfl, rfl⟩
          · simp at hp
        | CharData x =>
          simp only [parseArrayLoop] at hp
          obtain ⟨c, hc, hd⟩ := iha _ _ _ _ hp
          exact ⟨.CharData x :: c, by rw [hc]; rfl, by simpa [netDepth] using hd⟩
        | Comment x =>
          simp only [parseArrayLoop] at hp
          obtain ⟨c, hc, hd⟩ := iha _ _ _ _ hp
          exact ⟨.Comment x :: c, by rw [hc]; rfl, by simpa [netDepth] using hd⟩
        | ProcInst x y =>
          simp only [parseArrayLoop] at hp
          obtain ⟨c, hc, hd⟩ := iha _ _ _ _ hp
          exact ⟨.ProcInst x y :: c, by rw [hc]; rfl, by simpa [netDepth] using hd⟩
        | Directive x =>
          simp only [parseArrayLoop] at hp
          obtain ⟨c, hc, hd⟩ := iha _ _ _ _ hp
          exact ⟨.Directive x :: c, by rw [hc]; rfl, by simpa [netDepth] using hd⟩
    · intro t s v rest hp hrest
      by_cases hm : t.Name = "map"
      · rw [parseSomething_map lib fuel t hm] at hp
        obtain ⟨m, hp, -⟩ := Res.map_eq_ok.1 hp
        obtain ⟨c, hc, hd⟩ := ihm _ _ _ _ _ _ hp
        exact ⟨c ++ [.EndElement "map"], by rw [hc]; simp, netDepth_close c _ hd⟩
      · by_cases ha : t.Name = "array"
        · rw [parseSomething_array lib fuel t ha] at hp
          obtain ⟨a, hp, -⟩ := Res.map_eq_ok.1 hp
          obtain ⟨c, hc, hd⟩ := iha _ _ _ _ hp
          exact ⟨c ++ [.EndElement "array"], by rw [hc]; simp, netDepth_close c _ hd⟩
        · exact (parseSomething_leafSpec lib fuel t hm ha).depth hp hrest

theorem parseSomething_length_lt (lib : Lib) {fuel : Nat} {t : StartElement}
    {s : List Token} {v : Value} {rest : List Token}
    (h : parseSomething lib fuel t s = .ok v rest) (hs : s ≠ []) : rest.length < s.length := by
  by_cases hrest : rest = []
  · subst hrest
    exact List.length_pos.2 hs
  · obtain ⟨c, rfl, hd⟩ := (parse_depth lib fuel).2.2 _ _ _ _ h hrest
    cases c with
    | nil => simp [netDepth] at hd
    | cons x c => simp only [List.cons_append, List.length_cons, List.length_append]; omega

theorem parseMapLoop_length_lt (lib : Lib) {fuel : Nat} {m : Map} {k : Bytes} {hk : Bool}
    {s : List Token} {v : Map} {rest : List Token}
    (h : parseMapLoop lib fuel m k hk s = .ok v rest) : rest.length < s.length := by
  obtain ⟨c, rfl, -⟩ := (parse_depth lib fuel).1 _ _ _ _ _ _ h
  simp only [List.length_append, List.length_cons]; omega

theorem parseArrayLoop_length_lt (lib : Lib) {fuel : Nat} {l : List Value}
    {s : List Token} {v : Array} {rest : List Token}
    (h : parseArrayLoop lib fuel l s = .ok v rest) : rest.length < s.length := by
  obtain ⟨c, rfl, -⟩ := (parse_depth lib fuel).2.1 _ _ _ _ h
  simp only [List.length_append, List.length_cons]; omega

/-- A routine that returns before the tokens `r` has not looked at them: it returns the
same value, and leaves what it left, before any other tokens `r'`. -/
theorem parse_local (lib : Lib) (fuel : Nat) :
    (∀ m k h p r v rest, parseMapLoop lib fuel m k h (p ++ r) = .ok v rest → r ≠ [] →
      r.length ≤ rest.length →
      ∃ q, rest = q ++ r ∧ ∀ r', parseMapLoop lib fuel m k h (p ++ r') = .ok v (q ++ r')) ∧
    (∀ l p r v rest, parseArrayLoop lib fuel l (p ++ r) = .ok v rest → r ≠ [] →
      r.length ≤ rest.length →
      ∃ q, rest = q ++ r ∧ ∀ r', parseArrayLoop lib fuel l (p ++ r') = .ok v (q ++ r')) ∧
    (∀ t p r v rest, parseSomething lib fuel t (p ++ r) = .ok v rest → r ≠ [] →
      r.length ≤ rest.length →
      ∃ q, rest = q ++ r ∧ ∀ r', parseSomething lib fuel t (p ++ r') = .ok v (q ++ r')) := by
  induction fuel with
  | zero =>
    refine ⟨?_, ?_, ?_⟩ <;> intros <;> simp_all [parseMapLoop, parseArrayLoop, parseSomething]
  | succ fuel ih =>
    obtain ⟨ihm, iha, ihs⟩ := ih
    refine ⟨?_, ?_, ?_⟩
    · intro m k h p r v rest hp hr hlen
      cases p with
      | nil =>
        have := parseMapLoop_length_lt lib hp
        simp only [List.nil_append] at this
        omega
      | cons t ts =>
        cases t with
        | StartElement t =>
          simp only [List.cons_append, parseMapLoop, List.append_eq] at hp
          by_cases hk : ¬ (h = true)
          · by_cases hkey : t.Name = "key"
            · rw [if_pos hk, if_pos hkey] at hp
              obtain ⟨key, r1, hs, hp⟩ := Res.bind_eq_ok.1 hp
              have h1 := parseMapLoop_length_lt lib hp
              obtain ⟨q1, rfl, hall1⟩ := parseString_leafSpec.local hs hr (by omega)
              obtain ⟨q, hq, hall⟩ := ihm _ _ _ _ _ _ _ hp hr hlen
              refine ⟨q, hq, fun r' => ?_⟩
              simp only [List.cons_append, parseMapLoop, List.append_eq]
              rw [if_pos hk, if_pos hkey, hall1 r']
              exact hall r'
            · rw [if_pos hk, if_neg hkey] at hp
              simp at hp
          · rw [if_neg hk] at hp
            obtain ⟨val, r1, hs, hp⟩ := Res.bind_eq_ok.1 hp
            have h1 := parseMapLoop_length_lt lib hp
            obtain ⟨q1, rfl, hall1⟩ := ihs _ _ _ _ _ hs hr (by omega)
            obtain ⟨q, hq, hall⟩ := ihm _ _ _ _ _ _ _ hp hr hlen
            refine ⟨q, hq, fun r' => ?_⟩
            simp only [List.cons_append, parseMapLoop, List.append_eq]
            rw [if_neg hk, hall1 r']
            exact hall r'
        | EndElement name =>
          simp only [List.cons_append, parseMapLoop, List.append_eq] at hp
          by_cases hname : name = "map"
          · rw [if_pos hname] at hp
            simp only [Res.ok.injEq] at hp
            obtain ⟨rfl, rfl⟩ := hp
            exact ⟨ts, rfl, fun r' => by simp only [List.cons_append, parseMapLoop, if_pos hname, List.append_eq]⟩
          · rw [if_neg hname] at hp
            simp at hp
        | CharData x =>
          simp only [List.cons_append, parseMapLoop, List.append_eq] at hp
          obtain ⟨q, hq, hall⟩ := ihm _ _ _ _ _ _ _ hp hr hlen
          exact ⟨q, hq, fun r' => by simp only [List.cons_append, parseMapLoop, List.append_eq]; exact hall r'⟩
        | Comment x =>
          simp only [List.cons_append, parseMapLoop, List.append_eq] at hp
          obtain ⟨q, hq, hall⟩ := ihm _ _ _ _ _ _ _ hp hr hlen
          exact ⟨q, hq, fun r' => by simp only [List.cons_append, parseMapLoop, List.append_eq]; exact hall r'⟩
        | ProcInst x y =>
          simp only [List.cons_append, parseMapLoop, List.append_eq] at hp
          obtain ⟨q, hq, hall⟩ := ihm _ _ _ _ _ _ _ hp hr hlen
          exact ⟨q, hq, fun r' => by simp only [List.cons_append, parseMapLoop, List.append_eq]; exact hall r'⟩
        | Directive x =>
          simp only [List.cons_append, parseMapLoop, List.append_eq] at hp
          obtain ⟨q, hq, hall⟩ := ihm _ _ _ _ _ _ _ hp hr hlen
          exact ⟨q, hq, fun r' => by simp only [List.cons_append, parseMapLoop, List.append_eq]; exact hall r'⟩
    · intro l p r v rest hp hr hlen
      cases p with
      | nil =>
        have := parseArrayLoop_length_lt lib hp
        simp only [List.nil_append] at this
        omega
      | cons t ts =>
        cases t with
        | StartElement t =>
          simp only [List.cons_append, parseArrayLoop, List.append_eq] at hp
          obtain ⟨val, r1, hs, hp⟩ := Res.bind_eq_ok.1 hp
          have h1 := parseArrayLoop_length_lt lib hp
          obtain ⟨q1, rfl, hall1⟩ := ihs _ _ _ _ _ hs hr (by omega)
          obtain ⟨q, hq, hall⟩ := iha _ _ _ _ _ hp hr hlen
          refine ⟨q, hq, fun r' => ?_⟩
          simp only [List.cons_append, parseArrayLoop, List.append_eq]
          rw [hall1 r']
          exact hall r'
        | EndElement name =>
          simp only [List.cons_append, parseArrayLoop, List.append_eq] at hp
          by_cases hname : name = "array"
          · rw [if_pos hname] at hp
            simp only [Res.ok.injEq] at hp
            obtain ⟨rfl, rfl⟩ := hp
            exact ⟨ts, rfl, fun r' => by
              simp only [List.cons_append, parseArrayLoop, if_pos hname, List.append_eq]⟩
          · rw [if_neg hname] at hp
            simp at hp
        | CharData x =>
          simp only [List.cons_append, parseArrayLoop, List.append_eq] at hp
          obtain ⟨q, hq, hall⟩ := iha _ _ _ _ _ hp hr hlen
          exact ⟨q, hq, fun r' => by simp only [List.cons_append, parseArrayLoop, List.append_eq]; exact hall r'⟩
        | Comment x =>
          simp only [List.cons_append, parseArrayLoop, List.append_eq] at hp
          obtain ⟨q, hq, hall⟩ := iha _ _ _ _ _ hp hr hlen
          exact ⟨q, hq, fun r' => by simp only [List.cons_append, parseArrayLoop, List.append_eq]; exact hall r'⟩
        | ProcInst x y =>
          simp only [List.cons_append, parseArrayLoop, List.append_eq] at hp
          obtain ⟨q, hq, hall⟩ := iha _ _ _ _ _ hp hr hlen
          exact ⟨q, hq, fun r' => by simp only [List.cons_append, parseArrayLoop, List.append_eq]; exact hall r'⟩
        | Directive x =>
          simp only [List.cons_append, parseArrayLoop, List.append_eq] at hp
          obtain ⟨q, hq, hall⟩ := iha _ _ _ _ _ hp hr hlen
          exact ⟨q, hq, fun r' => by simp only [List.cons_append, parseArrayLoop, List.append_eq]; exact hall r'⟩
    · intro t p r v rest hp hr hlen
      by_cases hm : t.Name = "map"
      · rw [parseSomething_map lib fuel t hm] at hp
        obtain ⟨m, hloop, rfl⟩ := Res.map_eq_ok.1 hp
        obtain ⟨q, hq, hall⟩ := ihm _ _ _ _ _ _ _ hloop hr hlen
        exact ⟨q, hq, fun r' => by rw [parseSomething_map lib fuel t hm, hall r']; rfl⟩
      · by_cases ha : t.Name = "array"
        · rw [parseSomething_array lib fuel t ha] at hp
          obtain ⟨a, hloop, rfl⟩ := Res.map_eq_ok.1 hp
          obtain ⟨q, hq, hall⟩ := iha _ _ _ _ _ hloop hr hlen
          exact ⟨q, hq, fun r' => by rw [parseSomething_array lib fuel t ha, hall r']; rfl⟩
        · exact (parseSomething_leafSpec lib fuel t hm ha).local hp hr hlen

/-- A loop of `parseArray` that stops at the `</array>` before `r0` stops there, with
the same array, before any other tokens. -/
theorem parseArrayLoop_end_local (lib : Lib) (fuel : Nat) (l : List Value) (p r0 : List Token)
    (v : Array) (rest : List Token)
    (hp : parseArrayLoop lib fuel l (p ++ .EndElement "array" :: r0) = .ok v rest)
    (hlen : rest.length = r0.length) (r' : List Token) :
    parseArrayLoop lib fuel l (p ++ .EndElement "array" :: r') = .ok v r' := by
  induction fuel generalizing l p with
  | zero => simp [parseArrayLoop] at hp
  | succ fuel ih =>
    cases p with
    | nil =>
      simp only [List.nil_append, parseArrayLoop, if_true, Res.ok.injEq] at hp ⊢
      exact ⟨hp.1, trivial⟩
    | cons t ts =>
      cases t with
      | StartElement t =>
        simp only [List.cons_append, parseArrayLoop, List.append_eq] at hp ⊢
        obtain ⟨val, r1, hs, hp⟩ := Res.bind_eq_ok.1 hp
        have h1 := parseArrayLoop_length_lt lib hp
        obtain ⟨q1, rfl, hall1⟩ := (parse_local lib fuel).2.2 _ _ _ _ _ hs (by simp)
          (by simp only [List.length_cons]; omega)
        rw [hall1]
        exact ih _ _ hp
      | EndElement name =>
        simp only [List.cons_append, parseArrayLoop, List.append_eq] at hp
        by_cases hname : name = "array"
        · rw [if_pos hname] at hp
          simp only [Res.ok.injEq] at hp
          obtain ⟨-, rfl⟩ := hp
          simp only [List.length_append, List.length_cons] at hlen
          omega
        · rw [if_neg hname] at hp
          simp at hp
      | CharData x =>
        simp only [List.cons_append, parseArrayLoop, List.append_eq] at hp ⊢
        exact ih _ _ hp
      | Comment x =>
        simp only [List.cons_append, parseArrayLoop, List.append_eq] at hp ⊢
        exact ih _ _ hp
      | ProcInst x y =>
        simp only [List.cons_append, parseArrayLoop, List.append_eq] at hp ⊢
        exact ih _ _ hp
      | Directive x =>
        simp only [List.cons_append, parseArrayLoop, List.append_eq] at hp ⊢
        exact ih _ _ hp

/-- A loop of `parseMap` that stops at the `</map>` before `r0` stops there, with the
same mapping, before any other tokens. -/
theorem parseMapLoop_end_local (lib : Lib) (fuel : Nat) (m : Map) (k : Bytes) (h : Bool)
    (p r0 : List Token) (v : Map) (rest : List Token)
    (hp : parseMapLoop lib fuel m k h (p ++ .EndElement "map" :: r0) = .ok v rest)
    (hlen : rest.length = r0.length) (r' : List Token) :
    parseMapLoop lib fuel m k h (p ++ .EndElement "map" :: r') = .ok v r' := by
  induction fuel generalizing m k h p with
  | zero => simp [parseMapLoop] at hp
  | succ fuel ih =>
    cases p with
    | nil =>
      simp only [List.nil_append, parseMapLoop, if_true, Res.ok.injEq] at hp ⊢
      exact ⟨hp.1, trivial⟩
    | cons t ts =>
      cases t with
      | StartElement t =>
        simp only [List.cons_append, parseMapLoop, List.append_eq] at hp ⊢
        by_cases hk : ¬ (h = true)
        · by_cases hkey : t.Name = "key"
          · rw [if_pos hk, if_pos hkey] at hp ⊢
            obtain ⟨key, r1, hs, hp⟩ := Res.bind_eq_ok.1 hp
            have h1 := parseMapLoop_length_lt lib hp
            obtain ⟨q1, rfl, hall1⟩ := parseString_leafSpec.local hs (by simp)
              (by simp only [List.length_cons]; omega)
            rw [hall1]
            exact ih _ _ _ _ hp
          · rw [if_pos hk, if_neg hkey] at hp
            simp at hp
        · rw [if_neg hk] at hp ⊢
          obtain ⟨val, r1, hs, hp⟩ := Res.bind_eq_ok.1 hp
          have h1 := parseMapLoop_length_lt lib hp
          obtain ⟨q1, rfl, hall1⟩ := (parse_local lib fuel).2.2 _ _ _ _ _ hs (by simp)
            (by simp only [List.length_cons]; omega)
          rw [hall1]
          exact ih _ _ _ _ hp
      | EndElement name =>
        simp only [List.cons_append, parseMapLoop, List.append_eq] at hp
        by_cases hname : name = "map"
        · rw [if_pos hname] at hp
          simp only [Res.ok.injEq] at hp
          obtain ⟨-, rfl⟩ := hp
          simp only [List.length_append, List.length_cons] at hlen
          omega
        · rw [if_neg hname] at hp
          simp at hp
      | CharData x =>
        simp only [List.cons_append, parseMapLoop, List.append_eq] at hp ⊢
        exact ih _ _ _ _ hp
      | Comment x =>
        simp only [List.cons_append, parseMapLoop, List.append_eq] at hp ⊢
        exact ih _ _ _ _ hp
      | ProcInst x y =>
        simp only [List.cons_append, parseMapLoop, List.append_eq] at hp ⊢
        exact ih _ _ _ _ hp
      | Directive x =>
        simp only [List.cons_append, parseMapLoop, List.append_eq] at hp ⊢
        exact ih _ _ _ _ hp

/-- On the well-nested content of an `<array>`, followed by its end tag and by tokens
among which no `</array>` is left unmatched, a loop of `parseArray` that returns has
stopped at that end tag, and returns the same array whatever follows the end tag. -/
theorem parseArrayLoop_wellNested (lib : Lib) (fuel : Nat) (l : List Value)
    (body : List Token) (n : String) (after : List Token) (v : Array) (rest : List Token)
    (hbody : wellNested 0 body = true) (hafter : "array" ∉ unmatchedEnds 0 after)
    (hp : parseArrayLoop lib fuel l (body ++ .EndElement n :: after) = .ok v rest) :
    ∀ after', parseArrayLoop lib fuel l (body ++ .EndElement n :: after') = .ok v after' := by
  obtain ⟨c, hc, hd⟩ := (parse_depth lib fuel).2.1 _ _ _ _ hp
  rcases first_unmatched_end body after c rest n "array" hbody hd hc with ⟨-, hn, hrest⟩ | hmem
  · subst hn hrest
    exact parseArrayLoop_end_local lib fuel l body rest v rest hp rfl
  · exact absurd hmem hafter

/-- The same for a loop of `parseMap` on the content of a `<map>`. -/
theorem parseMapLoop_wellNested (lib : Lib) (fuel : Nat) (m : Map) (k : Bytes) (h : Bool)
    (body : List Token) (n : String) (after : List Token) (v : Map) (rest : List Token)
    (hbody : wellNested 0 body = true) (hafter : "map" ∉ unmatchedEnds 0 after)
    (hp : parseMapLoop lib fuel m k h (body ++ .EndElement n :: after) = .ok v rest) :
    ∀ after', parseMapLoop lib fuel m k h (body ++ .EndElement n :: after') = .ok v after' := by
  obtain ⟨c, hc, hd⟩ := (parse_depth lib fuel).1 _ _ _ _ _ _ hp
  rcases first_unmatched_end body after c rest n "map" hbody hd hc with ⟨-, hn, hrest⟩ | hmem
  · subst hn hrest
    exact parseMapLoop_end_local lib fuel m k h body rest v rest hp rfl
  · exact absurd hmem hafter

/-! ### A decoder cut short -/

/-- A routine that returns after reading into the tokens `r` meets, without them, the
end of the decoder: a loop panics with the tokenizer's error, and `parseSomething`
panics with it or returns from a `Skip` that ran to the end. -/
theorem parse_truncated (lib : Lib) (fuel : Nat) :
    (∀ m k h p r v rest, parseMapLoop lib fuel m k h (p ++ r) = .ok v rest →
      rest.length < r.length → parseMapLoop lib fuel m k h p = .panic (.error .tokenizer)) ∧
    (∀ l p r v rest, parseArrayLoop lib fuel l (p ++ r) = .ok v rest →
      rest.length < r.length → parseArrayLoop lib fuel l p = .panic (.error .tokenizer)) ∧
    (∀ t p r v rest, parseSomething lib fuel t (p ++ r) = .ok v rest →
      rest.length < r.length →
      parseSomething lib fuel t p = .panic (.error .tokenizer) ∨
        parseSomething lib fuel t p = .ok v []) := by
  induction fuel with
  | zero =>
    refine ⟨?_, ?_, ?_⟩ <;> intros <;> simp_all [parseMapLoop, parseArrayLoop, parseSomething]
  | succ fuel ih =>
    obtain ⟨ihm, iha, ihs⟩ := ih
    refine ⟨?_, ?_, ?_⟩
    · intro m k h p r v rest hp hlen
      have hr : r ≠ [] := by rintro rfl; simp at hlen
      cases p with
      | nil => simp [parseMapLoop]
      | cons t ts =>
        cases t with
        | StartElement t =>
          simp only [List.cons_append, parseMapLoop, List.append_eq] at hp ⊢
          by_cases hk : ¬ (h = true)
          · by_cases hkey : t.Name = "key"
            · rw [if_pos hk, if_pos hkey] at hp ⊢
              obtain ⟨key, r1, hs, hp⟩ := Res.bind_eq_ok.1 hp
              obtain ⟨f, rfl⟩ : ∃ f, fuel = f + 1 := by
                cases fuel with
                | zero => simp [parseMapLoop] at hp
                | succ f => exact ⟨f, rfl⟩
              by_cases hin : r.length ≤ r1.length
              · obtain ⟨q1, rfl, hall1⟩ := parseString_leafSpec.local hs hr hin
                have h0 := hall1 []
                simp only [List.append_nil] at h0
                rw [h0]
                exact ihm _ _ _ _ _ _ _ hp hlen
              · rcases parseString_leafSpec.truncated hs (by omega) with h0 | h0
                · rw [h0]; rfl
                · rw [h0]; simp [Res.bind, parseMapLoop]
            · rw [if_pos hk, if_neg hkey] at hp
              simp at hp
          · rw [if_neg hk] at hp ⊢
            obtain ⟨val, r1, hs, hp⟩ := Res.bind_eq_ok.1 hp
            obtain ⟨f, rfl⟩ : ∃ f, fuel = f + 1 := by
              cases fuel with
              | zero => simp [parseMapLoop] at hp
              | succ f => exact ⟨f, rfl⟩
            by_cases hin : r.length ≤ r1.length
            · obtain ⟨q1, rfl, hall1⟩ := (parse_local lib _).2.2 _ _ _ _ _ hs hr hin
              have h0 := hall1 []
              simp only [List.append_nil] at h0
              rw [h0]
              exact ihm _ _ _ _ _ _ _ hp hlen
            · rcases ihs _ _ _ _ _ hs (by omega) with h0 | h0
              · rw [h0]; rfl
              · rw [h0]; simp [Res.bind, parseMapLoop]
        | EndElement name =>
          simp only [List.cons_append, parseMapLoop, List.append_eq] at hp
          by_cases hname : name = "map"
          · rw [if_pos hname] at hp
            simp only [Res.ok.injEq] at hp
            obtain ⟨-, rfl⟩ := hp
            simp only [List.length_append] at hlen
            omega
          · rw [if_neg hname] at hp
            simp at hp
        | CharData x =>
          simp only [List.cons_append, parseMapLoop, List.append_eq] at hp ⊢
          exact ihm _ _ _ _ _ _ _ hp hlen
        | Comment x =>
          simp only [List.cons_append, parseMapLoop, List.append_eq] at hp ⊢
          exact ihm _ _ _ _ _ _ _ hp hlen
        | ProcInst x y =>
          simp only [List.cons_append, parseMapLoop, List.append_eq] at hp ⊢
          exact ihm _ _ _ _ _ _ _ hp hlen
        | Directive x =>
          simp only [List.cons_append, parseMapLoop, List.append_eq] at hp ⊢
          exact ihm _ _ _ _ _ _ _ hp hlen
    · intro l p r v rest hp hlen
      have hr : r ≠ [] := by rintro rfl; simp at hlen
      cases p with
      | nil => simp [parseArrayLoop]
      | cons t ts =>
        cases t with
        | StartElement t =>
          simp only [List.cons_append, parseArrayLoop, List.append_eq] at hp ⊢
          obtain ⟨val, r1, hs, hp⟩ := Res.bind_eq_ok.1 hp
          obtain ⟨f, rfl⟩ : ∃ f, fuel = f + 1 := by
            cases fuel with
            | zero => simp [parseArrayLoop] at hp
            | succ f => exact ⟨f, rfl⟩
          by_cases hin : r.length ≤ r1.length
          · obtain ⟨q1, rfl, hall1⟩ := (parse_local lib _).2.2 _ _ _ _ _ hs hr hin
            have h0 := hall1 []
            simp only [List.append_nil] at h0
            rw [h0]
            exact iha _ _ _ _ _ hp hlen
          · rcases ihs _ _ _ _ _ hs (by omega) with h0 | h0
            · rw [h0]; rfl
            · rw [h0]; simp [Res.bind, parseArrayLoop]
        | EndElement name =>
          simp only [List.cons_append, parseArrayLoop, List.append_eq] at hp
          by_cases hname : name = "array"
          · rw [if_pos hname] at hp
            simp only [Res.ok.injEq] at hp
            obtain ⟨-, rfl⟩ := hp
            simp only [List.length_append] at hlen
            omega
          · rw [if_neg hname] at hp
            simp at hp
        | CharData x =>
          simp only [List.cons_append, parseArrayLoop, List.append_eq] at hp ⊢
          exact iha _ _ _ _ _ hp hlen
        | Comment x =>
          simp only [List.cons_append, parseArrayLoop, List.append_eq] at hp ⊢
          exact iha _ _ _ _ _ hp hlen
        | ProcInst x y =>
          simp only [List.cons_append, parseArrayLoop, List.append_eq] at hp ⊢
          exact iha _ _ _ _ _ hp hlen
        | Directive x =>
          simp only [List.cons_append, parseArrayLoop, List.append_eq] at hp ⊢
          exact iha _ _ _ _ _ hp hlen
    · intro t p r v rest hp hlen
      by_cases hm : t.Name = "map"
      · rw [parseSomething_map lib fuel t hm] at hp ⊢
        obtain ⟨m, hloop, -⟩ := Res.map_eq_ok.1 hp
        left
        rw [ihm _ _ _ _ _ _ _ hloop hlen]; rfl
      · by_cases ha : t.Name = "array"
        · rw [parseSomething_array lib fuel t ha] at hp ⊢
          obtain ⟨a, hloop, -⟩ := Res.map_eq_ok.1 hp
          left
          rw [iha _ _ _ _ _ hloop hlen]; rfl
        · exact (parseSomething_leafSpec lib fuel t hm ha).truncated hp hlen

theorem Unmarshal_congr_value (lib : Lib) {fuel fuel' : Nat} {toks toks' : List Token}
    {v : Value} {rest rest' : List Token} (h : parseLLSD lib fuel toks = .ok v rest)
    (h' : parseLLSD lib fuel' toks' = .ok v rest') (target : Target) :
    Unmarshal lib fuel' toks' target = Unmarshal lib fuel toks target := by
  simp only [Unmarshal, unmarshalBody, h, h']

theorem UnmarshalXML_congr_value (lib : Lib) {fuel fuel' : Nat} {toks toks' : List Token}
    {v : Value} {rest rest' : List Token} (h : parseLLSD lib fuel toks = .ok v rest)
    (h' : parseLLSD lib fuel' toks' = .ok v rest') (target : Target) :
    UnmarshalXML lib toks' target = UnmarshalXML lib toks target := by
  rw [UnmarshalXML_eq_of_parseLLSD lib h (by simp), UnmarshalXML_eq_of_parseLLSD lib h' (by simp)]
  exact Unmarshal_congr_value lib h h' target

/-- A nil error comes from a root that `parseLLSD` has returned. -/
theorem parseLLSD_of_returned_nil (lib : Lib) (toks : List Token) (target : Target)
    (stored : Option Value) (h : UnmarshalXML lib toks target = .returned none stored) :
    ∃ v rest, parseLLSD lib (2 * toks.length + 1) toks = .ok v rest := by
  simp only [UnmarshalXML, Unmarshal, unmarshalBody] at h
  cases hp : parseLLSD lib (2 * toks.length + 1) toks with
  | noFuel => rw [hp] at h; simp at h
  | panic p => rw [hp] at h; cases p <;> simp [recovered] at h
  | ok v rest => exact ⟨v, rest, rfl⟩

theorem parseLLSDRoot_truncated (lib : Lib) (fuel : Nat) (p r : List Token) (v : Value)
    (rest : List Token) (hp : parseLLSDRoot lib fuel (p ++ r) = .ok v rest)
    (hlen : rest.length < r.length) :
    parseLLSDRoot lib fuel p = .panic (.error .tokenizer) ∨
      (v = .undef ∧ parseLLSDRoot lib fuel p = .ok .undef []) := by
  induction p with
  | nil => left; rfl
  | cons t ts ih =>
    cases t with
    | StartElement t =>
      simp only [List.cons_append, parseLLSDRoot, List.append_eq] at hp ⊢
      by_cases hm : t.Name = "map"
      · rw [if_pos hm] at hp ⊢
        obtain ⟨m, hloop, -⟩ := Res.map_eq_ok.1 hp
        left
        simp only [parseMap] at hloop ⊢
        rw [(parse_truncated lib fuel).1 _ _ _ _ _ _ _ hloop hlen]; rfl
      · by_cases ha : t.Name = "array"
        · rw [if_neg hm, if_pos ha] at hp ⊢
          obtain ⟨a, hloop, -⟩ := Res.map_eq_ok.1 hp
          left
          simp only [parseArray] at hloop ⊢
          rw [(parse_truncated lib fuel).2.1 _ _ _ _ _ hloop hlen]; rfl
        · by_cases hu : t.Name = "undef"
          · rw [if_neg hm, if_neg ha, if_pos hu] at hp ⊢
            simp only [parseUndef, Res.ok.injEq, Skip] at hp ⊢
            obtain ⟨rfl, rfl⟩ := hp
            right
            exact ⟨rfl, trivial, skipFrom_truncated ts r 0 hlen⟩
          · rw [if_neg hm, if_neg ha, if_neg hu] at hp
            simp at hp
    | EndElement name =>
      simp only [List.cons_append, parseLLSDRoot, List.append_eq] at hp
      by_cases hname : name = "llsd"
      · rw [if_pos hname] at hp
        simp only [Res.ok.injEq] at hp
        obtain ⟨-, rfl⟩ := hp
        simp only [List.length_append] at hlen
        omega
      · rw [if_neg hname] at hp
        simp at hp
    | CharData x =>
      simp only [List.cons_append, parseLLSDRoot, List.append_eq] at hp ⊢
      exact ih hp
    | Comment x =>
      simp only [List.cons_append, parseLLSDRoot, List.append_eq] at hp ⊢
      exact ih hp
    | ProcInst x y =>
      simp only [List.cons_append, parseLLSDRoot, List.append_eq] at hp ⊢
      exact ih hp
    | Directive x =>
      simp only [List.cons_append, parseLLSDRoot, List.append_eq] at hp ⊢
      exact ih hp

theorem parseLLSD_truncated (lib : Lib) (fuel : Nat) (p r : List Token) (v : Value)
    (rest : List Token) (hp : parseLLSD lib fuel (p ++ r) = .ok v rest)
    (hlen : rest.length < r.length) :
    parseLLSD lib fuel p = .panic (.error .tokenizer) ∨
      (v = .undef ∧ parseLLSD lib fuel p = .ok .undef []) := by
  have hr : r ≠ [] := by rintro rfl; simp at hlen
  induction fuel generalizing p with
  | zero => simp [parseLLSD] at hp
  | succ fuel ih =>
    cases p with
    | nil => left; rfl
    | cons t ts =>
      cases t with
      | StartElement t =>
        simp only [List.cons_append, parseLLSD, List.append_eq] at hp ⊢
        by_cases hl : t.Name = "llsd"
        · rw [if_pos hl] at hp ⊢
          exact parseLLSDRoot_truncated lib fuel ts r v rest hp hlen
        · rw [if_neg hl] at hp ⊢
          obtain ⟨f, rfl⟩ : ∃ f, fuel = f + 1 := by
            cases fuel with
            | zero => simp [parseLLSD] at hp
            | succ f => exact ⟨f, rfl⟩
          by_cases hin : r.length ≤ (skipFrom 0 (ts ++ r)).length
          · obtain ⟨q, hq, hall⟩ := skipFrom_local ts r 0 hr hin
            have h0 := hall []
            simp only [List.append_nil] at h0
            simp only [Skip] at hp ⊢
            rw [hq] at hp
            rw [h0]
            exact ih q hp
          · have h0 := skipFrom_truncated ts r 0 (by omega)
            simp only [Skip]
            rw [h0]
            left; rfl
      | EndElement name =>
        simp only [List.cons_append, parseLLSD, List.append_eq] at hp ⊢
        exact ih ts hp
      | CharData x =>
        simp only [List.cons_append, parseLLSD, List.append_eq] at hp ⊢
        exact ih ts hp
      | Comment x =>
        simp only [List.cons_append, parseLLSD, List.append_eq] at hp ⊢
        exact ih ts hp
      | ProcInst x y =>
        simp only [List.cons_append, parseLLSD, List.append_eq] at hp ⊢
        exact ih ts hp
      | Directive x =>
        simp only [List.cons_append, parseLLSD, List.append_eq] at hp ⊢
        exact ih ts hp

theorem unmatchedEnds_of_end (c : List Token) (name : String) (rest : List Token)
    (h : netDepth 0 c = 0) : name ∈ unmatchedEnds 0 (c ++ .EndElement name :: rest) := by
  rw [unmatchedEnds_append, h]
  simp [unmatchedEnds]

theorem parseLLSD_openRootDocument (lib : Lib) (items : List PrologItem)
    (hitems : ∀ i ∈ items, i.skipped = true) (attr : List Attr) (g : List Filler)
    (t : StartElement) (body : List Token) (fuel : Nat) :
    parseLLSD lib (fuel + 1 + items.length) (openRootDocument items attr g t body) =
      parseLLSDRoot lib fuel (.StartElement t :: body) := by
  rw [openRootDocument, parseLLSD_prolog lib items hitems]
  simp only [parseLLSD, if_true, parseLLSDRoot_fillers]

/-- A container whose end tag has not been delivered does not return. -/
theorem parseLLSDRoot_open (lib : Lib) (fuel : Nat) (t : StartElement) (body : List Token)
    (v : Value) (rest : List Token) (hopen : unmatchedEnds 0 body = [])
    (hp : parseLLSDRoot lib fuel (.StartElement t :: body) = .ok v rest) :
    t.Name ≠ "map" ∧ t.Name ≠ "array" := by
  simp only [parseLLSDRoot] at hp
  refine ⟨fun hm => ?_, fun ha => ?_⟩
  · rw [if_pos hm] at hp
    obtain ⟨m, hloop, -⟩ := Res.map_eq_ok.1 hp
    obtain ⟨c, hc, hd⟩ := (parse_depth lib fuel).1 _ _ _ _ _ _ hloop
    have := unmatchedEnds_of_end c "map" rest hd
    rw [← hc, hopen] at this
    simp at this
  · have hm : t.Name ≠ "map" := by rw [ha]; decide
    rw [if_neg hm, if_pos ha] at hp
    obtain ⟨a, hloop, -⟩ := Res.map_eq_ok.1 hp
    obtain ⟨c, hc, hd⟩ := (parse_depth lib fuel).2.1 _ _ _ _ hloop
    have := unmatchedEnds_of_end c "array" rest hd
    rw [← hc, hopen] at this
    simp at this

theorem UnmarshalXML_open_container (lib : Lib) (items : List PrologItem) (attr : List Attr)
    (g : List Filler) (t : StartElement) (body : List Token) (target : Target)
    (hitems : ∀ i ∈ items, i.skipped = true) (hopen : unmatchedEnds 0 body = [])
    (ht : t.Name = "map" ∨ t.Name = "array") (err : Option GoError) (stored : Option Value)
    (h : UnmarshalXML lib (openRootDocument items attr g t body) target =
      .returned err stored) : err ≠ none ∧ stored = none := by
  cases hp : parseLLSD lib (2 * (openRootDocument items attr g t body).length + 1)
      (openRootDocument items attr g t body) with
  | noFuel => exact absurd hp (parseLLSD_ne_noFuel lib (Nat.le_refl _))
  | panic p =>
    rw [Unmarshal_panic lib hp target] at h
    cases p <;> simp [recovered] at h
    exact ⟨by rw [← h.1]; simp, h.2.symm⟩
  | ok v rest =>
    have hne : parseLLSD lib (2 * (openRootDocument items attr g t body).length + 1)
        (openRootDocument items attr g t body) ≠ .noFuel := by rw [hp]; simp
    have hbig := parseLLSD_fuel_mono lib
      (show 2 * (openRootDocument items attr g t body).length + 1 ≤
        2 * (openRootDocument items attr g t body).length + 1 + 1 + items.length by omega) hne
    rw [hp, parseLLSD_openRootDocument lib items hitems] at hbig
    have := parseLLSDRoot_open lib _ t body v rest hopen hbig
    rcases ht with ht | ht
    · exact absurd ht this.1
    · exact absurd ht this.2

theorem UnmarshalXML_open_undef (lib : Lib) (items : List PrologItem) (attr : List Attr)
    (g : List Filler) (t : StartElement) (body : List Token) (target : Target)
    (hitems : ∀ i ∈ items, i.skipped = true) (ht : t.Name = "undef") :
    UnmarshalXML lib (openRootDocument items attr g t body) target =
      UnmarshalXML lib undefDocument target := by
  have hm : t.Name ≠ "map" := by rw [ht]; decide
  have ha : t.Name ≠ "array" := by rw [ht]; decide
  have hroot : parseLLSD lib (0 + 1 + items.length) (openRootDocument items attr g t body) =
      .ok .undef (Skip body) := by
    rw [parseLLSD_openRootDocument lib items hitems]
    simp only [parseLLSDRoot, if_neg hm, if_neg ha, if_pos ht, parseUndef]
  have hdoc : parseLLSD lib 1 undefDocument = .ok .undef [.EndElement "llsd"] := rfl
  exact UnmarshalXML_congr_value lib hdoc hroot target

/-- C12 fails on the truncated input `<llsd><undef>`: the error of the `Skip` in
`parseUndef` is dropped and `UnmarshalXML` returns the nil error, with the Undefined
root bound as for the complete document. -/
theorem truncated_undef_counterexample :
    UnmarshalXML Lib.sample truncatedUndefDocument .array = .returned none (some (.array [])) ∧
    UnmarshalXML Lib.sample truncatedUndefDocument .map = .returned none (some (.map [])) ∧
    UnmarshalXML Lib.sample truncatedUndefDocument .any = .returned none (some .undef) :=
  ⟨rfl, rfl, rfl⟩

/-- C12, amended: when a token stream that decodes to a `Map` or an `Array` is cut short
by an error of the tokenizer before the last token the decoder reads of it, the end tag of
the root child, `UnmarshalXML` returns that error and stores nothing, wherever the error
falls, the skipping of the remainder of an element included; cut short where it decodes to
the Undefined root, it returns the error or what it returns on the whole stream. On every
stream whose root child is a `<map>` or an `<array>` that no delivered end tag closes,
`UnmarshalXML` returns no nil error and no value. Once the start tag of a root `<undef>` is
delivered, `UnmarshalXML` returns what it returns on `<llsd><undef></undef></llsd>`,
whatever follows. -/
theorem truncated_document (lib : Lib) (fuel : Nat) (delivered dropped : List Token)
    (v : Value) (rest : List Token) (target : Target)
    (h : parseLLSD lib fuel (delivered ++ dropped) = .ok v rest)
    (hcut : rest.length < dropped.length) :
    (v ≠ .undef → UnmarshalXML lib delivered target = .returned (some .tokenizer) none) ∧
    (v = .undef →
      UnmarshalXML lib delivered target = .returned (some .tokenizer) none ∨
      UnmarshalXML lib delivered target = UnmarshalXML lib (delivered ++ dropped) target) ∧
    (∀ (items : List PrologItem) (attr : List Attr) (g : List Filler) (t : StartElement)
      (body : List Token), (∀ i ∈ items, i.skipped = true) →
      (unmatchedEnds 0 body = [] → (t.Name = "map" ∨ t.Name = "array") →
        ∀ err stored, UnmarshalXML lib (openRootDocument items attr g t body) target =
          .returned err stored → err ≠ none ∧ stored = none) ∧
      (t.Name = "undef" →
        UnmarshalXML lib (openRootDocument items attr g t body) target =
          UnmarshalXML lib undefDocument target)) := by
  have htr := parseLLSD_truncated lib fuel delivered dropped v rest h hcut
  refine ⟨?_, ?_, ?_⟩
  · intro hv
    rcases htr with hpanic | ⟨hu, -⟩
    · rw [Unmarshal_panic lib hpanic target]; rfl
    · exact absurd hu hv
  · intro hv
    subst hv
    rcases htr with hpanic | ⟨-, hok⟩
    · left
      rw [Unmarshal_panic lib hpanic target]; rfl
    · right
      exact UnmarshalXML_congr_value lib h hok target
  · intro items attr g t body hitems
    exact ⟨fun hopen ht err stored hret =>
        UnmarshalXML_open_container lib items attr g t body target hitems hopen ht err stored hret,
      fun ht => UnmarshalXML_open_undef lib items attr g t body target hitems ht⟩

/-- C12, amended, at the document of `TestSimpleArray` cut after `<integer>1`: the
skipping after the text `1` runs into the end of the decoder, and the loop of the array
returns the error. -/
theorem truncated_document_witness :
    parseLLSD Lib.sample 40 simpleArrayDocument.tokens =
      .ok (.array [.integer 1, .integer 2, .integer 3])
        (simpleArrayDocument.tokens.drop 18) ∧
    simpleArrayDocument.tokens =
      simpleArrayDocument.tokens.take 7 ++ simpleArrayDocument.tokens.drop 7 ∧
    UnmarshalXML Lib.sample (simpleArrayDocument.tokens.take 7) .array =
      .returned (some .tokenizer) none := by
  have h : parseLLSD Lib.sample 40
      (simpleArrayDocument.tokens.take 7 ++ simpleArrayDocument.tokens.drop 7) =
      .ok (.array [.integer 1, .integer 2, .integer 3])
        (simpleArrayDocument.tokens.drop 18) := rfl
  exact ⟨rfl, rfl, (truncated_document Lib.sample 40 _ _ _ _ .array h (by decide)).1
    (by simp)⟩

/-! ### The tokens after the root child -/

theorem parseLLSDRoot_tail (lib : Lib) (fuel : Nat) (t : StartElement) (body : List Token)
    (n : String) (after : List Token) (v : Value) (rest : List Token)
    (hbody : wellNested 0 body = true)
    (hafter : ∀ name ∈ unmatchedEnds 0 after, name = "llsd")
    (hp : parseLLSDRoot lib fuel (.StartElement t :: (body ++ .EndElement n :: after)) =
      .ok v rest) (after' : List Token) :
    parseLLSDRoot lib fuel (.StartElement t :: (body ++ .EndElement n :: after')) =
      .ok v after' := by
  simp only [parseLLSDRoot] at hp ⊢
  by_cases hm : t.Name = "map"
  · rw [if_pos hm] at hp ⊢
    obtain ⟨m, hloop, rfl⟩ := Res.map_eq_ok.1 hp
    have hno : "map" ∉ unmatchedEnds 0 after := fun hmem => by
      have := hafter _ hmem
      simp at this
    simp only [parseMap] at hloop ⊢
    rw [parseMapLoop_wellNested lib fuel _ _ _ body n after m rest hbody hno hloop after']
    rfl
  · by_cases ha : t.Name = "array"
    · rw [if_neg hm, if_pos ha] at hp ⊢
      obtain ⟨a, hloop, rfl⟩ := Res.map_eq_ok.1 hp
      have hno : "array" ∉ unmatchedEnds 0 after := fun hmem => by
        have := hafter _ hmem
        simp at this
      simp only [parseArray] at hloop ⊢
      rw [parseArrayLoop_wellNested lib fuel _ body n after a rest hbody hno hloop after']
      rfl
    · by_cases hu : t.Name = "undef"
      · rw [if_neg hm, if_neg ha, if_pos hu] at hp ⊢
        simp only [parseUndef, Res.ok.injEq] at hp ⊢
        exact ⟨hp.1, Skip_wellNested body n after' hbody⟩
      · rw [if_neg hm, if_neg ha, if_neg hu] at hp
        simp at hp

theorem parseLLSD_rootDocument (lib : Lib) (items : List PrologItem)
    (hitems : ∀ i ∈ items, i.skipped = true) (attr : List Attr) (g : List Filler)
    (t : StartElement) (body : List Token) (n : String) (after : List Token) (fuel : Nat) :
    parseLLSD lib (fuel + 1 + items.length) (rootDocument items attr g t body n after) =
      parseLLSDRoot lib fuel (.StartElement t :: (body ++ .EndElement n :: after)) := by
  rw [rootDocument, parseLLSD_prolog lib items hitems]
  simp only [parseLLSD, if_true, parseLLSDRoot_fillers]

/-- C19: on a token stream with a root child, a prolog that the search for the root skips,
`<llsd>`, fillers, the start tag of the root child, its well-nested content `body`, the end
tag that closes it and the tokens `after`, where `after` holds no unmatched end tag other
than `</llsd>` as in every stream of the tokenizer, a nil error of `UnmarshalXML` and the
value it stores stay the same when `after` is replaced by arbitrary tokens `after'`: by
further siblings, unknown tags, stray end tags, or nothing at all, the error of the
tokenizer. -/
theorem decode_ignores_tail (lib : Lib) (items : List PrologItem) (attr : List Attr)
    (g : List Filler) (t : StartElement) (body : List Token) (n : String)
    (after after' : List Token) (target : Target) (stored : Option Value)
    (hitems : ∀ i ∈ items, i.skipped = true)
    (hbody : wellNested 0 body = true)
    (hafter : ∀ name ∈ unmatchedEnds 0 after, name = "llsd")
    (h : UnmarshalXML lib (rootDocument items attr g t body n after) target =
      .returned none stored) :
    UnmarshalXML lib (rootDocument items attr g t body n after') target =
      .returned none stored := by
  obtain ⟨v, rest, hp⟩ := parseLLSD_of_returned_nil lib _ target stored h
  have hne : parseLLSD lib (2 * (rootDocument items attr g t body n after).length + 1)
      (rootDocument items attr g t body n after) ≠ .noFuel := by rw [hp]; simp
  have hbig := parseLLSD_fuel_mono lib
    (show 2 * (rootDocument items attr g t body n after).length + 1 ≤
      2 * (rootDocument items attr g t body n after).length + 1 + 1 + items.length by omega) hne
  rw [hp, parseLLSD_rootDocument lib items hitems] at hbig
  have htail := parseLLSDRoot_tail lib _ t body n after v rest hbody hafter hbig after'
  rw [← parseLLSD_rootDocument lib items hitems attr g] at htail
  rw [UnmarshalXML_congr_value lib hp htail target]
  exact h

/-- C19 at `<array><integer>1</integer></array>` under the prolog of `TestDummyAsset`:
the array stored with `</llsd>` after the root child is stored with stray tokens and no
`</llsd>` after it. -/
theorem decode_ignores_tail_witness :
    UnmarshalXML Lib.sample
      (rootDocument samplePrologue [] [whiteSpace] ⟨"array", []⟩ oneIntegerBody "array"
        [.EndElement "llsd"]) .array = .returned none (some (.array [.integer 1])) ∧
    UnmarshalXML Lib.sample
      (rootDocument samplePrologue [] [whiteSpace] ⟨"array", []⟩ oneIntegerBody "array"
        strayTail) .array = .returned none (some (.array [.integer 1])) :=
  ⟨rfl, decode_ignores_tail Lib.sample samplePrologue [] [whiteSpace] ⟨"array", []⟩
    oneIntegerBody "array" [.EndElement "llsd"] strayTail .array _ (by decide) rfl
    (by simp [unmatchedEnds]) rfl⟩

/-! ### Maps of value elements -/

/-- The map `parseMap` builds from keyed values, starting from `m`. -/
theorem foldl_set_keys (kvs : List (Bytes × Value)) (m : Map) (k : Bytes) :
    k ∈ (kvs.foldl (fun m kv => Map.set m kv.1 kv.2) m).keys ↔
      k ∈ m.keys ∨ k ∈ kvs.map Prod.fst := by
  induction kvs generalizing m with
  | nil => simp
  | cons e es ih =>
    simp only [List.foldl_cons, ih, Map.keys_set, List.map_cons, List.mem_cons]
    tauto

theorem foldl_set_nodup (kvs : List (Bytes × Value)) (m : Map) (h : m.keys.Nodup) :
    (kvs.foldl (fun m kv => Map.set m kv.1 kv.2) m).keys.Nodup := by
  induction kvs generalizing m with
  | nil => exact h
  | cons e es ih => exact ih _ (Map.nodup_keys_set m _ _ h)

theorem foldl_set_get?_of_not_mem (kvs : List (Bytes × Value)) (m : Map) (k : Bytes)
    (h : ∀ kv ∈ kvs, kv.1 ≠ k) :
    Map.get? (kvs.foldl (fun m kv => Map.set m kv.1 kv.2) m) k = Map.get? m k := by
  induction kvs generalizing m with
  | nil => rfl
  | cons e es ih =>
    simp only [List.foldl_cons]
    rw [ih _ (fun e' he' => h e' (List.mem_cons_of_mem _ he')), Map.get?_set,
      if_neg (Ne.symm (h e (List.mem_cons_self _ _)))]

theorem foldl_set_get?_last (pre post : List (Bytes × Value)) (kv : Bytes × Value) (m : Map)
    (h : ∀ kv' ∈ post, kv'.1 ≠ kv.1) :
    Map.get? ((pre ++ kv :: post).foldl (fun m kv => Map.set m kv.1 kv.2) m) kv.1 =
      some kv.2 := by
  rw [List.foldl_append, List.foldl_cons, foldl_set_get?_of_not_mem _ _ _ h, Map.get?_set,
    if_pos rfl]

/-- An even number of base16 characters is converted without a fault. -/
theorem base16_even (n : Nat) : ∀ b : Bytes, b.length = 2 * n → ∃ out, base16 b = .ok out := by
  induction n with
  | zero =>
    intro b hb
    have : b = [] := List.length_eq_zero.1 (by omega)
    subst this
    exact ⟨[], rfl⟩
  | succ n ih =>
    intro b hb
    match b, hb with
    | x :: y :: t, hb =>
      obtain ⟨out, hout⟩ := ih t (by simp only [List.length_cons] at hb; omega)
      exact ⟨toByte (ParseInt [x, y] 16 8).1 :: out, by simp only [base16, hout]⟩

/-- A routine that passes over the leading fillers, returns at an end tag, and at character
data returns after a `Skip`, returns on well-formed content and leaves what follows it. -/
theorem scalarContent_decodes {α : Type} (F : List Token → Res α) (c : ScalarContent)
    (hwf : c.wellFormed = true) (hfill : ∀ r, F (fillers c.lead ++ r) = F r)
    (hend : ∃ d, ∀ n r, F (.EndElement n :: r) = .ok d r)
    (htext : ∀ t trail, c.text = some (t, trail) →
      ∃ v, ∀ r, F (.CharData t :: r) = .ok v (Skip r)) :
    ∃ v, ∀ rest, F (c.tokens ++ rest) = .ok v rest := by
  obtain ⟨lead, text, endName⟩ := c
  simp only [ScalarContent.wellFormed, Bool.and_eq_true] at hwf
  cases text with
  | none =>
    obtain ⟨d, hd⟩ := hend
    refine ⟨d, fun rest => ?_⟩
    simp only [ScalarContent.tokens, List.append_assoc, List.nil_append, List.singleton_append]
    rw [hfill]
    exact hd _ _
  | some p =>
    obtain ⟨t, trail⟩ := p
    obtain ⟨v, hv⟩ := htext t trail rfl
    refine ⟨v, fun rest => ?_⟩
    simp only [ScalarContent.tokens, List.append_assoc, List.cons_append,
      List.singleton_append, List.nil_append]
    rw [hfill, hv, Skip_wellNested trail endName rest hwf.2]

theorem scalarContent_decodes_map {α : Type} (F : List Token → Res α) (ctor : α → Value)
    (c : ScalarContent) (hwf : c.wellFormed = true)
    (hfill : ∀ r, F (fillers c.lead ++ r) = F r)
    (hend : ∃ d, ∀ n r, F (.EndElement n :: r) = .ok d r)
    (htext : ∀ t trail, c.text = some (t, trail) →
      ∃ v, ∀ r, F (.CharData t :: r) = .ok v (Skip r)) :
    ∃ v, ∀ rest, (F (c.tokens ++ rest)).map ctor = .ok v rest := by
  obtain ⟨v, hv⟩ := scalarContent_decodes F c hwf hfill hend htext
  exact ⟨ctor v, fun rest => by rw [hv]; rfl⟩

/-- The key of a `<key>` with well-formed content. -/
theorem parseString_content (c : ScalarContent) (hwf : c.wellFormed = true)
    (rest : List Token) : parseString (c.tokens ++ rest) = .ok c.first rest := by
  obtain ⟨lead, text, endName⟩ := c
  simp only [ScalarContent.wellFormed, Bool.and_eq_true] at hwf
  cases text with
  | none =>
    simp only [ScalarContent.tokens, List.append_assoc, List.nil_append, List.singleton_append]
    rw [(leaf_fillers lead hwf.1 _).2.2]
    rfl
  | some p =>
    obtain ⟨t, trail⟩ := p
    simp only [ScalarContent.tokens, List.append_assoc, List.cons_append,
      List.singleton_append, List.nil_append]
    rw [(leaf_fillers lead hwf.1 _).2.2]
    simp only [parseString, ScalarContent.first]
    rw [Skip_wellNested trail endName rest hwf.2]

theorem parseBinary_content (lib : Lib) (enc : String) (c : ScalarContent)
    (hwf : c.wellFormed = true) (hb : binaryText enc c.text = true) :
    ∃ v, ∀ rest, (parseBinary lib enc 0 (c.tokens ++ rest)).map Value.binary = .ok v rest := by
  have hlead : c.lead.all (fun f => !f.isCharData) = true := by
    simp only [ScalarContent.wellFormed, Bool.and_eq_true] at hwf
    exact hwf.1
  refine scalarContent_decodes_map _ _ c hwf
    (fun r => (leaf_lib_fillers lib c.lead hlead r).2.2.2 enc 0) ⟨[], fun _ _ => rfl⟩ ?_
  intro t trail ht
  rw [ht] at hb
  simp only [binaryText, decide_eq_true_eq] at hb
  by_cases h1 : enc = "base64" ∨ enc = ""
  · exact ⟨_, fun r => by simp only [parseBinary, if_pos h1]; rfl⟩
  · by_cases h2 : enc = "base85"
    · exact ⟨_, fun r => by simp only [parseBinary, if_neg h1, if_pos h2]; rfl⟩
    · have h3 : enc = "base16" ∧ t.length % 2 = 0 := by tauto
      obtain ⟨out, hout⟩ := base16_even (t.length / 2) t (by omega)
      exact ⟨out, fun r => by
        simp only [parseBinary, if_neg h1, if_neg h2, if_pos h3.1, hout]; rfl⟩

/-- A well-formed scalar element decodes. -/
theorem scalar_decodes (lib : Lib) (t : StartElement) (c : ScalarContent)
    (h : (Element.scalar t c).wellFormed = true) :
    ∃ v, ∀ rest, parseSomething lib 1 t (c.tokens ++ rest) = .ok v rest := by
  simp only [Element.wellFormed, Bool.and_eq_true, Bool.or_eq_true, decide_eq_true_eq] at h
  obtain ⟨htag, hwf⟩ := h
  have hlead : c.lead.all (fun f => !f.isCharData) = true := by
    simp only [ScalarContent.wellFormed, Bool.and_eq_true] at hwf
    exact hwf.1
  obtain ⟨name, attr⟩ := t
  rcases htag with htag | ⟨hname, hb⟩
  · simp only [scalarTags, List.mem_cons, List.mem_singleton, List.not_mem_nil, or_false] at htag
    rcases htag with h | h | h | h | h | h | h <;> subst h
    · exact scalarContent_decodes_map parseBoolean Value.boolean c hwf
        (fun r => (leaf_fillers c.lead hlead r).1) ⟨false, fun _ _ => rfl⟩
        (fun t _ _ => ⟨_, fun _ => rfl⟩)
    · exact scalarContent_decodes_map parseInteger Value.integer c hwf
        (fun r => (leaf_fillers c.lead hlead r).2.1) ⟨0, fun _ _ => rfl⟩
        (fun t _ _ => ⟨_, fun _ => rfl⟩)
    · exact scalarContent_decodes_map (parseReal lib) Value.real c hwf
        (fun r => (leaf_lib_fillers lib c.lead hlead r).1) ⟨0, fun _ _ => rfl⟩
        (fun t _ _ => ⟨_, fun _ => rfl⟩)
    · exact scalarContent_decodes_map parseString Value.string c hwf
        (fun r => (leaf_fillers c.lead hlead r).2.2) ⟨[], fun _ _ => rfl⟩
        (fun t _ _ => ⟨_, fun _ => rfl⟩)
    · exact scalarContent_decodes_map (parseUUID lib) Value.uuid c hwf
        (fun r => (leaf_lib_fillers lib c.lead hlead r).2.1) ⟨uuidNIL, fun _ _ => rfl⟩
        (fun t _ _ => ⟨_, fun _ => rfl⟩)
    · exact scalarContent_decodes_map (parseDate lib) Value.date c hwf
        (fun r => (leaf_lib_fillers lib c.lead hlead r).2.2.1) ⟨Time.Unix 0 0, fun _ _ => rfl⟩
        (fun t _ _ => ⟨match lib.timeParse t with
          | none => Time.zero
          | some _ => Time.Unix 0 0, fun r => by
            simp only [parseDate]
            cases lib.timeParse t <;> rfl⟩)
    · exact scalarContent_decodes_map parseURI Value.string c hwf
        (fun r => (leaf_fillers c.lead hlead r).2.2) ⟨[], fun _ _ => rfl⟩
        (fun t _ _ => ⟨_, fun _ => rfl⟩)
  · simp only at hname hb
    subst hname
    exact parseBinary_content lib (encodingOf attr) c hwf hb

mutual

/-- A well-formed value element decodes, whatever follows it. -/
theorem element_decodes (lib : Lib) :
    (e : Element) → e.wellFormed = true → ∃ v, e.DecodesTo lib v
  | .scalar t c, h => by
    obtain ⟨v, hv⟩ := scalar_decodes lib t c h
    exact ⟨v, fun rest => ⟨1, hv rest⟩⟩
  | .undef attr content endName, h => by
    refine ⟨.undef, fun rest => ⟨1, ?_⟩⟩
    show parseUndef ((content ++ [.EndElement endName]) ++ rest) = .ok .undef rest
    simp only [Element.wellFormed] at h
    simp only [parseUndef, List.append_assoc, List.singleton_append]
    rw [Skip_wellNested content endName rest h]
  | .array attr cs tail, h => by
    obtain ⟨vs, hvs⟩ := children_decode lib cs (by simpa only [Element.wellFormed] using h)
    refine ⟨.array vs, fun rest => ?_⟩
    obtain ⟨fuel, hf⟩ := hvs [] tail rest
    refine ⟨fuel + 1, ?_⟩
    show (parseArrayLoop lib fuel []
      ((cs.tokens ++ (fillers tail ++ [.EndElement "array"])) ++ rest)).map Value.array = _
    simp only [List.append_assoc, List.singleton_append]
    rw [hf]
    rfl
  | .map attr es tail, h => by
    obtain ⟨kvs, -, hkvs⟩ := entries_decode lib es (by simpa only [Element.wellFormed] using h)
    refine ⟨.map (kvs.foldl (fun m kv => Map.set m kv.1 kv.2) []), fun rest => ?_⟩
    obtain ⟨fuel, hf⟩ := hkvs [] [] tail rest
    refine ⟨fuel + 1, ?_⟩
    show (parseMapLoop lib fuel [] [] false
      ((es.tokens ++ (fillers tail ++ [.EndElement "map"])) ++ rest)).map Value.map = _
    simp only [List.append_assoc, List.singleton_append]
    rw [hf]
    rfl

/-- The loop of `parseArray` over well-formed children, up to `</array>`. -/
theorem children_decode (lib : Lib) :
    (cs : Children) → cs.wellFormed = true →
      ∃ vs : List Value, ∀ l tail rest, ∃ fuel,
        parseArrayLoop lib fuel l (cs.tokens ++ (fillers tail ++ .EndElement "array" :: rest)) =
          .ok (l ++ vs) rest
  | .nil, _ => by
    refine ⟨[], fun l tail rest => ⟨1 + tail.length, ?_⟩⟩
    simp [Children.tokens, parseArrayLoop_fillers, parseArrayLoop]
  | .cons gap e cs, h => by
    simp only [Children.wellFormed, Bool.and_eq_true] at h
    obtain ⟨v, hv⟩ := element_decodes lib e h.1
    obtain ⟨vs, hvs⟩ := children_decode lib cs h.2
    refine ⟨v :: vs, fun l tail rest => ?_⟩
    obtain ⟨f1, h1⟩ := hvs (l ++ [v]) tail rest
    obtain ⟨f2, h2⟩ := hv (cs.tokens ++ (fillers tail ++ .EndElement "array" :: rest))
    have h1' := parseArrayLoop_fuel_mono lib (Nat.le_max_left f1 f2) (by rw [h1]; simp)
    have h2' := parseSomething_fuel_mono lib (Nat.le_max_right f1 f2) (by rw [h2]; simp)
    rw [h1] at h1'
    rw [h2] at h2'
    refine ⟨max f1 f2 + 1 + gap.length, ?_⟩
    simp only [Children.tokens, List.append_assoc, List.cons_append, parseArrayLoop_fillers]
    simp only [parseArrayLoop, h2', Res.bind, h1', List.append_assoc, List.singleton_append]

/-- The loop of `parseMap` over well-formed entries, up to `</map>`. -/
theorem entries_decode (lib : Lib) :
    (es : Entries) → es.wellFormed = true →
      ∃ kvs : List (Bytes × Value),
        List.Forall₂ (fun e kv => kv.1 = e.key ∧ e.value.DecodesTo lib kv.2) es.toList kvs ∧
        ∀ m k tail rest, ∃ fuel,
          parseMapLoop lib fuel m k false
              (es.tokens ++ (fillers tail ++ .EndElement "map" :: rest)) =
            .ok (kvs.foldl (fun m kv => Map.set m kv.1 kv.2) m) rest
  | .nil, _ => by
    refine ⟨[], List.Forall₂.nil, fun m k tail rest => ⟨1 + tail.length, ?_⟩⟩
    simp [Entries.tokens, parseMapLoop_fillers, parseMapLoop]
  | .cons gap keyAttr key afterKey e es, h => by
    simp only [Entries.wellFormed, Bool.and_eq_true] at h
    obtain ⟨⟨hkey, he⟩, hes⟩ := h
    obtain ⟨v, hv⟩ := element_decodes lib e he
    obtain ⟨kvs, hrel, hkvs⟩ := entries_decode lib es hes
    refine ⟨(key.first, v) :: kvs, List.Forall₂.cons ⟨rfl, hv⟩ hrel, fun m k tail rest => ?_⟩
    obtain ⟨f1, h1⟩ := hkvs (Map.set m key.first v) key.first tail rest
    obtain ⟨f2, h2⟩ := hv (es.tokens ++ (fillers tail ++ .EndElement "map" :: rest))
    have h1' := parseMapLoop_fuel_mono lib (Nat.le_max_left f1 f2) (by rw [h1]; simp)
    have h2' := parseSomething_fuel_mono lib (Nat.le_max_right f1 f2) (by rw [h2]; simp)
    rw [h1] at h1'
    rw [h2] at h2'
    refine ⟨max f1 f2 + 1 + afterKey.length + 1 + gap.length, ?_⟩
    simp only [Entries.tokens, List.append_assoc, List.cons_append, parseMapLoop_fillers]
    simp only [parseMapLoop, Bool.false_eq_true, not_false_eq_true, if_true,
      parseString_content key hkey, Res.bind, parseMapLoop_fillers, not_true_eq_false,
      if_false, h2']
    exact h1'

end

/-- The root of a map document. -/
theorem parseLLSD_mapDocument (lib : Lib) (d : MapDocument)
    (h : d.entries.wellFormed = true) :
    ∃ kvs : List (Bytes × Value),
      List.Forall₂ (fun e kv => kv.1 = e.key ∧ e.value.DecodesTo lib kv.2)
        d.entries.toList kvs ∧
      ∃ fuel, parseLLSD lib fuel d.tokens =
        .ok (.map (kvs.foldl (fun m kv => Map.set m kv.1 kv.2) []))
          (fillers d.afterMap ++ .EndElement "llsd" :: fillers d.epilog) := by
  obtain ⟨kvs, hrel, hkvs⟩ := entries_decode lib d.entries h
  obtain ⟨f1, h1⟩ := hkvs [] [] d.afterEntries
    (fillers d.afterMap ++ .EndElement "llsd" :: fillers d.epilog)
  refine ⟨kvs, hrel, f1 + 1 + d.prolog.length, ?_⟩
  rw [MapDocument.tokens, parseLLSD_document]
  simp only [parseLLSDRoot, parseMap]
  rw [if_pos trivial, h1]
  rfl

theorem forallTwo_split {α β : Type} (R : α → β → Prop) (pre : List α) (a : α) (post : List α)
    (l : List β) (h : List.Forall₂ R (pre ++ a :: post) l) :
    ∃ lpre b lpost, l = lpre ++ b :: lpost ∧ R a b ∧ List.Forall₂ R post lpost := by
  induction pre generalizing l with
  | nil =>
    cases h with
    | cons hab hrest => exact ⟨[], _, _, rfl, hab, hrest⟩
  | cons x pre ih =>
    cases h with
    | cons hab hrest =>
      obtain ⟨lpre, b, lpost, rfl, hb, hpost⟩ := ih _ hrest
      exact ⟨_ :: lpre, b, lpost, rfl, hb, hpost⟩

theorem forallTwo_keys (lib : Lib) (es : List KeyedElement) (kvs : List (Bytes × Value))
    (h : List.Forall₂ (fun e kv => kv.1 = e.key ∧ e.value.DecodesTo lib kv.2) es kvs) :
    kvs.map Prod.fst = es.map KeyedElement.key := by
  induction h with
  | nil => rfl
  | cons hab _ ih => simp [hab.1, ih]

/-- C2 fails on `<llsd><map><key>a<!--x-->b</key><integer>1</integer></map></llsd>`: the
key of the map is `a`, the first character-data token of the `<key>`, and the key text
`ab` is no key of it. It fails on `<key>a</key><integer><x/>1</integer>`, where the value
element holds a nested element before its text: `parseInteger` panics and `UnmarshalXML`
returns no nil error. Two more documents of the shape return no nil error. On
`<key>a</key><binary encoding="base16">A</binary>` the odd character makes the index
`output[i/2]` fault, and `Unmarshal` passes the run-time panic on. On
`<key>a</key><binary encoding="base32">AA</binary>` the `Skip` deferred in `parseBinary`
consumes `</map>` and the loop of the map meets `</llsd>`. -/
theorem map_key_text_counterexample :
    UnmarshalXML Lib.sample splitKeyDocument .map =
      .returned none (some (.map [(str "a", .integer 1)])) ∧
    str "ab" ∉ Map.keys [(str "a", .integer 1)] ∧
    parseSomething Lib.sample 1 ⟨"integer", []⟩
      [startTag "x", .EndElement "x", .CharData (str "1"), .EndElement "integer",
        .EndElement "map", .EndElement "llsd"] =
      .panic (.str "Unexpected start element in <integer>") ∧
    UnmarshalXML Lib.sample nestedValueDocument .map =
      .panicked (.runtime "interface conversion: string is not error: missing method Error") ∧
    UnmarshalXML Lib.sample oddBase16MapDocument .map =
      .panicked (.runtime "index out of range") ∧
    UnmarshalXML Lib.sample unknownEncodingMapDocument .map =
      .panicked (.runtime "interface conversion: string is not error: missing method Error") :=
  ⟨rfl, by decide, rfl, rfl, rfl, rfl⟩

/-- C2, amended: a document `<llsd><map> (<key>k</key> v)* </map></llsd>` in which every
`<key>` holds no element before its first character data and is followed by one
well-formed value element (a text scalar with no element before its first character data,
a `<binary>` whose text is base64, base85 or an even number of base16 characters, an
`<undef>`, or an `<array>` or `<map>` of such elements) decodes into a `Map` without
error. The keys of the map are the keys of the entries, the first character-data token of
each `<key>`, each once, so that its size is the number of distinct keys (the number of
entries when no key repeats), and a key is bound to the value that the value element of
the entry where it occurs last decodes to. -/
theorem map_decodes (lib : Lib) (d : MapDocument) (h : d.entries.wellFormed = true) :
    ∃ m : Map,
      UnmarshalXML lib d.tokens .map = .returned none (some (.map m)) ∧
      (∀ k, k ∈ m.keys ↔ k ∈ d.entries.toList.map KeyedElement.key) ∧
      m.keys.Nodup ∧
      m.length = (d.entries.toList.map KeyedElement.key).dedup.length ∧
      ((d.entries.toList.map KeyedElement.key).Nodup → m.length = d.entries.toList.length) ∧
      (∀ pre e post, d.entries.toList = pre ++ e :: post → (∀ e' ∈ post, e'.key ≠ e.key) →
        ∃ v, e.value.DecodesTo lib v ∧ Map.get? m e.key = some v) := by
  obtain ⟨kvs, hrel, fuel, hp⟩ := parseLLSD_mapDocument lib d h
  have hfst := forallTwo_keys lib _ _ hrel
  have hkeys : ∀ k, k ∈ (kvs.foldl (fun m kv => Map.set m kv.1 kv.2) []).keys ↔
      k ∈ d.entries.toList.map KeyedElement.key := by
    intro k
    rw [foldl_set_keys, hfst]
    simp [Map.keys]
  have hnodup := foldl_set_nodup kvs [] (by simp [Map.keys])
  have hlen : (kvs.foldl (fun m kv => Map.set m kv.1 kv.2) []).length =
      (d.entries.toList.map KeyedElement.key).dedup.length := by
    have hperm : List.Perm (kvs.foldl (fun m kv => Map.set m kv.1 kv.2) []).keys
        (d.entries.toList.map KeyedElement.key).dedup :=
      (List.perm_ext_iff_of_nodup hnodup (List.nodup_dedup _)).2
        (fun k => by rw [hkeys, List.mem_dedup])
    have := hperm.length_eq
    simpa [Map.keys] using this
  refine ⟨_, Unmarshal_map lib hp .map, hkeys, hnodup, hlen, ?_, ?_⟩
  · intro hnd
    rw [hlen, List.Nodup.dedup hnd, List.length_map]
  · intro pre e post hsplit hlast
    rw [hsplit] at hrel
    obtain ⟨lpre, b, lpost, rfl, ⟨hb, hdec⟩, hpost⟩ := forallTwo_split _ pre e post kvs hrel
    have hpostKeys := forallTwo_keys lib _ _ hpost
    have hlast' : ∀ kv' ∈ lpost, kv'.1 ≠ b.1 := by
      intro kv' hkv'
      have hmem : kv'.1 ∈ lpost.map Prod.fst := List.mem_map_of_mem _ hkv'
      rw [hpostKeys] at hmem
      obtain ⟨e', he', hk⟩ := List.mem_map.1 hmem
      rw [← hk, hb]
      exact hlast e' he'
    refine ⟨b.2, hdec, ?_⟩
    rw [← hb]
    exact foldl_set_get?_last lpre lpost b [] hlast'

/-- C2, amended, at the document of `TestSimpleMap` with the key `Three` repeated with an
array and the key `One` repeated: `One` 1, `Two` 2, `Three` 3, `Three` the array, `One` 4
decodes to the three bindings `One` 4, `Two` 2, `Three` the array. -/
theorem map_decodes_witness :
    simpleMapDocument.entries.wellFormed = true ∧
    UnmarshalXML Lib.sample simpleMapDocument.tokens .map =
      .returned none (some (.map
        [(str "One", .integer 4), (str "Two", .integer 2),
          (str "Three", .array [.integer 5, .undef])])) ∧
    ∃ m : Map,
      UnmarshalXML Lib.sample simpleMapDocument.tokens .map = .returned none (some (.map m)) ∧
      (∀ k, k ∈ m.keys ↔ k ∈ simpleMapDocument.entries.toList.map KeyedElement.key) ∧
      m.keys.Nodup ∧
      m.length = (simpleMapDocument.entries.toList.map KeyedElement.key).dedup.length ∧
      ((simpleMapDocument.entries.toList.map KeyedElement.key).Nodup →
        m.length = simpleMapDocument.entries.toList.length) ∧
      (∀ pre e post, simpleMapDocument.entries.toList = pre ++ e :: post →
        (∀ e' ∈ post, e'.key ≠ e.key) →
        ∃ v, e.value.DecodesTo Lib.sample v ∧ Map.get? m e.key = some v) :=
  ⟨by decide, rfl, map_decodes Lib.sample simpleMapDocument (by decide)⟩

end LLSD
